import Mathlib

/-!
# bed: the hex editor core (window/cursor engine over an editable buffer)

A shallow embedding of `core/window.go` and of the buffer it drives.

Conventions of the embedding:
* `int64` fields are integers (`Int`); Go's `/` and `%` truncate toward zero, so they
  are `Int.tdiv` and `Int.tmod`.  Go's `int64` arithmetic wraps around: every sum,
  difference and product that takes the height, the width or a count of a call is
  written with `add64`, `sub64` and `mul64`.  The cursor and the length count bytes of
  the buffer; a step of one on them (`w.cursor++`, `w.length--`) and the differences of
  `deleteByte` are exact.
* the methods are written a second time with every operation exact (`cursorUpZ` and so
  on); the two agree on a window whose fields are small (`Window.Small`), and the
  properties that hold there are carried over.
* a `byte` is a natural number below 256; byte arithmetic is reduced modulo 256
  explicitly.
* a method with a pointer receiver becomes a function from the old state to the new
  state.
-/

namespace Bed

/-! ## Helpers from package `util` -/

/-- Modelled from the spec: `util.MaxInt64` is not among the sources; section 4.3
writes it as `max`, the larger of two 64-bit integers. -/
def MaxInt64 (a b : Int) : Int := if a < b then b else a

/-- Modelled from the spec: `util.MinInt64` is not among the sources; section 4.3
writes it as `min`, the smaller of two 64-bit integers. -/
def MinInt64 (a b : Int) : Int := if b < a then b else a

/-- The result of an `int64` operation whose exact result is `x`: Go wraps it around
into `-(1<<63) .. 1<<63 - 1`. -/
def wrap64 (x : Int) : Int :=
  (x + 9223372036854775808) % 18446744073709551616 - 9223372036854775808

/-- `a + b` on `int64`. -/
def add64 (a b : Int) : Int := wrap64 (a + b)

/-- `a - b` on `int64`. -/
def sub64 (a b : Int) : Int := wrap64 (a - b)

/-- `a * b` on `int64`. -/
def mul64 (a b : Int) : Int := wrap64 (a * b)

/-! ## The buffer as the window sees it -/

/-- The error values the window distinguishes: `nil`, `io.EOF`, anything else. -/
inductive Err where
  | nil
  | EOF
  | other
  deriving DecidableEq, Repr

/-- The `whence` argument of `Seek` (`io.SeekStart`, `io.SeekCurrent`, `io.SeekEnd`). -/
inductive Whence where
  | SeekStart
  | SeekCurrent
  | SeekEnd
  deriving DecidableEq, Repr

/-- The methods of `*buffer.Buffer` that `core/window.go` calls.  `buffer/buffer.go` is
not among the sources, so the window is embedded over any implementation `β` of them;
a method that mutates its receiver returns the new receiver. -/
structure BufferOps (β : Type) where
  /-- `Len() (int64, error)`. -/
  Len : β → Int × Err
  /-- `Seek(offset, whence) (int64, error)`. -/
  Seek : β → Int → Whence → β × Int × Err
  /-- `Read(p) (int, error)`: the third component is `p` after the call. -/
  Read : β → List Nat → β × Nat × List Nat × Err
  /-- `Insert(offset, c)`. -/
  Insert : β → Int → Nat → β
  /-- `Replace(offset, c)`. -/
  Replace : β → Int → Nat → β
  /-- `Delete(offset)`. -/
  Delete : β → Int → β

/-! ## `core/window.go` -/

/-- `type position struct`. -/
structure Position where
  cursor : Int
  offset : Int
  deriving DecidableEq, Repr

/-- Modelled from the spec: the type `Mode` is declared outside the sources; section 2
calls it the external tag that distinguishes insert from replace semantics. -/
inductive Mode where
  | ModeNormal
  | ModeInsert
  | ModeReplace
  deriving DecidableEq, Repr

/-- `type Window struct`. -/
structure Window (β : Type) where
  buffer : β
  name : String
  height : Int
  width : Int
  offset : Int
  cursor : Int
  length : Int
  stack : List Position
  append : Bool
  replaceByte : Bool
  extending : Bool
  pending : Bool
  pendingByte : Nat

variable {β : Type}

/-- `NewWindow`: `none` stands for the `(nil, err)` return. -/
def NewWindow (B : BufferOps β) (buffer : β) (name : String) (height width : Int) :
    Option (Window β) :=
  match B.Len buffer with
  | (length, Err.nil) =>
    some { buffer := buffer, name := name, height := height, width := width,
           offset := 0, cursor := 0, length := length, stack := [],
           append := false, replaceByte := false, extending := false,
           pending := false, pendingByte := 0 }
  | _ => none

/-- `Window.readBytes`: the buffer after the call, then `(n, bytes, err)`. -/
def Window.readBytes (B : BufferOps β) (w : Window β) (pos : Int) (len : Nat) :
    β × Nat × List Nat × Err :=
  let bytes := List.replicate len 0
  match B.Seek w.buffer pos Whence.SeekStart with
  | (b1, _, Err.nil) =>
    match B.Read b1 bytes with
    | (b2, n, bytes2, Err.nil) => (b2, n, bytes2, Err.nil)
    | (b2, n, bytes2, Err.EOF) => (b2, n, bytes2, Err.nil)
    | (b2, _, bytes2, err) => (b2, 0, bytes2, err)
  | (b1, _, err) => (b1, 0, bytes, err)

/-- `Window.cursorUp`. -/
def Window.cursorUp (w : Window β) (count : Int) : Window β :=
  let w1 := { w with
    cursor := sub64 w.cursor
      (mul64 (MinInt64 (MaxInt64 count 1) (w.cursor.tdiv w.width)) w.width) }
  if w1.cursor < w1.offset then
    { w1 with offset := mul64 (w1.cursor.tdiv w1.width) w1.width }
  else w1

/-- `Window.cursorDown`. -/
def Window.cursorDown (w : Window β) (count : Int) : Window β :=
  let w1 := { w with
    cursor := add64 w.cursor (MinInt64
      (mul64
        (MinInt64 (MaxInt64 count 1)
          (sub64 ((sub64 (MaxInt64 w.length 1) 1).tdiv w.width) (w.cursor.tdiv w.width)))
        w.width)
      (sub64 (sub64 (MaxInt64 w.length 1) 1) w.cursor)) }
  if w1.cursor ≥ add64 w1.offset (mul64 w1.height w1.width) then
    { w1 with
      offset := mul64
        ((add64 (sub64 w1.cursor (mul64 w1.height w1.width)) w1.width).tdiv w1.width)
        w1.width }
  else w1

/-- `Window.cursorLeft`. -/
def Window.cursorLeft (w : Window β) (count : Int) : Window β :=
  { w with
    cursor := sub64 w.cursor (MinInt64 (MaxInt64 count 1) (w.cursor.tmod w.width)) }

/-- `Window.cursorRight`. -/
def Window.cursorRight (w : Window β) (count : Int) : Window β :=
  { w with
    cursor := add64 w.cursor (MinInt64
      (MinInt64 (MaxInt64 count 1) (sub64 (sub64 w.width 1) (w.cursor.tmod w.width)))
      (sub64 (sub64 (MaxInt64 w.length 1) 1) w.cursor)) }

/-- `Window.cursorPrev`. -/
def Window.cursorPrev (w : Window β) (count : Int) : Window β :=
  let w1 := { w with cursor := sub64 w.cursor (MinInt64 (MaxInt64 count 1) w.cursor) }
  if w1.cursor < w1.offset then
    { w1 with offset := mul64 (w1.cursor.tdiv w1.width) w1.width }
  else w1

/-- `Window.cursorNext`. -/
def Window.cursorNext (w : Window β) (count : Int) : Window β :=
  let w1 := { w with
    cursor := add64 w.cursor
      (MinInt64 (MaxInt64 count 1) (sub64 (sub64 (MaxInt64 w.length 1) 1) w.cursor)) }
  if w1.cursor ≥ add64 w1.offset (mul64 w1.height w1.width) then
    { w1 with
      offset := mul64
        ((add64 (sub64 w1.cursor (mul64 w1.height w1.width)) w1.width).tdiv w1.width)
        w1.width }
  else w1

/-- `Window.cursorHead`: the count is ignored. -/
def Window.cursorHead (w : Window β) (_count : Int) : Window β :=
  { w with cursor := sub64 w.cursor (w.cursor.tmod w.width) }

/-- `Window.cursorEnd`: `(w.cursor/w.width + MaxInt64(count, 1))*w.width - 1` takes the
count as it is, and nothing clamps it before the product. -/
def Window.cursorEnd (w : Window β) (count : Int) : Window β :=
  let w1 := { w with
    cursor := MinInt64
      (sub64 (mul64 (add64 (w.cursor.tdiv w.width) (MaxInt64 count 1)) w.width) 1)
      (sub64 (MaxInt64 w.length 1) 1) }
  if w1.cursor ≥ add64 w1.offset (mul64 w1.height w1.width) then
    { w1 with
      offset := mul64
        ((add64 (sub64 w1.cursor (mul64 w1.height w1.width)) w1.width).tdiv w1.width)
        w1.width }
  else w1

/-- `Window.scrollUp`. -/
def Window.scrollUp (w : Window β) (count : Int) : Window β :=
  let w1 := { w with
    offset := sub64 w.offset
      (mul64 (MinInt64 (MaxInt64 count 1) (w.offset.tdiv w.width)) w.width) }
  if w1.cursor ≥ add64 w1.offset (mul64 w1.height w1.width) then
    { w1 with
      cursor := sub64 w1.cursor
        (mul64
          (add64
            ((sub64 (sub64 w1.cursor w1.offset) (mul64 w1.height w1.width)).tdiv w1.width) 1)
          w1.width) }
  else w1

/-- `Window.scrollDown`. -/
def Window.scrollDown (w : Window β) (count : Int) : Window β :=
  let h := sub64 ((sub64 (add64 (MaxInt64 w.length 1) w.width) 1).tdiv w.width) w.height
  let w1 := { w with
    offset := add64 w.offset
      (mul64 (MinInt64 (MaxInt64 count 1) (sub64 h (w.offset.tdiv w.width))) w.width) }
  if w1.cursor < w1.offset then
    { w1 with
      cursor := add64 w1.cursor (MinInt64
        (mul64 ((sub64 (add64 (sub64 w1.offset w1.cursor) w1.width) 1).tdiv w1.width)
          w1.width)
        (sub64 (sub64 (MaxInt64 w1.length 1) 1) w1.cursor)) }
  else w1

/-- `Window.pageUp`. -/
def Window.pageUp (w : Window β) : Window β :=
  let w1 := { w with
    offset := MaxInt64 (sub64 w.offset (mul64 (sub64 w.height 2) w.width)) 0 }
  if w1.offset = 0 then
    { w1 with cursor := 0 }
  else if w1.cursor ≥ add64 w1.offset (mul64 w1.height w1.width) then
    { w1 with cursor := add64 w1.offset (mul64 (sub64 w1.height 1) w1.width) }
  else w1

/-- `Window.pageDown`. -/
def Window.pageDown (w : Window β) : Window β :=
  let offset := MaxInt64
    (mul64 (sub64 ((sub64 (add64 w.length w.width) 1).tdiv w.width) w.height) w.width) 0
  let w1 := { w with
    offset := MinInt64 (add64 w.offset (mul64 (sub64 w.height 2) w.width)) offset }
  if w1.cursor < w1.offset then
    { w1 with cursor := w1.offset }
  else if w1.offset = offset then
    { w1 with
      cursor := mul64
        (sub64 ((sub64 (add64 (MaxInt64 w1.length 1) w1.width) 1).tdiv w1.width) 1)
        w1.width }
  else w1

/-- `Window.pageUpHalf`. -/
def Window.pageUpHalf (w : Window β) : Window β :=
  let w1 := { w with
    offset := MaxInt64
      (sub64 w.offset (mul64 (MaxInt64 (w.height.tdiv 2) 1) w.width)) 0 }
  if w1.offset = 0 then
    { w1 with cursor := 0 }
  else if w1.cursor ≥ add64 w1.offset (mul64 w1.height w1.width) then
    { w1 with cursor := add64 w1.offset (mul64 (sub64 w1.height 1) w1.width) }
  else w1

/-- `Window.pageDownHalf`. -/
def Window.pageDownHalf (w : Window β) : Window β :=
  let offset := MaxInt64
    (mul64 (sub64 ((sub64 (add64 w.length w.width) 1).tdiv w.width) w.height) w.width) 0
  let w1 := { w with
    offset := MinInt64
      (add64 w.offset (mul64 (MaxInt64 (w.height.tdiv 2) 1) w.width)) offset }
  if w1.cursor < w1.offset then
    { w1 with cursor := w1.offset }
  else if w1.offset = offset then
    { w1 with
      cursor := mul64
        (sub64 ((sub64 (add64 (MaxInt64 w1.length 1) w1.width) 1).tdiv w1.width) 1)
        w1.width }
  else w1

/-- `Window.pageTop`. -/
def Window.pageTop (w : Window β) : Window β :=
  { w with offset := 0, cursor := 0 }

/-- `Window.pageEnd`. -/
def Window.pageEnd (w : Window β) : Window β :=
  { w with
    offset := MaxInt64
      (mul64 (sub64 ((sub64 (add64 w.length w.width) 1).tdiv w.width) w.height) w.width) 0,
    cursor := mul64
      (sub64 ((sub64 (add64 (MaxInt64 w.length 1) w.width) 1).tdiv w.width) 1) w.width }

/-- `isDigit`. -/
def isDigit (b : Nat) : Bool := 0x30 ≤ b && b ≤ 0x39

/-- `isWhite`. -/
def isWhite (b : Nat) : Bool := b == 0x00 || b == 0x09 || b == 0x0a || b == 0x0d || b == 0x20

/-- The library call `strconv.ParseInt(s, 10, 64)` on a string of ASCII digits, the
only strings `jumpTo` passes: the decimal value, or `1<<63 - 1` when the value does
not fit (the range error is dropped by the caller); `0` for any other string. -/
def ParseInt (s : List Nat) : Int :=
  if s = [] ∨ ¬ s.all isDigit then 0
  else
    let v : Nat := s.foldl (fun acc d => acc * 10 + (d - 0x30)) 0
    if v > 2 ^ 63 - 1 then 2 ^ 63 - 1 else (v : Int)

/-- First loop of `jumpTo`: `for i = s; i < 2*s && isWhite(bytes[i]); i++`; the first
argument bounds the number of iterations. -/
def jumpTo.skipWhite (bytes : List Nat) (s : Nat) : Nat → Nat → Nat
  | 0, i => i
  | fuel + 1, i =>
    if i < 2 * s ∧ isWhite (bytes.getD i 0) then jumpTo.skipWhite bytes s fuel (i + 1) else i

/-- Second loop of `jumpTo`: `for ; 0 < i && isDigit(bytes[i-1]); i--`. -/
def jumpTo.walkBack (bytes : List Nat) : Nat → Nat
  | 0 => 0
  | i + 1 => if isDigit (bytes.getD i 0) then jumpTo.walkBack bytes i else i + 1

/-- Third loop of `jumpTo`: `for j = i; j < 2*s && isDigit(bytes[j]); j++`; the first
argument bounds the number of iterations. -/
def jumpTo.skipDigits (bytes : List Nat) (s : Nat) : Nat → Nat → Nat
  | 0, j => j
  | fuel + 1, j =>
    if j < 2 * s ∧ isDigit (bytes.getD j 0) then jumpTo.skipDigits bytes s fuel (j + 1) else j

/-- `Window.jumpTo`. -/
def Window.jumpTo (B : BufferOps β) (w : Window β) : Window β :=
  let s : Nat := 50
  match w.readBytes B (MaxInt64 (sub64 w.cursor (s : Int)) 0) (2 * s) with
  | (b1, _, bytes, Err.nil) =>
    let w0 := { w with buffer := b1 }
    let i := jumpTo.skipWhite bytes s (2 * s) s
    if i = 2 * s ∨ ¬ isDigit (bytes.getD i 0) then w0
    else
      let i := jumpTo.walkBack bytes i
      let j := jumpTo.skipDigits bytes s (2 * s) i
      if j = 2 * s then w0
      else
        let offset := ParseInt ((bytes.take j).drop i)
        if offset ≤ 0 ∨ w0.length ≤ offset then w0
        else
          { w0 with
            stack := w0.stack ++ [{ cursor := w0.cursor, offset := w0.offset }],
            cursor := offset,
            offset := MaxInt64
              (sub64 (sub64 offset (offset.tmod w0.width))
                (mul64 (MaxInt64 (w0.height.tdiv 3) 0) w0.width)) 0 }
  | (b1, _, _, _) => { w with buffer := b1 }

/-- `Window.jumpBack`. -/
def Window.jumpBack (w : Window β) : Window β :=
  match w.stack.getLast? with
  | none => w
  | some p => { w with cursor := p.cursor, offset := p.offset, stack := w.stack.dropLast }

/-- Body of the loop of `deleteByte`, run the given number of times. -/
def Window.deleteByte.loop (B : BufferOps β) : Nat → Window β → Window β
  | 0, w => w
  | n + 1, w =>
    let w1 := { w with buffer := B.Delete w.buffer w.cursor, length := w.length - 1 }
    let w2 := if w1.cursor = w1.length ∧ w1.cursor > 0 then
      { w1 with cursor := w1.cursor - 1 } else w1
    Window.deleteByte.loop B n w2

/-- `Window.deleteByte`. -/
def Window.deleteByte (B : BufferOps β) (w : Window β) (count : Int) : Window β :=
  if w.length = 0 then w
  else
    let cnt := MinInt64
      (MinInt64 (MaxInt64 count 1) (w.width - w.cursor.tmod w.width)) (w.length - w.cursor)
    Window.deleteByte.loop B cnt.toNat w

/-- Body of the loop of `deletePrevByte`, run the given number of times. -/
def Window.deletePrevByte.loop (B : BufferOps β) : Nat → Window β → Window β
  | 0, w => w
  | n + 1, w =>
    Window.deletePrevByte.loop B n
      { w with buffer := B.Delete w.buffer (w.cursor - 1),
               cursor := w.cursor - 1, length := w.length - 1 }

/-- `Window.deletePrevByte`. -/
def Window.deletePrevByte (B : BufferOps β) (w : Window β) (count : Int) : Window β :=
  let cnt := MinInt64 (MaxInt64 count 1) (w.cursor.tmod w.width)
  Window.deletePrevByte.loop B cnt.toNat w

/-- `Window.increment`: byte addition wraps modulo 256. -/
def Window.increment (B : BufferOps β) (w : Window β) (count : Int) : Window β :=
  match w.readBytes B w.cursor 1 with
  | (b1, _, bytes, Err.nil) =>
    let c : Nat := (bytes.getD 0 0 + ((MaxInt64 count 1).tmod 256).toNat) % 256
    let w1 : Window β := { w with buffer := B.Replace b1 w.cursor c }
    if w1.length = 0 then { w1 with length := w1.length + 1 } else w1
  | (b1, _, _, _) => { w with buffer := b1 }

/-- `Window.decrement`: byte subtraction wraps modulo 256. -/
def Window.decrement (B : BufferOps β) (w : Window β) (count : Int) : Window β :=
  match w.readBytes B w.cursor 1 with
  | (b1, _, bytes, Err.nil) =>
    let c : Nat := (bytes.getD 0 0 + 256 - ((MaxInt64 count 1).tmod 256).toNat) % 256
    let w1 : Window β := { w with buffer := B.Replace b1 w.cursor c }
    if w1.length = 0 then { w1 with length := w1.length + 1 } else w1
  | (b1, _, _, _) => { w with buffer := b1 }

/-- `Window.startInsert`. -/
def Window.startInsert (w : Window β) : Window β :=
  { w with append := decide (w.length = 0), extending := false, pending := false }

/-- `Window.startInsertHead`. -/
def Window.startInsertHead (w : Window β) : Window β :=
  let w1 := w.cursorHead 0
  { w1 with append := decide (w1.length = 0), extending := false, pending := false }

/-- `Window.startAppend`. -/
def Window.startAppend (w : Window β) : Window β :=
  let w1 := { w with append := true, extending := false, pending := false }
  let w2 := if w1.length > 0 then { w1 with cursor := w1.cursor + 1 } else w1
  let w3 := if w2.cursor = w2.length then
    { w2 with extending := true, length := w2.length + 1 } else w2
  if w3.cursor ≥ add64 w3.offset (mul64 w3.height w3.width) then
    { w3 with
      offset := mul64
        ((add64 (sub64 w3.cursor (mul64 w3.height w3.width)) w3.width).tdiv w3.width)
        w3.width }
  else w3

/-- `Window.startAppendEnd`. -/
def Window.startAppendEnd (w : Window β) : Window β :=
  (w.cursorEnd 0).startAppend

/-- `Window.startReplaceByte`. -/
def Window.startReplaceByte (w : Window β) : Window β :=
  { w with replaceByte := true, append := false, extending := false, pending := false }

/-- `Window.startReplace`. -/
def Window.startReplace (w : Window β) : Window β :=
  { w with replaceByte := false, append := false, extending := false, pending := false }

/-- `Window.exitInsert`. -/
def Window.exitInsert (w : Window β) : Window β :=
  let w1 := { w with pending := false }
  if w1.append then
    let w2 := if w1.extending ∧ w1.length > 0 then
      { w1 with length := w1.length - 1 } else w1
    if w2.cursor > 0 then { w2 with cursor := w2.cursor - 1 } else w2
  else w1

/-- The `switch mode` statement inside `Window.insert`. -/
def Window.insert.switch (B : BufferOps β) (w : Window β) (mode : Mode) (b : Nat) :
    Window β :=
  match mode with
  | Mode.ModeInsert =>
    { w with buffer := B.Insert w.buffer w.cursor (w.pendingByte ||| b),
             cursor := w.cursor + 1, length := w.length + 1 }
  | Mode.ModeReplace =>
    let w1 : Window β :=
      { w with buffer := B.Replace w.buffer w.cursor (w.pendingByte ||| b) }
    let w2 : Window β := if w1.length = 0 then { w1 with length := w1.length + 1 } else w1
    if w2.replaceByte then w2.exitInsert
    else
      let w3 := { w2 with cursor := w2.cursor + 1 }
      if w3.cursor = w3.length then
        { w3 with append := true, extending := true, length := w3.length + 1 }
      else w3
  | _ => w

/-- `Window.insert`: `b << 4` is taken modulo 256, as a `byte`. -/
def Window.insert (B : BufferOps β) (w : Window β) (mode : Mode) (b : Nat) : Window β :=
  if w.pending then
    let w1 := Window.insert.switch B w mode b
    let w2 := if w1.cursor ≥ add64 w1.offset (mul64 w1.height w1.width) then
      { w1 with
        offset := mul64
          ((add64 (sub64 w1.cursor (mul64 w1.height w1.width)) w1.width).tdiv w1.width)
          w1.width }
      else w1
    { w2 with pending := false, pendingByte := 0x00 }
  else
    { w with pending := true, pendingByte := (b <<< 4) % 256 }

/-- `Window.backspace`. -/
def Window.backspace (B : BufferOps β) (w : Window β) : Window β :=
  if w.pending then
    { w with pending := false, pendingByte := 0x00 }
  else if w.cursor > 0 then
    { w with buffer := B.Delete w.buffer (w.cursor - 1),
             cursor := w.cursor - 1, length := w.length - 1 }
  else w

/-! ## Sequences of window operations -/

/-- One call of a method of `Window` that the driver can make, with its arguments. -/
inductive Op where
  | cursorUp (count : Int)
  | cursorDown (count : Int)
  | cursorLeft (count : Int)
  | cursorRight (count : Int)
  | cursorPrev (count : Int)
  | cursorNext (count : Int)
  | cursorHead (count : Int)
  | cursorEnd (count : Int)
  | scrollUp (count : Int)
  | scrollDown (count : Int)
  | pageUp
  | pageDown
  | pageUpHalf
  | pageDownHalf
  | pageTop
  | pageEnd
  | jumpTo
  | jumpBack
  | deleteByte (count : Int)
  | deletePrevByte (count : Int)
  | increment (count : Int)
  | decrement (count : Int)
  | startInsert
  | startInsertHead
  | startAppend
  | startAppendEnd
  | startReplaceByte
  | startReplace
  | exitInsert
  | insert (mode : Mode) (b : Nat)
  | backspace
  deriving DecidableEq, Repr

/-- The window after one call. -/
def Window.apply (B : BufferOps β) (w : Window β) : Op → Window β
  | Op.cursorUp c => w.cursorUp c
  | Op.cursorDown c => w.cursorDown c
  | Op.cursorLeft c => w.cursorLeft c
  | Op.cursorRight c => w.cursorRight c
  | Op.cursorPrev c => w.cursorPrev c
  | Op.cursorNext c => w.cursorNext c
  | Op.cursorHead c => w.cursorHead c
  | Op.cursorEnd c => w.cursorEnd c
  | Op.scrollUp c => w.scrollUp c
  | Op.scrollDown c => w.scrollDown c
  | Op.pageUp => w.pageUp
  | Op.pageDown => w.pageDown
  | Op.pageUpHalf => w.pageUpHalf
  | Op.pageDownHalf => w.pageDownHalf
  | Op.pageTop => w.pageTop
  | Op.pageEnd => w.pageEnd
  | Op.jumpTo => w.jumpTo B
  | Op.jumpBack => w.jumpBack
  | Op.deleteByte c => w.deleteByte B c
  | Op.deletePrevByte c => w.deletePrevByte B c
  | Op.increment c => w.increment B c
  | Op.decrement c => w.decrement B c
  | Op.startInsert => w.startInsert
  | Op.startInsertHead => w.startInsertHead
  | Op.startAppend => w.startAppend
  | Op.startAppendEnd => w.startAppendEnd
  | Op.startReplaceByte => w.startReplaceByte
  | Op.startReplace => w.startReplace
  | Op.exitInsert => w.exitInsert
  | Op.insert mode b => w.insert B mode b
  | Op.backspace => w.backspace B

/-- The window after a sequence of calls, first call first. -/
def Window.run (B : BufferOps β) (w : Window β) (ops : List Op) : Window β :=
  ops.foldl (Window.apply B) w

/-! ## The methods in exact arithmetic

The definitions of this section are not models of the code: they are the methods above
with `add64`, `sub64` and `mul64` replaced by `+`, `-` and `*`, the form in which the
invariants are proved.  The lemmas `cursorUp_small` ... `insert_small`, `apply_small` and
`run_small` show that a method and its exact form give the same window whenever the
call is made on a small window (`Window.Small`); the theorems about the code are stated
for the methods above. -/

/-- `Window.cursorUp` with every sum, difference and product exact. -/
def Window.cursorUpZ (w : Window β) (count : Int) : Window β :=
  let w1 := { w with
    cursor := w.cursor - MinInt64 (MaxInt64 count 1) (w.cursor.tdiv w.width) * w.width }
  if w1.cursor < w1.offset then
    { w1 with offset := w1.cursor.tdiv w1.width * w1.width }
  else w1

/-- `Window.cursorDown` with every sum, difference and product exact. -/
def Window.cursorDownZ (w : Window β) (count : Int) : Window β :=
  let w1 := { w with
    cursor := w.cursor + MinInt64
      (MinInt64 (MaxInt64 count 1)
          ((MaxInt64 w.length 1 - 1).tdiv w.width - w.cursor.tdiv w.width) * w.width)
      (MaxInt64 w.length 1 - 1 - w.cursor) }
  if w1.cursor ≥ w1.offset + w1.height * w1.width then
    { w1 with
      offset := (w1.cursor - w1.height * w1.width + w1.width).tdiv w1.width * w1.width }
  else w1

/-- `Window.cursorLeft` with every sum, difference and product exact. -/
def Window.cursorLeftZ (w : Window β) (count : Int) : Window β :=
  { w with cursor := w.cursor - MinInt64 (MaxInt64 count 1) (w.cursor.tmod w.width) }

/-- `Window.cursorRight` with every sum, difference and product exact. -/
def Window.cursorRightZ (w : Window β) (count : Int) : Window β :=
  { w with
    cursor := w.cursor + MinInt64
      (MinInt64 (MaxInt64 count 1) (w.width - 1 - w.cursor.tmod w.width))
      (MaxInt64 w.length 1 - 1 - w.cursor) }

/-- `Window.cursorPrev` with every sum, difference and product exact. -/
def Window.cursorPrevZ (w : Window β) (count : Int) : Window β :=
  let w1 := { w with cursor := w.cursor - MinInt64 (MaxInt64 count 1) w.cursor }
  if w1.cursor < w1.offset then
    { w1 with offset := w1.cursor.tdiv w1.width * w1.width }
  else w1

/-- `Window.cursorNext` with every sum, difference and product exact. -/
def Window.cursorNextZ (w : Window β) (count : Int) : Window β :=
  let w1 := { w with
    cursor := w.cursor + MinInt64 (MaxInt64 count 1) (MaxInt64 w.length 1 - 1 - w.cursor) }
  if w1.cursor ≥ w1.offset + w1.height * w1.width then
    { w1 with
      offset := (w1.cursor - w1.height * w1.width + w1.width).tdiv w1.width * w1.width }
  else w1

/-- `Window.cursorHead` with every sum, difference and product exact. -/
def Window.cursorHeadZ (w : Window β) (_count : Int) : Window β :=
  { w with cursor := w.cursor - w.cursor.tmod w.width }

/-- `Window.cursorEnd` with every sum, difference and product exact. -/
def Window.cursorEndZ (w : Window β) (count : Int) : Window β :=
  let w1 := { w with
    cursor := MinInt64 ((w.cursor.tdiv w.width + MaxInt64 count 1) * w.width - 1)
      (MaxInt64 w.length 1 - 1) }
  if w1.cursor ≥ w1.offset + w1.height * w1.width then
    { w1 with
      offset := (w1.cursor - w1.height * w1.width + w1.width).tdiv w1.width * w1.width }
  else w1

/-- `Window.scrollUp` with every sum, difference and product exact. -/
def Window.scrollUpZ (w : Window β) (count : Int) : Window β :=
  let w1 := { w with
    offset := w.offset - MinInt64 (MaxInt64 count 1) (w.offset.tdiv w.width) * w.width }
  if w1.cursor ≥ w1.offset + w1.height * w1.width then
    { w1 with
      cursor := w1.cursor -
        ((w1.cursor - w1.offset - w1.height * w1.width).tdiv w1.width + 1) * w1.width }
  else w1

/-- `Window.scrollDown` with every sum, difference and product exact. -/
def Window.scrollDownZ (w : Window β) (count : Int) : Window β :=
  let h := (MaxInt64 w.length 1 + w.width - 1).tdiv w.width - w.height
  let w1 := { w with
    offset := w.offset + MinInt64 (MaxInt64 count 1) (h - w.offset.tdiv w.width) * w.width }
  if w1.cursor < w1.offset then
    { w1 with
      cursor := w1.cursor + MinInt64
        ((w1.offset - w1.cursor + w1.width - 1).tdiv w1.width * w1.width)
        (MaxInt64 w1.length 1 - 1 - w1.cursor) }
  else w1

/-- `Window.pageUp` with every sum, difference and product exact. -/
def Window.pageUpZ (w : Window β) : Window β :=
  let w1 := { w with offset := MaxInt64 (w.offset - (w.height - 2) * w.width) 0 }
  if w1.offset = 0 then
    { w1 with cursor := 0 }
  else if w1.cursor ≥ w1.offset + w1.height * w1.width then
    { w1 with cursor := w1.offset + (w1.height - 1) * w1.width }
  else w1

/-- `Window.pageDown` with every sum, difference and product exact. -/
def Window.pageDownZ (w : Window β) : Window β :=
  let offset := MaxInt64 (((w.length + w.width - 1).tdiv w.width - w.height) * w.width) 0
  let w1 := { w with offset := MinInt64 (w.offset + (w.height - 2) * w.width) offset }
  if w1.cursor < w1.offset then
    { w1 with cursor := w1.offset }
  else if w1.offset = offset then
    { w1 with
      cursor := ((MaxInt64 w1.length 1 + w1.width - 1).tdiv w1.width - 1) * w1.width }
  else w1

/-- `Window.pageUpHalf` with every sum, difference and product exact. -/
def Window.pageUpHalfZ (w : Window β) : Window β :=
  let w1 := { w with
    offset := MaxInt64 (w.offset - MaxInt64 (w.height.tdiv 2) 1 * w.width) 0 }
  if w1.offset = 0 then
    { w1 with cursor := 0 }
  else if w1.cursor ≥ w1.offset + w1.height * w1.width then
    { w1 with cursor := w1.offset + (w1.height - 1) * w1.width }
  else w1

/-- `Window.pageDownHalf` with every sum, difference and product exact. -/
def Window.pageDownHalfZ (w : Window β) : Window β :=
  let offset := MaxInt64 (((w.length + w.width - 1).tdiv w.width - w.height) * w.width) 0
  let w1 := { w with
    offset := MinInt64 (w.offset + MaxInt64 (w.height.tdiv 2) 1 * w.width) offset }
  if w1.cursor < w1.offset then
    { w1 with cursor := w1.offset }
  else if w1.offset = offset then
    { w1 with
      cursor := ((MaxInt64 w1.length 1 + w1.width - 1).tdiv w1.width - 1) * w1.width }
  else w1

/-- `Window.pageEnd` with every sum, difference and product exact. -/
def Window.pageEndZ (w : Window β) : Window β :=
  { w with
    offset := MaxInt64 (((w.length + w.width - 1).tdiv w.width - w.height) * w.width) 0,
    cursor := ((MaxInt64 w.length 1 + w.width - 1).tdiv w.width - 1) * w.width }

/-- `Window.jumpTo` with every sum, difference and product exact. -/
def Window.jumpToZ (B : BufferOps β) (w : Window β) : Window β :=
  let s : Nat := 50
  match w.readBytes B (MaxInt64 (w.cursor - (s : Int)) 0) (2 * s) with
  | (b1, _, bytes, Err.nil) =>
    let w0 := { w with buffer := b1 }
    let i := jumpTo.skipWhite bytes s (2 * s) s
    if i = 2 * s ∨ ¬ isDigit (bytes.getD i 0) then w0
    else
      let i := jumpTo.walkBack bytes i
      let j := jumpTo.skipDigits bytes s (2 * s) i
      if j = 2 * s then w0
      else
        let offset := ParseInt ((bytes.take j).drop i)
        if offset ≤ 0 ∨ w0.length ≤ offset then w0
        else
          { w0 with
            stack := w0.stack ++ [{ cursor := w0.cursor, offset := w0.offset }],
            cursor := offset,
            offset := MaxInt64
              (offset - offset.tmod w0.width - MaxInt64 (w0.height.tdiv 3) 0 * w0.width) 0 }
  | (b1, _, _, _) => { w with buffer := b1 }

/-- `Window.startAppend` with every sum, difference and product exact. -/
def Window.startAppendZ (w : Window β) : Window β :=
  let w1 := { w with append := true, extending := false, pending := false }
  let w2 := if w1.length > 0 then { w1 with cursor := w1.cursor + 1 } else w1
  let w3 := if w2.cursor = w2.length then
    { w2 with extending := true, length := w2.length + 1 } else w2
  if w3.cursor ≥ w3.offset + w3.height * w3.width then
    { w3 with
      offset := (w3.cursor - w3.height * w3.width + w3.width).tdiv w3.width * w3.width }
  else w3

/-- `Window.insert` with every sum, difference and product exact. -/
def Window.insertZ (B : BufferOps β) (w : Window β) (mode : Mode) (b : Nat) : Window β :=
  if w.pending then
    let w1 := Window.insert.switch B w mode b
    let w2 := if w1.cursor ≥ w1.offset + w1.height * w1.width then
      { w1 with
        offset := (w1.cursor - w1.height * w1.width + w1.width).tdiv w1.width * w1.width }
      else w1
    { w2 with pending := false, pendingByte := 0x00 }
  else
    { w with pending := true, pendingByte := (b <<< 4) % 256 }

/-- `Window.startInsertHead` with every sum, difference and product exact. -/
def Window.startInsertHeadZ (w : Window β) : Window β :=
  let w1 := w.cursorHeadZ 0
  { w1 with append := decide (w1.length = 0), extending := false, pending := false }

/-- `Window.startAppendEnd` with every sum, difference and product exact. -/
def Window.startAppendEndZ (w : Window β) : Window β :=
  (w.cursorEndZ 0).startAppendZ

/-- The window after one call, in exact arithmetic. -/
def Window.applyZ (B : BufferOps β) (w : Window β) : Op → Window β
  | Op.cursorUp c => w.cursorUpZ c
  | Op.cursorDown c => w.cursorDownZ c
  | Op.cursorLeft c => w.cursorLeftZ c
  | Op.cursorRight c => w.cursorRightZ c
  | Op.cursorPrev c => w.cursorPrevZ c
  | Op.cursorNext c => w.cursorNextZ c
  | Op.cursorHead c => w.cursorHeadZ c
  | Op.cursorEnd c => w.cursorEndZ c
  | Op.scrollUp c => w.scrollUpZ c
  | Op.scrollDown c => w.scrollDownZ c
  | Op.pageUp => w.pageUpZ
  | Op.pageDown => w.pageDownZ
  | Op.pageUpHalf => w.pageUpHalfZ
  | Op.pageDownHalf => w.pageDownHalfZ
  | Op.pageTop => w.pageTop
  | Op.pageEnd => w.pageEndZ
  | Op.jumpTo => w.jumpToZ B
  | Op.jumpBack => w.jumpBack
  | Op.deleteByte c => w.deleteByte B c
  | Op.deletePrevByte c => w.deletePrevByte B c
  | Op.increment c => w.increment B c
  | Op.decrement c => w.decrement B c
  | Op.startInsert => w.startInsert
  | Op.startInsertHead => w.startInsertHeadZ
  | Op.startAppend => w.startAppendZ
  | Op.startAppendEnd => w.startAppendEndZ
  | Op.startReplaceByte => w.startReplaceByte
  | Op.startReplace => w.startReplace
  | Op.exitInsert => w.exitInsert
  | Op.insert mode b => w.insertZ B mode b
  | Op.backspace => w.backspace B

/-- The window after a sequence of calls, in exact arithmetic. -/
def Window.runZ (B : BufferOps β) (w : Window β) (ops : List Op) : Window β :=
  ops.foldl (Window.applyZ B) w

/-- The fields of the window are far from the edge of the `int64` range: width and
height are positive, `height * width` is at most `1<<56`, and offset, cursor and length
are at most `1<<56` in absolute value. -/
def Window.Small (w : Window β) : Prop :=
  0 < w.width ∧ 0 < w.height ∧ w.height * w.width ≤ 72057594037927936 ∧
    -72057594037927936 ≤ w.offset ∧ w.offset ≤ 72057594037927936 ∧
    -72057594037927936 ≤ w.cursor ∧ w.cursor ≤ 72057594037927936 ∧
    -72057594037927936 ≤ w.length ∧ w.length ≤ 72057594037927936

instance (w : Window β) : Decidable w.Small := by
  unfold Window.Small; infer_instance

/-- The count of the call does not make `cursorEnd` wrap around: the product
`(cursor/width + max(count,1)) * width` is at most `1<<63 - 1`.  No other call
multiplies a count that is not clamped by a field of the window. -/
def Op.countInRange (w : Window β) : Op → Prop
  | Op.cursorEnd c =>
    (w.cursor.tdiv w.width + MaxInt64 c 1) * w.width ≤ 9223372036854775807
  | _ => True

instance (w : Window β) (op : Op) : Decidable (op.countInRange w) := by
  cases op <;> unfold Op.countInRange <;> infer_instance

/-- The call is made on a small window with a count that does not wrap around. -/
def Op.inRange (w : Window β) (op : Op) : Prop :=
  w.Small ∧ op.countInRange w

instance (w : Window β) (op : Op) : Decidable (op.inRange w) := by
  unfold Op.inRange; infer_instance

/-- Every call of the sequence is in range in the state it is made in. -/
def Window.runInRange (B : BufferOps β) (w : Window β) : List Op → Prop
  | [] => True
  | op :: ops => op.inRange w ∧ (w.apply B op).runInRange B ops

instance (B : BufferOps β) (w : Window β) (ops : List Op) :
    Decidable (w.runInRange B ops) := by
  induction ops generalizing w with
  | nil => unfold Window.runInRange; infer_instance
  | cons op ops ih =>
    unfold Window.runInRange
    exact instDecidableAnd

/-! ## Predicates on windows -/

/-- The top-left cell is the first cell of a row, and so is every top-left cell saved
on the jump stack. -/
def OffsetAligned (w : Window β) : Prop :=
  w.width ∣ w.offset ∧ ∀ p ∈ w.stack, w.width ∣ p.offset

/-- The cursor is inside the viewport: `offset <= cursor < offset + height*width`. -/
def InViewport (w : Window β) : Prop :=
  w.offset ≤ w.cursor ∧ w.cursor < w.offset + w.height * w.width

instance (w : Window β) : Decidable (InViewport w) := by
  unfold InViewport; infer_instance

/-- A window over a buffer that is never looked at, for the operations that touch only
the geometry: cursor and offset as given, flags clear, stack empty. -/
def geometry (height width offset cursor length : Int) : Window Unit :=
  { buffer := (), name := "", height := height, width := width, offset := offset,
    cursor := cursor, length := length, stack := [], append := false,
    replaceByte := false, extending := false, pending := false, pendingByte := 0 }

/-- The sixteen motion operations of section 4.3. -/
def Op.isMotion : Op → Bool
  | Op.cursorUp _ | Op.cursorDown _ | Op.cursorLeft _ | Op.cursorRight _
  | Op.cursorPrev _ | Op.cursorNext _ | Op.cursorHead _ | Op.cursorEnd _
  | Op.scrollUp _ | Op.scrollDown _ | Op.pageUp | Op.pageDown
  | Op.pageUpHalf | Op.pageDownHalf | Op.pageTop | Op.pageEnd => true
  | _ => false

/-! ## The editable buffer

`buffer/buffer.go` is not among the sources; `buffer/buffer_test.go` is.  The buffer
is modelled from sections 3.1, 3.2 and 4.1 of the specification, as a sequence of
run-ranges over the byte source, and is held to the three fixtures of the test file
(section 9: "implementers must match the fixture").  Positions are not stored in the
runs: section 4.1 allows an implementation to re-walk the runs to find them. -/

/-- Modelled from the spec: the run-range of section 3.1, whose declaration
(`readerRange` in `buffer/buffer.go`) is missing.  An original run is `len` bytes of the
byte source from source position `pos` on; an overlay run owns its bytes.  The width
of a run is its number of logical positions. -/
inductive Run where
  | original (pos len : Nat)
  | overlay (bytes : List Nat)
  deriving DecidableEq, Repr

/-- Modelled from the spec: the width `max - min` of a run-range (section 3.1). -/
def Run.size : Run → Nat
  | Run.original _ len => len
  | Run.overlay bytes => bytes.length

/-- Modelled from the spec: the bytes a run-range yields when read (section 3.1): an
original run borrows them from the source and yields fewer than its width when the
source ends inside it; an overlay run yields the bytes it owns. -/
def Run.bytes (source : List Nat) : Run → List Nat
  | Run.original pos len => (source.drop pos).take len
  | Run.overlay bytes => bytes

/-- Modelled from the spec: the left part `[lo, p)` of a run split at its `k`-th
position (section 4.1, split policy); backing and source offset are preserved. -/
def Run.take (k : Nat) : Run → Run
  | Run.original pos len => Run.original pos (min k len)
  | Run.overlay bytes => Run.overlay (bytes.take k)

/-- Modelled from the spec: the right part `[p, hi)` of a run split at its `k`-th
position (section 4.1, split policy); backing and source offset are preserved. -/
def Run.drop (k : Nat) : Run → Run
  | Run.original pos len => Run.original (pos + k) (len - k)
  | Run.overlay bytes => Run.overlay (bytes.drop k)

/-- Modelled from the spec: the type `Buffer` of section 3.2, whose declaration in
`buffer/buffer.go` is missing: the byte source, the run-ranges in logical order and the
read cursor `index`.  The last run-range, which the fixtures count in `len(b.rrs)`, is
always the rest of the source from source position `tail` on and is kept apart from
the finite runs `rrs`. -/
structure Buffer where
  source : List Nat
  rrs : List Run
  tail : Nat
  index : Int
  deriving DecidableEq, Repr

/-- Modelled from the spec: `NewBuffer`, missing with `buffer/buffer.go`: one run-range,
the whole source, read cursor 0 (section 3.2, lifecycle). -/
def NewBuffer (r : List Nat) : Buffer :=
  { source := r, rrs := [], tail := 0, index := 0 }

/-- Total width of a list of runs. -/
def runsSize : List Run → Nat
  | [] => 0
  | r :: rs => r.size + runsSize rs

/-- Modelled from the spec: `Buffer.Len`, missing with `buffer/buffer.go`.  Section 3.2
derives the length from the last run-range; the fixtures fix how: the length of the
source, shifted by as much as the last run-range is shifted against the source
(`TestBufferReplace` has `Len() = 16` after `Replace(16, _)` on 16 bytes, and
`TestBufferInsert` has `Len() = 23` after `Insert(23, _)` on 22 bytes). -/
def Buffer.Len (b : Buffer) : Int × Err :=
  ((b.source.length : Int) - (b.tail : Int) + (runsSize b.rrs : Int), Err.nil)

/-- Modelled from the spec: `Buffer.Seek`, missing with `buffer/buffer.go` (section
4.1): the position is taken from the start, the read cursor or the end; a negative
result fails and leaves the cursor alone; there is no clamping to the length. -/
def Buffer.Seek (b : Buffer) (offset : Int) (whence : Whence) : Buffer × Int × Err :=
  let index : Int :=
    match whence with
    | Whence.SeekStart => offset
    | Whence.SeekCurrent => b.index + offset
    | Whence.SeekEnd => b.Len.1 + offset
  if index < 0 then (b, 0, Err.other) else ({ b with index := index }, index, Err.nil)

/-- Modelled from the spec: the walk over the run-ranges that `Buffer.Read` makes
(section 4.1: one call concatenates the contributions of consecutive ranges), for a
read of `want` bytes that starts `idx` positions into the runs.  A run that lies before
the start is skipped; a run that holds the start gives what it has of the positions
asked for, and the walk goes on to the next run only when it has passed the end of
this one (`TestBufferInsert` reads `def9` over a run that the source ends in). -/
def readRuns (source : List Nat) : List Run → Nat → Nat → Nat → List Nat
  | [], tail, idx, want => (source.drop (tail + idx)).take want
  | r :: rs, tail, idx, want =>
    if r.size ≤ idx then readRuns source rs tail (idx - r.size) want
    else
      let out := ((r.bytes source).drop idx).take (min want (r.size - idx))
      if want < r.size - idx then out
      else out ++ readRuns source rs tail 0 (want - out.length)

/-- Modelled from the spec: `Buffer.Read`, missing with `buffer/buffer.go` (section
4.1): fills `p` from the read cursor on, returns the count and advances the cursor by
it; `io.EOF` when nothing could be read into a non-empty `p`, no error on a short
count.  The third component is `p` after the call. -/
def Buffer.Read (b : Buffer) (p : List Nat) : Buffer × Nat × List Nat × Err :=
  let out := readRuns b.source b.rrs b.tail b.index.toNat p.length
  ({ b with index := b.index + out.length }, out.length, out ++ p.drop out.length,
    if out.length = 0 ∧ 0 < p.length then Err.EOF else Err.nil)

/-- Modelled from the spec: the merge policy of section 4.1, one run put in front of
runs that are merged already (the second component is the source position of the last
run-range): an empty run is dropped, an overlay run joins an overlay run that follows
it, an original run joins an original run, or the last run-range, that continues it
in the source. -/
def pushRun (r : Run) (acc : List Run × Nat) : List Run × Nat :=
  match r, acc with
  | Run.overlay [], acc => acc
  | Run.original _ 0, acc => acc
  | Run.overlay a, (Run.overlay b :: rs, t) => (Run.overlay (a ++ b) :: rs, t)
  | Run.original p l, (Run.original q m :: rs, t) =>
    if p + l = q then (Run.original p (l + m) :: rs, t)
    else (Run.original p l :: Run.original q m :: rs, t)
  | Run.original p l, ([], t) => if p + l = t then ([], p) else ([Run.original p l], t)
  | r, (rs, t) => (r :: rs, t)

/-- Modelled from the spec: the merge policy of section 4.1 applied to a whole
sequence of runs (`TestBufferDelete` ends with four run-ranges, which needs the merge
of original runs). -/
def normalize (rs : List Run) (tail : Nat) : List Run × Nat :=
  rs.foldr pushRun ([], tail)

/-- Modelled from the spec: the split of the run-ranges at logical position `i`
(section 4.1, split policy): the runs before `i`, the runs from `i` on, and the source
position of the last run-range, which is cut when `i` lies in it. -/
def splitRuns : List Run → Nat → Nat → List Run × List Run × Nat
  | [], tail, i => ([Run.original tail i], [], tail + i)
  | r :: rs, tail, i =>
    if i < r.size then ([r.take i], r.drop i :: rs, tail)
    else
      let s := splitRuns rs tail (i - r.size)
      (r :: s.1, s.2.1, s.2.2)

/-- Modelled from the spec: the removal of the first position of the runs from `i` on
(section 4.1: a range is shortened by one from its start). -/
def behead : List Run → Nat → List Run × Nat
  | [], tail => ([], tail + 1)
  | r :: rs, tail => (r.drop 1 :: rs, tail)

/-- Modelled from the spec: `Buffer.Insert`, missing with `buffer/buffer.go` (section
4.1): the runs are split at `i` and the byte becomes an overlay run between the parts.
For `i` past the end the fixture decides against the zero fill of section 4.1:
`TestBufferInsert` has `Len() = 23` and reads `def9` after `Insert(23, '9')` on 22
bytes, so the last run-range is cut at `i` and no byte is added for the gap. -/
def Buffer.Insert (b : Buffer) (i : Nat) (c : Nat) : Buffer :=
  let s := splitRuns b.rrs b.tail i
  let n := normalize (s.1 ++ Run.overlay [c] :: s.2.1) s.2.2
  { b with rrs := n.1, tail := n.2 }

/-- Modelled from the spec: `Buffer.Replace`, missing with `buffer/buffer.go` (section
4.1): the runs are split at `i`, the position `i` is taken from the right part and
the byte becomes an overlay run in its place.  For `i` at or past the end the fixture
decides: `TestBufferReplace` has `Len() = 16` after `Replace(16, '1')` on 16 bytes, with
the byte readable at 16. -/
def Buffer.Replace (b : Buffer) (i : Nat) (c : Nat) : Buffer :=
  let s := splitRuns b.rrs b.tail i
  let h := behead s.2.1 s.2.2
  let n := normalize (s.1 ++ Run.overlay [c] :: h.1) h.2
  { b with rrs := n.1, tail := n.2 }

/-- Modelled from the spec: `Buffer.Delete`, missing with `buffer/buffer.go` (section
4.1): no-op if `i >= length`; otherwise the runs are split at `i` and the position `i`
is taken from the right part; empty runs are dropped. -/
def Buffer.Delete (b : Buffer) (i : Nat) : Buffer :=
  if (i : Int) < b.Len.1 then
    let s := splitRuns b.rrs b.tail i
    let h := behead s.2.1 s.2.2
    let n := normalize (s.1 ++ h.1) h.2
    { b with rrs := n.1, tail := n.2 }
  else b

/-- The boundaries of the overlay runs among `rs`, the first run starting at logical
position `lo`; an interval that starts where the last one ended is joined to it. -/
def editedRuns : List Run → Nat → List Int → List Int
  | [], _, eis => eis
  | Run.original _ len :: rs, lo, eis => editedRuns rs (lo + len) eis
  | Run.overlay bytes :: rs, lo, eis =>
    if eis.getLast? = some (lo : Int) then
      editedRuns rs (lo + bytes.length) (eis.dropLast ++ [((lo + bytes.length : Nat) : Int)])
    else
      editedRuns rs (lo + bytes.length) (eis ++ [(lo : Int), ((lo + bytes.length : Nat) : Int)])

/-- Modelled from the spec: `Buffer.EditedIndices`, missing with `buffer/buffer.go`
(section 4.1): the flat list of the boundaries of the overlay runs, starts at even and
ends at odd places, touching intervals joined. -/
def Buffer.EditedIndices (b : Buffer) : List Int :=
  editedRuns b.rrs 0 []

/-- The buffer as the value `core/window.go` holds: the methods of `Buffer` with `int64`
positions.  A negative position is outside the contract of section 4.1 and leaves the
buffer as it is. -/
def Buffer.ops : BufferOps Buffer :=
  { Len := Buffer.Len
    Seek := Buffer.Seek
    Read := Buffer.Read
    Insert := fun b i c => if i < 0 then b else b.Insert i.toNat c
    Replace := fun b i c => if i < 0 then b else b.Replace i.toNat c
    Delete := fun b i => if i < 0 then b else b.Delete i.toNat }

/-- The bytes of an ASCII string. -/
def ascii (s : String) : List Nat := s.toList.map Char.toNat

/-- One round of the loops of `buffer_test.go`: `Seek(offset, io.SeekStart)`, then `Read`
into a fresh `p` of eight bytes; the result is `(n, p, Len())`. -/
def Buffer.probe (b : Buffer) (offset : Int) : Nat × List Nat × Int :=
  let r := (b.Seek offset Whence.SeekStart).1.Read (List.replicate 8 0)
  (r.2.1, r.2.2.1, b.Len.1)

/-- The byte that the logical position `i` holds, counted from the first of the runs
`rs`, if it holds one: a position of an original run that lies past the end of the
source holds none. -/
def cellAt (source : List Nat) : List Run → Nat → Nat → Option Nat
  | [], tail, i => source[tail + i]?
  | r :: rs, tail, i =>
    if i < r.size then (r.bytes source)[i]? else cellAt source rs tail (i - r.size)

/-- The byte at logical position `i` of the buffer, if the position holds one. -/
def Buffer.byteAt (b : Buffer) (i : Nat) : Option Nat :=
  cellAt b.source b.rrs b.tail i

/-- The positions of the buffer hold exactly `s`: `Len()` is the length of `s`, every
position below it holds the byte of `s` there, and no position from there on holds a
byte.  This is a statement about the runs; `Buffer.Holds` is what a caller sees of it. -/
def Buffer.HasContent (b : Buffer) (s : List Nat) : Prop :=
  b.Len.1 = (s.length : Int) ∧ ∀ i, b.byteAt i = s[i]?

/-- `Seek(o, io.SeekStart)` followed by `Read(p)`: the result of the `Read`. -/
def Buffer.readAt (b : Buffer) (o : Int) (p : List Nat) : Buffer × Nat × List Nat × Err :=
  (b.Seek o Whence.SeekStart).1.Read p

/-- The source of the three fixtures of `buffer_test.go`. -/
def fixtureSource : List Nat := ascii "0123456789abcdef"

/-- The buffer of `TestBufferInsert` after the first `k` of its eight calls of `Insert`. -/
def insertFixture (k : Nat) : Buffer :=
  ([(0, 0x39), (0, 0x38), (4, 0x37), (8, 0x30), (9, 0x31), (9, 0x32), (23, 0x39),
    (23, 0x38)].take k).foldl (fun b t => b.Insert t.1 t.2) (NewBuffer fixtureSource)

/-- The buffer of `TestBufferReplace` after the first `k` of its nine calls of `Replace`. -/
def replaceFixture (k : Nat) : Buffer :=
  ([(0, 0x39), (0, 0x38), (1, 0x37), (5, 0x30), (4, 0x31), (3, 0x30), (2, 0x31),
    (16, 0x31), (15, 0x30)].take k).foldl (fun b t => b.Replace t.1 t.2)
    (NewBuffer fixtureSource)

/-- The buffer of `TestBufferDelete` after the first `k` of its thirteen calls: `Delete`
where the table has the byte `0x00`, `Insert` of the byte otherwise. -/
def deleteFixture (k : Nat) : Buffer :=
  ([(4, 0x00), (3, 0x00), (6, 0x00), (0, 0x00), (4, 0x39), (5, 0x38), (3, 0x00),
    (4, 0x00), (3, 0x00), (8, 0x39), (8, 0x38), (8, 0x00), (8, 0x00)].take k).foldl
    (fun b t => if t.2 = 0x00 then b.Delete t.1 else b.Insert t.1 t.2)
    (NewBuffer fixtureSource)

/-- The window that `NewWindow` makes over the fixture source, three rows of eight
bytes. -/
def fixtureWindow : Window Buffer :=
  { buffer := NewBuffer fixtureSource, name := "fixture", height := 3, width := 8,
    offset := 0, cursor := 0, length := 16, stack := [], append := false,
    replaceByte := false, extending := false, pending := false, pendingByte := 0 }

/-- Whether the run is an overlay run. -/
def Run.isOverlay : Run → Bool
  | Run.overlay _ => true
  | Run.original _ _ => false

/-- The runs are merged: none is empty and no overlay run follows an overlay run. -/
def NormalRuns : List Run → Prop
  | [] => True
  | [r] => 0 < r.size
  | r :: r2 :: rs =>
    0 < r.size ∧ ¬ (r.isOverlay = true ∧ r2.isOverlay = true) ∧ NormalRuns (r2 :: rs)

/-- Whether the logical position `i`, counted from the first of the runs, lies in an
overlay run: its byte comes from an edit and not from the source. -/
def overlayAt : List Run → Nat → Bool
  | [], _ => false
  | r :: rs, i => if i < r.size then r.isOverlay else overlayAt rs (i - r.size)

/-- Whether `i` lies in one of the half-open intervals `[e0, e1), [e2, e3), ...` that
the flat list of boundaries describes. -/
def covered : List Int → Int → Prop
  | a :: b :: rest, i => (a ≤ i ∧ i < b) ∨ covered rest i
  | _, _ => False

/-- One call of an edit method of `Buffer`. -/
inductive Edit where
  | Insert (i c : Nat)
  | Replace (i c : Nat)
  | Delete (i : Nat)
  deriving DecidableEq, Repr

/-- The buffer after one edit call. -/
def Buffer.edit (b : Buffer) : Edit → Buffer
  | Edit.Insert i c => b.Insert i c
  | Edit.Replace i c => b.Replace i c
  | Edit.Delete i => b.Delete i

/-- The buffer after a sequence of edit calls, first call first. -/
def Buffer.edits (b : Buffer) (es : List Edit) : Buffer :=
  es.foldl Buffer.edit b

/-- No call of the sequence addresses a position past the end of the buffer it is made
on: `Insert(i, _)` has `i <= Len()` and `Replace(i, _)` has `i < Len()`; `Delete` past
the end is a no-op and is always allowed. -/
def Buffer.editsWithin (b : Buffer) : List Edit → Prop
  | [] => True
  | Edit.Insert i c :: es => (i : Int) ≤ b.Len.1 ∧ (b.Insert i c).editsWithin es
  | Edit.Replace i c :: es => (i : Int) < b.Len.1 ∧ (b.Replace i c).editsWithin es
  | Edit.Delete i :: es => (b.Delete i).editsWithin es

/-- The cursor and every cursor saved on the jump stack are not negative. -/
def CursorNonneg (w : Window β) : Prop :=
  0 ≤ w.cursor ∧ ∀ p ∈ w.stack, 0 ≤ p.cursor

/-- The operations of the normal mode other than `jumpBack`: the motions, `jumpTo`,
`deleteByte`, `deletePrevByte`, `increment` and `decrement`. -/
def Op.isNormal : Op → Bool
  | Op.jumpTo | Op.deleteByte _ | Op.deletePrevByte _ | Op.increment _
  | Op.decrement _ => true
  | op => op.isMotion

/-- The window that `NewWindow` makes over an empty source, three rows of eight bytes. -/
def emptyWindow : Window Buffer :=
  { buffer := NewBuffer [], name := "empty", height := 3, width := 8,
    offset := 0, cursor := 0, length := 0, stack := [], append := false,
    replaceByte := false, extending := false, pending := false, pendingByte := 0 }

/-- The length is not negative and the cursor is at most `max(length, 1) - 1`: with a
cursor that is not negative, `cursor < length`, or `length = 0` and `cursor = 0`. -/
def CursorInLength (w : Window β) : Prop :=
  0 ≤ w.length ∧ w.cursor ≤ MaxInt64 w.length 1 - 1

/-- One call of an editing method of the buffer, with its arguments. -/
inductive Call where
  | Insert (offset : Int) (c : Nat)
  | Replace (offset : Int) (c : Nat)
  | Delete (offset : Int)
  deriving DecidableEq, Repr

/-- The buffer `B` together with a record of the editing calls made on it, oldest
first.  `Len`, `Seek` and `Read` are passed through and leave the record alone. -/
def BufferOps.traced (B : BufferOps β) : BufferOps (β × List Call) :=
  { Len := fun b => B.Len b.1,
    Seek := fun b o wh => (((B.Seek b.1 o wh).1, b.2), (B.Seek b.1 o wh).2),
    Read := fun b p => (((B.Read b.1 p).1, b.2), (B.Read b.1 p).2),
    Insert := fun b i c => (B.Insert b.1 i c, b.2 ++ [Call.Insert i c]),
    Replace := fun b i c => (B.Replace b.1 i c, b.2 ++ [Call.Replace i c]),
    Delete := fun b i => (B.Delete b.1 i, b.2 ++ [Call.Delete i]) }

/-- The fixture window over a buffer that records its editing calls, none made yet. -/
def tracedWindow : Window (Buffer × List Call) :=
  { buffer := (NewBuffer fixtureSource, []), name := "fixture", height := 3, width := 8,
    offset := 0, cursor := 0, length := 16, stack := [], append := false,
    replaceByte := false, extending := false, pending := false, pendingByte := 0 }

/-- A window of three rows of eight bytes over a fresh buffer with the given content,
as `NewWindow` makes it, with the cursor moved to the given position. -/
def windowAt (source : List Nat) (cursor : Int) : Window Buffer :=
  { buffer := NewBuffer source, name := "", height := 3, width := 8,
    offset := 0, cursor := cursor, length := source.length, stack := [], append := false,
    replaceByte := false, extending := false, pending := false, pendingByte := 0 }

/-- Modelled from the spec: the editable buffer as the public contract of section 4.1
words it, a list of bytes and a read cursor; `buffer/buffer.go` is missing.  The tests
of `buffer_test.go` disagree with this contract at and past the end of the content
(see `Buffer`); this second model is the one the statements about "the edit semantics
of the spec" are made for. -/
structure ListBuffer where
  bytes : List Nat
  index : Int
  deriving DecidableEq, Repr

/-- Modelled from the spec: `seek` of section 4.1 on the list model. -/
def ListBuffer.Seek (b : ListBuffer) (offset : Int) (whence : Whence) :
    ListBuffer × Int × Err :=
  let index : Int :=
    match whence with
    | Whence.SeekStart => offset
    | Whence.SeekCurrent => b.index + offset
    | Whence.SeekEnd => (b.bytes.length : Int) + offset
  if index < 0 then (b, 0, Err.other) else ({ b with index := index }, index, Err.nil)

/-- Modelled from the spec: `read` of section 4.1 on the list model. -/
def ListBuffer.Read (b : ListBuffer) (p : List Nat) : ListBuffer × Nat × List Nat × Err :=
  let out := (b.bytes.drop b.index.toNat).take p.length
  ({ b with index := b.index + out.length }, out.length, out ++ p.drop out.length,
    if out.length = 0 ∧ 0 < p.length then Err.EOF else Err.nil)

/-- Modelled from the spec: `insert(i, b)` of section 4.1 on the list model: the bytes
from `i` on move right by one; for `i > length` the gap is filled with zero bytes. -/
def ListBuffer.Insert (b : ListBuffer) (i c : Nat) : ListBuffer :=
  if i ≤ b.bytes.length then { b with bytes := b.bytes.take i ++ c :: b.bytes.drop i }
  else { b with bytes := b.bytes ++ List.replicate (i - b.bytes.length) 0 ++ [c] }

/-- Modelled from the spec: `replace(i, b)` of section 4.1 on the list model: inside
the content the byte is overwritten; for `i >= length` the buffer grows to `i + 1`
bytes, the gap filled with zero bytes. -/
def ListBuffer.Replace (b : ListBuffer) (i c : Nat) : ListBuffer :=
  if i < b.bytes.length then { b with bytes := b.bytes.set i c }
  else { b with bytes := b.bytes ++ List.replicate (i - b.bytes.length) 0 ++ [c] }

/-- Modelled from the spec: `delete(i)` of section 4.1 on the list model: the byte at
`i` is removed; nothing happens for `i >= length`. -/
def ListBuffer.Delete (b : ListBuffer) (i : Nat) : ListBuffer :=
  { b with bytes := b.bytes.eraseIdx i }

/-- The list model as the value `core/window.go` holds.  A negative position is outside
the contract of section 4.1 and leaves the buffer as it is. -/
def ListBuffer.ops : BufferOps ListBuffer :=
  { Len := fun b => ((b.bytes.length : Int), Err.nil)
    Seek := ListBuffer.Seek
    Read := ListBuffer.Read
    Insert := fun b i c => if i < 0 then b else b.Insert i.toNat c
    Replace := fun b i c => if i < 0 then b else b.Replace i.toNat c
    Delete := fun b i => if i < 0 then b else b.Delete i.toNat }

/-- The length that the window caches is the length of its buffer. -/
def LengthInSync (B : BufferOps β) (w : Window β) : Prop :=
  w.length = (B.Len w.buffer).1

/-- What the edit semantics of section 4.1 say about the length: `Seek` and `Read`
keep it, `Delete(i)` with `i < length` takes one off, `Insert(i, _)` with `i <= length`
adds one, `Replace(i, _)` with `i < length` keeps it, and `Replace(0, _)` on an empty
buffer makes it 1. -/
def LengthLaws (B : BufferOps β) : Prop :=
  (∀ b o wh, (B.Len (B.Seek b o wh).1).1 = (B.Len b).1) ∧
  (∀ b p, (B.Len (B.Read b p).1).1 = (B.Len b).1) ∧
  (∀ b i, 0 ≤ i → i < (B.Len b).1 → (B.Len (B.Delete b i)).1 = (B.Len b).1 - 1) ∧
  (∀ b i c, 0 ≤ i → i ≤ (B.Len b).1 → (B.Len (B.Insert b i c)).1 = (B.Len b).1 + 1) ∧
  (∀ b i c, 0 ≤ i → i < (B.Len b).1 → (B.Len (B.Replace b i c)).1 = (B.Len b).1) ∧
  (∀ b c, (B.Len b).1 = 0 → (B.Len (B.Replace b 0 c)).1 = 1)

/-- A window of three rows of eight bytes over the list model with the given content
and cursor. -/
def listWindow (bytes : List Nat) (cursor : Int) : Window ListBuffer :=
  { buffer := { bytes := bytes, index := 0 }, name := "", height := 3, width := 8,
    offset := 0, cursor := cursor, length := bytes.length, stack := [], append := false,
    replaceByte := false, extending := false, pending := false, pendingByte := 0 }

instance (b : Buffer) (es : List Edit) : Decidable (b.editsWithin es) := by
  induction es generalizing b with
  | nil => unfold Buffer.editsWithin; infer_instance
  | cons e es ih =>
    cases e <;> unfold Buffer.editsWithin
    · exact instDecidableAnd
    · exact instDecidableAnd
    · exact ih _

/-- No call of the sequence addresses a position beyond the end of the buffer it is made
on: `Insert(i, _)` and `Replace(i, _)` have `i <= Len()`, so a `Replace` right at the
end, as in row 8 of `TestBufferReplace`, is allowed. -/
def Buffer.editsUpTo (b : Buffer) : List Edit → Prop
  | [] => True
  | Edit.Insert i c :: es => (i : Int) ≤ b.Len.1 ∧ (b.Insert i c).editsUpTo es
  | Edit.Replace i c :: es => (i : Int) ≤ b.Len.1 ∧ (b.Replace i c).editsUpTo es
  | Edit.Delete i :: es => (b.Delete i).editsUpTo es

instance (b : Buffer) (es : List Edit) : Decidable (b.editsUpTo es) := by
  induction es generalizing b with
  | nil => unfold Buffer.editsUpTo; infer_instance
  | cons e es ih =>
    cases e <;> unfold Buffer.editsUpTo
    · exact instDecidableAnd
    · exact instDecidableAnd
    · exact ih _

/-- The logical content of the buffer is `s`, as a caller sees it: `Len()` returns the
length of `s`, and `Seek(0, io.SeekStart)` followed by `Read` into `len(s) + 1` bytes
returns `len(s)` and the bytes of `s`, so that there is nothing to read after `s`. -/
def Buffer.Holds (b : Buffer) (s : List Nat) : Prop :=
  b.Len = ((s.length : Int), Err.nil) ∧
    (b.readAt 0 (List.replicate (s.length + 1) 0)).2.1 = s.length ∧
    (b.readAt 0 (List.replicate (s.length + 1) 0)).2.2.1.take s.length = s

instance (b : Buffer) (s : List Nat) : Decidable (b.Holds s) := by
  unfold Buffer.Holds; infer_instance

/-- The first `Len()` bytes of the buffer are `s`, as a caller sees it: `Len()` returns
the length of `s`, and `Seek(0, io.SeekStart)` followed by `Read` into `len(s)` bytes
returns `len(s)` and the bytes of `s`.  Whether more can be read after them is left
open. -/
def Buffer.StartsWith (b : Buffer) (s : List Nat) : Prop :=
  b.Len = ((s.length : Int), Err.nil) ∧
    (b.readAt 0 (List.replicate s.length 0)).2.1 = s.length ∧
    (b.readAt 0 (List.replicate s.length 0)).2.2.1 = s

instance (b : Buffer) (s : List Nat) : Decidable (b.StartsWith s) := by
  unfold Buffer.StartsWith; infer_instance

/-- What a call does to a list with one entry per logical position when it addresses a
position of the list (`Insert` also the end): `Insert(i, _)` puts `x` in front of entry
`i`, `Replace(i, _)` puts `x` in the place of entry `i`, `Delete(i)` takes entry `i`
out.  This is section 4.1 read on lists. -/
def Edit.onList {α : Type} (x : α) : Edit → List α → List α
  | Edit.Insert i _, l => l.take i ++ x :: l.drop i
  | Edit.Replace i _, l => l.set i x
  | Edit.Delete i, l => l.take i ++ l.drop (i + 1)

/-- For each logical position, whether its byte was written by a call of `Insert` or
`Replace` (`true`) or is still a byte of the source (`false`), after the calls `es` on a
fresh buffer over a source of `n` bytes. -/
def editedFlags (n : Nat) (es : List Edit) : List Bool :=
  es.foldl (fun l e => e.onList true l) (List.replicate n false)

/-- The same run with every byte it owns replaced by 1. -/
def Run.mark : Run → Run
  | Run.original pos len => Run.original pos len
  | Run.overlay bytes => Run.overlay (bytes.map (fun _ => 1))

/-- The same buffer with every byte of the source replaced by 0 and every byte of an
overlay run by 1: each position holds the origin of its byte. -/
def Buffer.mark (b : Buffer) : Buffer :=
  { b with source := b.source.map (fun _ => 0), rrs := b.rrs.map Run.mark }

/-- The edit call with the byte it writes replaced by 1. -/
def Edit.mark : Edit → Edit
  | Edit.Insert i _ => Edit.Insert i 1
  | Edit.Replace i _ => Edit.Replace i 1
  | Edit.Delete i => Edit.Delete i

/-- The bytes that the runs and the rest of the source yield, one after the other. -/
def runsBytes (source : List Nat) : List Run → Nat → List Nat
  | [], tail => source.drop tail
  | r :: rs, tail => r.bytes source ++ runsBytes source rs tail

end Bed

/-! # Theorems -/

namespace Bed

variable {β : Type}

/-! ## `offset % width == 0` -/

theorem dvd_MaxInt64 {k a b : Int} (ha : k ∣ a) (hb : k ∣ b) : k ∣ MaxInt64 a b := by
  unfold MaxInt64; split_ifs <;> assumption

theorem dvd_MinInt64 {k a b : Int} (ha : k ∣ a) (hb : k ∣ b) : k ∣ MinInt64 a b := by
  unfold MinInt64; split_ifs <;> assumption

theorem dvd_sub_tmod (v k : Int) : k ∣ v - v.tmod k := by
  have h := Int.tdiv_add_tmod v k
  exact ⟨v.tdiv k, by linarith⟩

theorem deleteByte_loop_frame (B : BufferOps β) (n : Nat) (w : Window β) :
    (Window.deleteByte.loop B n w).offset = w.offset ∧
    (Window.deleteByte.loop B n w).width = w.width ∧
    (Window.deleteByte.loop B n w).height = w.height ∧
    (Window.deleteByte.loop B n w).stack = w.stack := by
  induction n generalizing w with
  | zero => simp [Window.deleteByte.loop]
  | succ n ih =>
    simp only [Window.deleteByte.loop]
    split_ifs <;> simp [ih]

theorem deletePrevByte_loop_frame (B : BufferOps β) (n : Nat) (w : Window β) :
    (Window.deletePrevByte.loop B n w).offset = w.offset ∧
    (Window.deletePrevByte.loop B n w).width = w.width ∧
    (Window.deletePrevByte.loop B n w).height = w.height ∧
    (Window.deletePrevByte.loop B n w).stack = w.stack := by
  induction n generalizing w with
  | zero => simp [Window.deletePrevByte.loop]
  | succ n ih => simp [Window.deletePrevByte.loop, ih]

theorem cursorUp_aligned (w : Window β) (c : Int) (h : OffsetAligned w) :
    OffsetAligned (w.cursorUpZ c) ∧ (w.cursorUpZ c).width = w.width := by
  obtain ⟨h1, h2⟩ := h
  unfold Window.cursorUpZ OffsetAligned
  dsimp only
  split_ifs
  · exact ⟨⟨dvd_mul_left _ _, h2⟩, rfl⟩
  · exact ⟨⟨h1, h2⟩, rfl⟩

theorem cursorDown_aligned (w : Window β) (c : Int) (h : OffsetAligned w) :
    OffsetAligned (w.cursorDownZ c) ∧ (w.cursorDownZ c).width = w.width := by
  obtain ⟨h1, h2⟩ := h
  unfold Window.cursorDownZ OffsetAligned
  dsimp only
  split_ifs
  · exact ⟨⟨dvd_mul_left _ _, h2⟩, rfl⟩
  · exact ⟨⟨h1, h2⟩, rfl⟩

theorem cursorLeft_aligned (w : Window β) (c : Int) (h : OffsetAligned w) :
    OffsetAligned (w.cursorLeftZ c) ∧ (w.cursorLeftZ c).width = w.width := by
  obtain ⟨h1, h2⟩ := h
  unfold Window.cursorLeftZ OffsetAligned
  dsimp only
  exact ⟨⟨h1, h2⟩, rfl⟩

theorem cursorRight_aligned (w : Window β) (c : Int) (h : OffsetAligned w) :
    OffsetAligned (w.cursorRightZ c) ∧ (w.cursorRightZ c).width = w.width := by
  obtain ⟨h1, h2⟩ := h
  unfold Window.cursorRightZ OffsetAligned
  dsimp only
  exact ⟨⟨h1, h2⟩, rfl⟩

theorem cursorPrev_aligned (w : Window β) (c : Int) (h : OffsetAligned w) :
    OffsetAligned (w.cursorPrevZ c) ∧ (w.cursorPrevZ c).width = w.width := by
  obtain ⟨h1, h2⟩ := h
  unfold Window.cursorPrevZ OffsetAligned
  dsimp only
  split_ifs
  · exact ⟨⟨dvd_mul_left _ _, h2⟩, rfl⟩
  · exact ⟨⟨h1, h2⟩, rfl⟩

theorem cursorNext_aligned (w : Window β) (c : Int) (h : OffsetAligned w) :
    OffsetAligned (w.cursorNextZ c) ∧ (w.cursorNextZ c).width = w.width := by
  obtain ⟨h1, h2⟩ := h
  unfold Window.cursorNextZ OffsetAligned
  dsimp only
  split_ifs
  · exact ⟨⟨dvd_mul_left _ _, h2⟩, rfl⟩
  · exact ⟨⟨h1, h2⟩, rfl⟩

theorem cursorHead_aligned (w : Window β) (c : Int) (h : OffsetAligned w) :
    OffsetAligned (w.cursorHeadZ c) ∧ (w.cursorHeadZ c).width = w.width := by
  obtain ⟨h1, h2⟩ := h
  unfold Window.cursorHeadZ OffsetAligned
  dsimp only
  exact ⟨⟨h1, h2⟩, rfl⟩

theorem cursorEnd_aligned (w : Window β) (c : Int) (h : OffsetAligned w) :
    OffsetAligned (w.cursorEndZ c) ∧ (w.cursorEndZ c).width = w.width := by
  obtain ⟨h1, h2⟩ := h
  unfold Window.cursorEndZ OffsetAligned
  dsimp only
  split_ifs
  · exact ⟨⟨dvd_mul_left _ _, h2⟩, rfl⟩
  · exact ⟨⟨h1, h2⟩, rfl⟩

theorem scrollUp_aligned (w : Window β) (c : Int) (h : OffsetAligned w) :
    OffsetAligned (w.scrollUpZ c) ∧ (w.scrollUpZ c).width = w.width := by
  obtain ⟨h1, h2⟩ := h
  unfold Window.scrollUpZ OffsetAligned
  dsimp only
  have h3 : w.width ∣
      w.offset - MinInt64 (MaxInt64 c 1) (w.offset.tdiv w.width) * w.width :=
    dvd_sub h1 (dvd_mul_left _ _)
  split_ifs
  · exact ⟨⟨h3, h2⟩, rfl⟩
  · exact ⟨⟨h3, h2⟩, rfl⟩

theorem scrollDown_aligned (w : Window β) (c : Int) (h : OffsetAligned w) :
    OffsetAligned (w.scrollDownZ c) ∧ (w.scrollDownZ c).width = w.width := by
  obtain ⟨h1, h2⟩ := h
  unfold Window.scrollDownZ OffsetAligned
  dsimp only
  have h3 : w.width ∣ w.offset + MinInt64 (MaxInt64 c 1)
      ((MaxInt64 w.length 1 + w.width - 1).tdiv w.width - w.height - w.offset.tdiv w.width)
        * w.width :=
    dvd_add h1 (dvd_mul_left _ _)
  split_ifs
  · exact ⟨⟨h3, h2⟩, rfl⟩
  · exact ⟨⟨h3, h2⟩, rfl⟩

theorem pageUp_aligned (w : Window β)  (h : OffsetAligned w) :
    OffsetAligned (w.pageUpZ ) ∧ (w.pageUpZ ).width = w.width := by
  obtain ⟨h1, h2⟩ := h
  unfold Window.pageUpZ OffsetAligned
  dsimp only
  have h3 : w.width ∣ MaxInt64 (w.offset - (w.height - 2) * w.width) 0 :=
    dvd_MaxInt64 (dvd_sub h1 (dvd_mul_left _ _)) (dvd_zero _)
  split_ifs
  · exact ⟨⟨h3, h2⟩, rfl⟩
  · exact ⟨⟨h3, h2⟩, rfl⟩
  · exact ⟨⟨h3, h2⟩, rfl⟩

theorem pageDown_aligned (w : Window β)  (h : OffsetAligned w) :
    OffsetAligned (w.pageDownZ ) ∧ (w.pageDownZ ).width = w.width := by
  obtain ⟨h1, h2⟩ := h
  unfold Window.pageDownZ OffsetAligned
  dsimp only
  have h3 : w.width ∣ MinInt64 (w.offset + (w.height - 2) * w.width)
      (MaxInt64 (((w.length + w.width - 1).tdiv w.width - w.height) * w.width) 0) :=
    dvd_MinInt64 (dvd_add h1 (dvd_mul_left _ _))
      (dvd_MaxInt64 (dvd_mul_left _ _) (dvd_zero _))
  split_ifs
  · exact ⟨⟨h3, h2⟩, rfl⟩
  · exact ⟨⟨h3, h2⟩, rfl⟩
  · exact ⟨⟨h3, h2⟩, rfl⟩

theorem pageUpHalf_aligned (w : Window β)  (h : OffsetAligned w) :
    OffsetAligned (w.pageUpHalfZ ) ∧ (w.pageUpHalfZ ).width = w.width := by
  obtain ⟨h1, h2⟩ := h
  unfold Window.pageUpHalfZ OffsetAligned
  dsimp only
  have h3 : w.width ∣ MaxInt64 (w.offset - MaxInt64 (w.height.tdiv 2) 1 * w.width) 0 :=
    dvd_MaxInt64 (dvd_sub h1 (dvd_mul_left _ _)) (dvd_zero _)
  split_ifs
  · exact ⟨⟨h3, h2⟩, rfl⟩
  · exact ⟨⟨h3, h2⟩, rfl⟩
  · exact ⟨⟨h3, h2⟩, rfl⟩

theorem pageDownHalf_aligned (w : Window β)  (h : OffsetAligned w) :
    OffsetAligned (w.pageDownHalfZ ) ∧ (w.pageDownHalfZ ).width = w.width := by
  obtain ⟨h1, h2⟩ := h
  unfold Window.pageDownHalfZ OffsetAligned
  dsimp only
  have h3 : w.width ∣ MinInt64 (w.offset + MaxInt64 (w.height.tdiv 2) 1 * w.width)
      (MaxInt64 (((w.length + w.width - 1).tdiv w.width - w.height) * w.width) 0) :=
    dvd_MinInt64 (dvd_add h1 (dvd_mul_left _ _))
      (dvd_MaxInt64 (dvd_mul_left _ _) (dvd_zero _))
  split_ifs
  · exact ⟨⟨h3, h2⟩, rfl⟩
  · exact ⟨⟨h3, h2⟩, rfl⟩
  · exact ⟨⟨h3, h2⟩, rfl⟩

theorem pageTop_aligned (w : Window β)  (h : OffsetAligned w) :
    OffsetAligned (w.pageTop ) ∧ (w.pageTop ).width = w.width := by
  obtain ⟨h1, h2⟩ := h
  unfold Window.pageTop OffsetAligned
  dsimp only
  exact ⟨⟨dvd_zero _, h2⟩, rfl⟩

theorem pageEnd_aligned (w : Window β)  (h : OffsetAligned w) :
    OffsetAligned (w.pageEndZ ) ∧ (w.pageEndZ ).width = w.width := by
  obtain ⟨h1, h2⟩ := h
  unfold Window.pageEndZ OffsetAligned
  dsimp only
  exact ⟨⟨dvd_MaxInt64 (dvd_mul_left _ _) (dvd_zero _), h2⟩, rfl⟩

theorem startInsert_aligned (w : Window β)  (h : OffsetAligned w) :
    OffsetAligned (w.startInsert ) ∧ (w.startInsert ).width = w.width := by
  obtain ⟨h1, h2⟩ := h
  unfold Window.startInsert OffsetAligned
  dsimp only
  exact ⟨⟨h1, h2⟩, rfl⟩

theorem startReplaceByte_aligned (w : Window β)  (h : OffsetAligned w) :
    OffsetAligned (w.startReplaceByte ) ∧ (w.startReplaceByte ).width = w.width := by
  obtain ⟨h1, h2⟩ := h
  unfold Window.startReplaceByte OffsetAligned
  dsimp only
  exact ⟨⟨h1, h2⟩, rfl⟩

theorem startReplace_aligned (w : Window β)  (h : OffsetAligned w) :
    OffsetAligned (w.startReplace ) ∧ (w.startReplace ).width = w.width := by
  obtain ⟨h1, h2⟩ := h
  unfold Window.startReplace OffsetAligned
  dsimp only
  exact ⟨⟨h1, h2⟩, rfl⟩

theorem jumpBack_aligned (w : Window β) (h : OffsetAligned w) :
    OffsetAligned w.jumpBack ∧ w.jumpBack.width = w.width := by
  obtain ⟨h1, h2⟩ := h
  unfold Window.jumpBack OffsetAligned
  split
  · exact ⟨⟨h1, h2⟩, rfl⟩
  · next p hp =>
    dsimp only
    exact ⟨⟨h2 p (List.mem_of_getLast?_eq_some hp),
      fun q hq => h2 q (List.mem_of_mem_dropLast hq)⟩, rfl⟩

theorem jumpTo_aligned (B : BufferOps β) (w : Window β) (h : OffsetAligned w) :
    OffsetAligned (w.jumpToZ B) ∧ (w.jumpToZ B).width = w.width := by
  obtain ⟨h1, h2⟩ := h
  unfold Window.jumpToZ OffsetAligned
  dsimp only
  split
  · split_ifs
    · exact ⟨⟨h1, h2⟩, rfl⟩
    · exact ⟨⟨h1, h2⟩, rfl⟩
    · exact ⟨⟨h1, h2⟩, rfl⟩
    · refine ⟨⟨dvd_MaxInt64 (dvd_sub (dvd_sub_tmod _ _) (dvd_mul_left _ _)) (dvd_zero _),
        ?_⟩, rfl⟩
      intro p hp
      rcases List.mem_append.1 hp with hp | hp
      · exact h2 p hp
      · rw [List.mem_singleton] at hp
        subst hp
        exact h1
  · exact ⟨⟨h1, h2⟩, rfl⟩

theorem deleteByte_aligned (B : BufferOps β) (w : Window β) (c : Int)
    (h : OffsetAligned w) :
    OffsetAligned (w.deleteByte B c) ∧ (w.deleteByte B c).width = w.width := by
  unfold Window.deleteByte
  split_ifs
  · exact ⟨h, rfl⟩
  · obtain ⟨e1, e2, _, e4⟩ := deleteByte_loop_frame B
      (MinInt64 (MinInt64 (MaxInt64 c 1) (w.width - w.cursor.tmod w.width))
        (w.length - w.cursor)).toNat w
    dsimp only
    unfold OffsetAligned
    rw [e1, e2, e4]
    exact ⟨h, rfl⟩

theorem deletePrevByte_aligned (B : BufferOps β) (w : Window β) (c : Int)
    (h : OffsetAligned w) :
    OffsetAligned (w.deletePrevByte B c) ∧ (w.deletePrevByte B c).width = w.width := by
  unfold Window.deletePrevByte
  obtain ⟨e1, e2, _, e4⟩ := deletePrevByte_loop_frame B
    (MinInt64 (MaxInt64 c 1) (w.cursor.tmod w.width)).toNat w
  dsimp only
  unfold OffsetAligned
  rw [e1, e2, e4]
  exact ⟨h, rfl⟩

theorem increment_aligned (B : BufferOps β) (w : Window β) (c : Int)
    (h : OffsetAligned w) :
    OffsetAligned (w.increment B c) ∧ (w.increment B c).width = w.width := by
  unfold Window.increment
  split
  · dsimp only
    split_ifs
    · exact ⟨h, rfl⟩
    · exact ⟨h, rfl⟩
  · exact ⟨h, rfl⟩

theorem decrement_aligned (B : BufferOps β) (w : Window β) (c : Int)
    (h : OffsetAligned w) :
    OffsetAligned (w.decrement B c) ∧ (w.decrement B c).width = w.width := by
  unfold Window.decrement
  split
  · dsimp only
    split_ifs
    · exact ⟨h, rfl⟩
    · exact ⟨h, rfl⟩
  · exact ⟨h, rfl⟩

theorem startInsertHead_aligned (w : Window β) (h : OffsetAligned w) :
    OffsetAligned w.startInsertHeadZ ∧ w.startInsertHeadZ.width = w.width := by
  exact ⟨h, rfl⟩

theorem startAppend_aligned (w : Window β) (h : OffsetAligned w) :
    OffsetAligned w.startAppendZ ∧ w.startAppendZ.width = w.width := by
  obtain ⟨h1, h2⟩ := h
  unfold Window.startAppendZ OffsetAligned
  dsimp only
  split_ifs <;> first
    | exact ⟨⟨dvd_mul_left _ _, h2⟩, rfl⟩
    | exact ⟨⟨h1, h2⟩, rfl⟩

theorem startAppendEnd_aligned (w : Window β) (h : OffsetAligned w) :
    OffsetAligned w.startAppendEndZ ∧ w.startAppendEndZ.width = w.width := by
  unfold Window.startAppendEndZ
  obtain ⟨a, b⟩ := cursorEnd_aligned w 0 h
  obtain ⟨c, d⟩ := startAppend_aligned _ a
  exact ⟨c, d.trans b⟩

theorem exitInsert_aligned (w : Window β) (h : OffsetAligned w) :
    OffsetAligned w.exitInsert ∧ w.exitInsert.width = w.width := by
  obtain ⟨h1, h2⟩ := h
  unfold Window.exitInsert OffsetAligned
  dsimp only
  split_ifs <;> exact ⟨⟨h1, h2⟩, rfl⟩

theorem insert_switch_aligned (B : BufferOps β) (w : Window β) (mode : Mode) (b : Nat)
    (h : OffsetAligned w) :
    OffsetAligned (Window.insert.switch B w mode b) ∧
      (Window.insert.switch B w mode b).width = w.width := by
  unfold Window.insert.switch
  cases mode
  · exact ⟨h, rfl⟩
  · exact ⟨h, rfl⟩
  · dsimp only
    split_ifs <;> first
      | exact ⟨h, rfl⟩
      | exact exitInsert_aligned _ h

theorem insert_aligned (B : BufferOps β) (w : Window β) (mode : Mode) (b : Nat)
    (h : OffsetAligned w) :
    OffsetAligned (w.insertZ B mode b) ∧ (w.insertZ B mode b).width = w.width := by
  unfold Window.insertZ
  split_ifs
  · obtain ⟨⟨a1, a2⟩, e⟩ := insert_switch_aligned B w mode b h
    dsimp only
    split_ifs
    · exact ⟨⟨dvd_mul_left _ _, a2⟩, e⟩
    · exact ⟨⟨a1, a2⟩, e⟩
  · exact ⟨h, rfl⟩

theorem backspace_aligned (B : BufferOps β) (w : Window β) (h : OffsetAligned w) :
    OffsetAligned (w.backspace B) ∧ (w.backspace B).width = w.width := by
  unfold Window.backspace
  split_ifs <;> exact ⟨h, rfl⟩

theorem apply_aligned (B : BufferOps β) (w : Window β) (op : Op) (h : OffsetAligned w) :
    OffsetAligned (w.applyZ B op) ∧ (w.applyZ B op).width = w.width := by
  cases op with
  | cursorUp c => exact cursorUp_aligned w c h
  | cursorDown c => exact cursorDown_aligned w c h
  | cursorLeft c => exact cursorLeft_aligned w c h
  | cursorRight c => exact cursorRight_aligned w c h
  | cursorPrev c => exact cursorPrev_aligned w c h
  | cursorNext c => exact cursorNext_aligned w c h
  | cursorHead c => exact cursorHead_aligned w c h
  | cursorEnd c => exact cursorEnd_aligned w c h
  | scrollUp c => exact scrollUp_aligned w c h
  | scrollDown c => exact scrollDown_aligned w c h
  | pageUp => exact pageUp_aligned w h
  | pageDown => exact pageDown_aligned w h
  | pageUpHalf => exact pageUpHalf_aligned w h
  | pageDownHalf => exact pageDownHalf_aligned w h
  | pageTop => exact pageTop_aligned w h
  | pageEnd => exact pageEnd_aligned w h
  | jumpTo => exact jumpTo_aligned B w h
  | jumpBack => exact jumpBack_aligned w h
  | deleteByte c => exact deleteByte_aligned B w c h
  | deletePrevByte c => exact deletePrevByte_aligned B w c h
  | increment c => exact increment_aligned B w c h
  | decrement c => exact decrement_aligned B w c h
  | startInsert => exact startInsert_aligned w h
  | startInsertHead => exact startInsertHead_aligned w h
  | startAppend => exact startAppend_aligned w h
  | startAppendEnd => exact startAppendEnd_aligned w h
  | startReplaceByte => exact startReplaceByte_aligned w h
  | startReplace => exact startReplace_aligned w h
  | exitInsert => exact exitInsert_aligned w h
  | insert mode b => exact insert_aligned B w mode b h
  | backspace => exact backspace_aligned B w h

theorem run_aligned (B : BufferOps β) (ops : List Op) (w : Window β)
    (h : OffsetAligned w) :
    OffsetAligned (w.runZ B ops) ∧ (w.runZ B ops).width = w.width := by
  induction ops generalizing w with
  | nil => exact ⟨h, rfl⟩
  | cons op ops ih =>
    obtain ⟨a, b⟩ := apply_aligned B w op h
    obtain ⟨c, d⟩ := ih (w.applyZ B op) a
    exact ⟨c, d.trans b⟩

theorem NewWindow_aligned (B : BufferOps β) (buffer : β) (name : String)
    (height width : Int) (w : Window β) (h : NewWindow B buffer name height width = some w) :
    OffsetAligned w ∧ w.width = width ∧ w.height = height ∧ w.offset = 0 ∧
      w.cursor = 0 ∧ w.stack = [] := by
  unfold NewWindow at h
  split at h
  · cases h
    exact ⟨⟨dvd_zero _, by simp⟩, rfl, rfl, rfl, rfl, rfl⟩
  · cases h

/-- In exact arithmetic: for a window made by `NewWindow` with positive width and height, the offset is
a multiple of the width (`offset % width == 0`, Go's truncating remainder) after every
finite sequence of window operations, whatever the counts and the buffer. -/
theorem offset_mod_width_exact (B : BufferOps β) (buffer : β) (name : String)
    (height width : Int) (w : Window β) (_hw : 0 < width) (_hh : 0 < height)
    (hnew : NewWindow B buffer name height width = some w) (ops : List Op) :
    (w.runZ B ops).offset.tmod (w.runZ B ops).width = 0 := by
  obtain ⟨a, _⟩ := NewWindow_aligned B buffer name height width w hnew
  exact Int.tmod_eq_zero_of_dvd (run_aligned B ops w a).1.1

/-! ## The cursor stays inside the viewport -/


theorem MinInt64_eq (a b : Int) : MinInt64 a b = min a b := by
  unfold MinInt64; omega

theorem MaxInt64_eq (a b : Int) : MaxInt64 a b = max a b := by
  unfold MaxInt64; omega

theorem tdiv_facts (x w : Int) (hx : 0 ≤ x) (hw : 0 < w) :
    0 ≤ x.tdiv w ∧ x.tdiv w * w ≤ x ∧ x < (x.tdiv w + 1) * w ∧
    0 ≤ x.tmod w ∧ x.tmod w < w ∧ x.tdiv w * w + x.tmod w = x := by
  have h1 := Int.tdiv_add_tmod' x w
  have h2 := Int.tmod_nonneg w hx
  have h3 := Int.tmod_lt_of_pos x hw
  have h4 := Int.tdiv_nonneg hx hw.le
  refine ⟨h4, by linarith, by linarith, h2, h3, h1⟩

theorem tdiv_nonpos_of_lt (x w : Int) (hw : 0 < w) (h : x < w) : x.tdiv w ≤ 0 := by
  by_cases hx : 0 ≤ x
  · rw [Int.tdiv_eq_zero_of_lt hx h]
  · have h1 : x = -(-x) := by omega
    rw [h1, Int.neg_tdiv]
    have := Int.tdiv_nonneg (show 0 ≤ -x by omega) hw.le
    omega

theorem mul_mono_right {a b w : Int} (hw : 0 < w) (h : a ≤ b) : a * w ≤ b * w :=
  mul_le_mul_of_nonneg_right h hw.le

theorem lt_of_mul_lt {a b w : Int} (hw : 0 < w) (h : a * w < b * w) : a < b :=
  lt_of_mul_lt_mul_right h hw.le

/-- The scroll applied when the cursor has gone below the last visible row. -/
theorem scroll_to_cursor (c o h w : Int) (hw : 0 < w) (hh : 0 < h) (ho : 0 ≤ o)
    (hc : c ≥ o + h * w) :
    (c - h * w + w).tdiv w * w ≤ c ∧ c < (c - h * w + w).tdiv w * w + h * w := by
  have p2 := mul_mono_right hw (show (1 : Int) ≤ h by omega)
  obtain ⟨-, r1, r2, -, -, -⟩ := tdiv_facts (c - h * w + w) w (by omega) hw
  constructor
  · omega
  · linarith

/-- The first cell of the last row lies in the last page. -/
theorem last_row_in_last_page (length h w : Int) (hw : 0 < w) (hh : 0 < h) :
    MaxInt64 (((length + w - 1).tdiv w - h) * w) 0 ≤
        ((MaxInt64 length 1 + w - 1).tdiv w - 1) * w ∧
      ((MaxInt64 length 1 + w - 1).tdiv w - 1) * w <
        MaxInt64 (((length + w - 1).tdiv w - h) * w) 0 + h * w := by
  have p2 := mul_mono_right hw (show (1 : Int) ≤ h by omega)
  by_cases hl : 1 ≤ length
  · have e : MaxInt64 length 1 = length := by rw [MaxInt64_eq]; omega
    rw [e]
    obtain ⟨r0, r1, r2, -, -, -⟩ := tdiv_facts (length + w - 1) w (by omega) hw
    have r3 : 1 ≤ (length + w - 1).tdiv w := by
      by_contra hcon
      have : (length + w - 1).tdiv w = 0 := by omega
      rw [this] at r2
      omega
    have p3 := mul_mono_right hw r3
    rw [MaxInt64_eq]
    constructor
    · have : ((length + w - 1).tdiv w - h) * w ≤ ((length + w - 1).tdiv w - 1) * w :=
        mul_mono_right hw (by omega)
      have : 0 ≤ ((length + w - 1).tdiv w - 1) * w := mul_nonneg (by omega) hw.le
      omega
    · have e1 : ((length + w - 1).tdiv w - h) * w = (length + w - 1).tdiv w * w - h * w := by
        ring
      have e2 : ((length + w - 1).tdiv w - 1) * w = (length + w - 1).tdiv w * w - w := by
        ring
      rw [e1, e2]
      omega
  · have e : MaxInt64 length 1 = 1 := by rw [MaxInt64_eq]; omega
    have e1 : (1 + w - 1 : Int) = 1 * w := by ring
    rw [e, e1, Int.mul_tdiv_cancel _ (ne_of_gt hw)]
    have r3 := tdiv_nonpos_of_lt (length + w - 1) w hw (by omega)
    have p3 : ((length + w - 1).tdiv w - h) * w ≤ 0 :=
      mul_nonpos_of_nonpos_of_nonneg (by omega) hw.le
    rw [MaxInt64_eq]
    constructor
    · simp; omega
    · simp; omega

theorem cursorUp_viewport (w : Window β) (c : Int) (hw : 0 < w.width) (hh : 0 < w.height)
    (hv : InViewport w) (hc : 0 ≤ w.cursor) : InViewport (w.cursorUpZ c) := by
  obtain ⟨hv1, hv2⟩ := hv
  obtain ⟨q0, q1, q2, -, -, -⟩ := tdiv_facts w.cursor w.width hc hw
  have hm0 : 0 ≤ MinInt64 (MaxInt64 c 1) (w.cursor.tdiv w.width) := by
    rw [MinInt64_eq, MaxInt64_eq]; omega
  have hm1 : MinInt64 (MaxInt64 c 1) (w.cursor.tdiv w.width) ≤ w.cursor.tdiv w.width := by
    rw [MinInt64_eq, MaxInt64_eq]; omega
  have p0 := mul_nonneg hm0 hw.le
  have p1 := mul_mono_right hw hm1
  have p2 := mul_mono_right hw (show (1 : Int) ≤ w.height by omega)
  have hc2 : 0 ≤ w.cursor - MinInt64 (MaxInt64 c 1) (w.cursor.tdiv w.width) * w.width := by
    omega
  obtain ⟨-, r1, r2, -, -, -⟩ := tdiv_facts _ w.width hc2 hw
  unfold Window.cursorUpZ InViewport
  dsimp only
  split_ifs
  · dsimp only
    constructor
    · omega
    · nlinarith
  · dsimp only
    constructor
    · omega
    · omega

theorem tdiv_mono (x y w : Int) (hw : 0 < w) (hx : 0 ≤ x) (hxy : x ≤ y) :
    x.tdiv w ≤ y.tdiv w := by
  obtain ⟨-, q1, -, -, -, -⟩ := tdiv_facts x w hx hw
  obtain ⟨-, -, r2, -, -, -⟩ := tdiv_facts y w (by omega) hw
  have : x.tdiv w < y.tdiv w + 1 := lt_of_mul_lt hw (by omega)
  omega

theorem cursorDown_viewport (w : Window β) (c : Int) (hw : 0 < w.width) (hh : 0 < w.height)
    (ho : 0 ≤ w.offset) (hv : InViewport w) (hc : 0 ≤ w.cursor)
    (hcL : w.cursor ≤ MaxInt64 w.length 1 - 1) : InViewport (w.cursorDownZ c) := by
  obtain ⟨hv1, hv2⟩ := hv
  have hq := tdiv_mono _ _ w.width hw hc hcL
  have hm0 : 0 ≤ MinInt64 (MaxInt64 c 1)
      ((MaxInt64 w.length 1 - 1).tdiv w.width - w.cursor.tdiv w.width) := by
    rw [MinInt64_eq, MaxInt64_eq]; omega
  have p0 := mul_nonneg hm0 hw.le
  have hd : 0 ≤ MinInt64 (MinInt64 (MaxInt64 c 1)
      ((MaxInt64 w.length 1 - 1).tdiv w.width - w.cursor.tdiv w.width) * w.width)
      (MaxInt64 w.length 1 - 1 - w.cursor) := by
    rw [MinInt64_eq]; omega
  unfold Window.cursorDownZ InViewport
  dsimp only
  split_ifs with hif
  · dsimp only
    exact scroll_to_cursor _ _ _ _ hw hh ho hif
  · dsimp only
    constructor
    · omega
    · omega

/-- For an aligned offset, the row of the cursor starts at or after the offset and ends
at or before the end of the viewport. -/
theorem row_in_viewport (c o h w : Int) (hw : 0 < w) (hc : 0 ≤ c) (ha : o.tmod w = 0)
    (hv1 : o ≤ c) (hv2 : c < o + h * w) :
    o ≤ c.tdiv w * w ∧ (c.tdiv w + 1) * w ≤ o + h * w := by
  have e := Int.tdiv_add_tmod' o w
  rw [ha] at e
  obtain ⟨-, q1, q2, -, -, -⟩ := tdiv_facts c w hc hw
  have h1 : o.tdiv w < c.tdiv w + 1 := lt_of_mul_lt hw (by omega)
  have e2 : (o.tdiv w + h) * w = o.tdiv w * w + h * w := by ring
  have h2 : c.tdiv w < o.tdiv w + h := lt_of_mul_lt hw (by omega)
  have p1 := mul_mono_right hw (show o.tdiv w ≤ c.tdiv w by omega)
  have p2 := mul_mono_right hw (show c.tdiv w + 1 ≤ o.tdiv w + h by omega)
  constructor
  · omega
  · omega

theorem cursorLeft_viewport (w : Window β) (c : Int) (hw : 0 < w.width)
    (ha : w.offset.tmod w.width = 0) (hv : InViewport w) (hc : 0 ≤ w.cursor) :
    InViewport (w.cursorLeftZ c) := by
  obtain ⟨hv1, hv2⟩ := hv
  obtain ⟨q0, q1, q2, r0, r1, e⟩ := tdiv_facts w.cursor w.width hc hw
  obtain ⟨a1, a2⟩ := row_in_viewport _ _ _ _ hw hc ha hv1 hv2
  unfold Window.cursorLeftZ InViewport
  dsimp only
  rw [MinInt64_eq, MaxInt64_eq]
  constructor
  · omega
  · omega

theorem cursorRight_viewport (w : Window β) (c : Int) (hw : 0 < w.width)
    (ha : w.offset.tmod w.width = 0) (hv : InViewport w) (hc : 0 ≤ w.cursor)
    (hcL : w.cursor ≤ MaxInt64 w.length 1 - 1) : InViewport (w.cursorRightZ c) := by
  obtain ⟨hv1, hv2⟩ := hv
  obtain ⟨q0, q1, q2, r0, r1, e⟩ := tdiv_facts w.cursor w.width hc hw
  obtain ⟨a1, a2⟩ := row_in_viewport _ _ _ _ hw hc ha hv1 hv2
  have e3 : (w.cursor.tdiv w.width + 1) * w.width =
      w.cursor.tdiv w.width * w.width + w.width := by ring
  unfold Window.cursorRightZ InViewport
  dsimp only
  rw [MinInt64_eq, MinInt64_eq, MaxInt64_eq]
  constructor
  · omega
  · omega

theorem cursorPrev_viewport (w : Window β) (c : Int) (hw : 0 < w.width) (hh : 0 < w.height)
    (hv : InViewport w) (hc : 0 ≤ w.cursor) : InViewport (w.cursorPrevZ c) := by
  obtain ⟨hv1, hv2⟩ := hv
  have hm0 : 0 ≤ MinInt64 (MaxInt64 c 1) w.cursor := by
    rw [MinInt64_eq, MaxInt64_eq]; omega
  have hm1 : MinInt64 (MaxInt64 c 1) w.cursor ≤ w.cursor := by
    rw [MinInt64_eq, MaxInt64_eq]; omega
  have p2 := mul_mono_right hw (show (1 : Int) ≤ w.height by omega)
  obtain ⟨-, r1, r2, -, -, -⟩ :=
    tdiv_facts (w.cursor - MinInt64 (MaxInt64 c 1) w.cursor) w.width (by omega) hw
  unfold Window.cursorPrevZ InViewport
  dsimp only
  split_ifs
  · dsimp only
    constructor
    · omega
    · nlinarith
  · dsimp only
    constructor
    · omega
    · omega

theorem cursorNext_viewport (w : Window β) (c : Int) (hw : 0 < w.width) (hh : 0 < w.height)
    (ho : 0 ≤ w.offset) (hv : InViewport w)
    (hcL : w.cursor ≤ MaxInt64 w.length 1 - 1) : InViewport (w.cursorNextZ c) := by
  obtain ⟨hv1, hv2⟩ := hv
  have hd : 0 ≤ MinInt64 (MaxInt64 c 1) (MaxInt64 w.length 1 - 1 - w.cursor) := by
    rw [MinInt64_eq, MaxInt64_eq]; omega
  unfold Window.cursorNextZ InViewport
  dsimp only
  split_ifs with hif
  · dsimp only
    exact scroll_to_cursor _ _ _ _ hw hh ho hif
  · dsimp only
    constructor
    · omega
    · omega

theorem cursorHead_viewport (w : Window β) (c : Int) (hw : 0 < w.width)
    (ha : w.offset.tmod w.width = 0) (hv : InViewport w) (hc : 0 ≤ w.cursor) :
    InViewport (w.cursorHeadZ c) := by
  obtain ⟨hv1, hv2⟩ := hv
  obtain ⟨q0, q1, q2, r0, r1, e⟩ := tdiv_facts w.cursor w.width hc hw
  obtain ⟨a1, a2⟩ := row_in_viewport _ _ _ _ hw hc ha hv1 hv2
  unfold Window.cursorHeadZ InViewport
  dsimp only
  constructor
  · omega
  · omega

theorem cursorEnd_viewport (w : Window β) (c : Int) (hw : 0 < w.width) (hh : 0 < w.height)
    (ho : 0 ≤ w.offset) (hv : InViewport w) (hc : 0 ≤ w.cursor)
    (hcL : w.cursor ≤ MaxInt64 w.length 1 - 1) : InViewport (w.cursorEndZ c) := by
  obtain ⟨hv1, hv2⟩ := hv
  obtain ⟨q0, q1, q2, r0, r1, e⟩ := tdiv_facts w.cursor w.width hc hw
  have p1 := mul_mono_right hw
    (show w.cursor.tdiv w.width + 1 ≤ w.cursor.tdiv w.width + MaxInt64 c 1 by
      rw [MaxInt64_eq]; omega)
  have hd : w.cursor ≤ MinInt64 ((w.cursor.tdiv w.width + MaxInt64 c 1) * w.width - 1)
      (MaxInt64 w.length 1 - 1) := by
    rw [MinInt64_eq]; omega
  unfold Window.cursorEndZ InViewport
  dsimp only
  split_ifs with hif
  · dsimp only
    exact scroll_to_cursor _ _ _ _ hw hh ho hif
  · dsimp only
    constructor
    · omega
    · omega

theorem scrollUp_viewport (w : Window β) (c : Int) (hw : 0 < w.width) (hh : 0 < w.height)
    (ho : 0 ≤ w.offset) (hv : InViewport w) : InViewport (w.scrollUpZ c) := by
  obtain ⟨hv1, hv2⟩ := hv
  obtain ⟨q0, q1, q2, -, -, -⟩ := tdiv_facts w.offset w.width ho hw
  have hm0 : 0 ≤ MinInt64 (MaxInt64 c 1) (w.offset.tdiv w.width) := by
    rw [MinInt64_eq, MaxInt64_eq]; omega
  have hm1 : MinInt64 (MaxInt64 c 1) (w.offset.tdiv w.width) ≤ w.offset.tdiv w.width := by
    rw [MinInt64_eq, MaxInt64_eq]; omega
  have p0 := mul_nonneg hm0 hw.le
  have p1 := mul_mono_right hw hm1
  have p2 := mul_mono_right hw (show (1 : Int) ≤ w.height by omega)
  unfold Window.scrollUpZ InViewport
  dsimp only
  split_ifs with hif
  · dsimp only
    obtain ⟨-, r1, r2, -, -, -⟩ := tdiv_facts
      (w.cursor - (w.offset - MinInt64 (MaxInt64 c 1) (w.offset.tdiv w.width) * w.width)
        - w.height * w.width) w.width (by omega) hw
    rw [add_mul] at r2 ⊢
    constructor
    · omega
    · omega
  · dsimp only
    constructor
    · omega
    · omega

theorem rows_facts (length w : Int) (hw : 0 < w) :
    ((MaxInt64 length 1 + w - 1).tdiv w - 1) * w ≤ MaxInt64 length 1 - 1 ∧
      MaxInt64 length 1 - 1 < (MaxInt64 length 1 + w - 1).tdiv w * w := by
  have hL : 1 ≤ MaxInt64 length 1 := by rw [MaxInt64_eq]; omega
  obtain ⟨-, r1, r2, -, -, -⟩ := tdiv_facts (MaxInt64 length 1 + w - 1) w (by omega) hw
  rw [add_mul] at r2
  rw [sub_mul]
  constructor
  · omega
  · omega

theorem scrollDown_viewport (w : Window β) (c : Int) (hw : 0 < w.width) (hh : 0 < w.height)
    (ha : w.offset.tmod w.width = 0) (hv : InViewport w)
    (hcL : w.cursor ≤ MaxInt64 w.length 1 - 1) : InViewport (w.scrollDownZ c) := by
  obtain ⟨hv1, hv2⟩ := hv
  have e := Int.tdiv_add_tmod' w.offset w.width
  rw [ha] at e
  obtain ⟨f1, f2⟩ := rows_facts w.length w.width hw
  have p2 := mul_mono_right hw (show (1 : Int) ≤ w.height by omega)
  unfold Window.scrollDownZ InViewport
  dsimp only
  generalize hR : (MaxInt64 w.length 1 + w.width - 1).tdiv w.width = R at *
  generalize hk : w.offset.tdiv w.width = k at *
  generalize hm : MinInt64 (MaxInt64 c 1) (R - w.height - k) = m
  have hm1 : m ≤ R - w.height - k := by rw [← hm, MinInt64_eq]; omega
  have hm2 : 1 ≤ m ∨ m = R - w.height - k := by
    rw [← hm, MinInt64_eq, MaxInt64_eq]; omega
  have e1 : (R - w.height - k) * w.width = R * w.width - w.height * w.width - k * w.width := by
    ring
  have e2 : (R - 1) * w.width = R * w.width - w.width := by ring
  split_ifs with hif
  · dsimp only
    have hmpos : 0 < m := by
      by_contra hcon
      have := mul_nonpos_of_nonpos_of_nonneg (show m ≤ 0 by omega) hw.le
      omega
    have p3 := mul_mono_right hw hm1
    obtain ⟨-, r1, r2, -, -, -⟩ := tdiv_facts
      (w.offset + m * w.width - w.cursor + w.width - 1) w.width (by omega) hw
    rw [add_mul] at r2
    rw [MinInt64_eq]
    constructor
    · omega
    · omega
  · dsimp only
    constructor
    · omega
    · rcases hm2 with h1 | h1
      · have := mul_nonneg (show 0 ≤ m by omega) hw.le
        omega
      · rw [h1]
        omega

/-- Scrolling up by a non-negative number of rows, as `pageUp` and `pageUpHalf` do. -/
theorem page_up_by (o c h w s : Int) (hw : 0 < w) (hh : 0 < h) (ho : 0 ≤ o) (hs : 0 ≤ s)
    (hv1 : o ≤ c) (_hv2 : c < o + h * w) :
    let o1 := MaxInt64 (o - s) 0
    let c1 := if o1 = 0 then 0 else if c ≥ o1 + h * w then o1 + (h - 1) * w else c
    o1 ≤ c1 ∧ c1 < o1 + h * w := by
  have p2 := mul_mono_right hw (show (1 : Int) ≤ h by omega)
  have p3 := mul_pos hh hw
  have e : (h - 1) * w = h * w - w := by ring
  have hle : MaxInt64 (o - s) 0 ≤ o := by rw [MaxInt64_eq]; omega
  dsimp only
  split_ifs with h1 h2
  · rw [h1]; omega
  · constructor <;> omega
  · constructor <;> omega

theorem pageUp_viewport (w : Window β) (hw : 0 < w.width) (hh : 2 ≤ w.height)
    (ho : 0 ≤ w.offset) (hv : InViewport w) : InViewport w.pageUpZ := by
  have hs : 0 ≤ (w.height - 2) * w.width := mul_nonneg (by omega) hw.le
  have := page_up_by w.offset w.cursor w.height w.width _ hw (by omega) ho hs hv.1 hv.2
  unfold Window.pageUpZ InViewport
  dsimp only at this ⊢
  split_ifs at this ⊢ <;> exact this

theorem pageUpHalf_viewport (w : Window β) (hw : 0 < w.width) (hh : 0 < w.height)
    (ho : 0 ≤ w.offset) (hv : InViewport w) : InViewport w.pageUpHalfZ := by
  have hs : 0 ≤ MaxInt64 (w.height.tdiv 2) 1 * w.width :=
    mul_nonneg (by rw [MaxInt64_eq]; omega) hw.le
  have := page_up_by w.offset w.cursor w.height w.width _ hw hh ho hs hv.1 hv.2
  unfold Window.pageUpHalfZ InViewport
  dsimp only at this ⊢
  split_ifs at this ⊢ <;> exact this

/-- Scrolling down by a non-negative number of rows, as `pageDown` and `pageDownHalf`
do. -/
theorem page_down_by (o c h w s length : Int) (hw : 0 < w) (hh : 0 < h) (hs : 0 ≤ s)
    (_hv1 : o ≤ c) (hv2 : c < o + h * w) :
    let m := MaxInt64 (((length + w - 1).tdiv w - h) * w) 0
    let o1 := MinInt64 (o + s) m
    let c1 := if c < o1 then o1 else if o1 = m then
      ((MaxInt64 length 1 + w - 1).tdiv w - 1) * w else c
    o1 ≤ c1 ∧ c1 < o1 + h * w := by
  have p3 := mul_pos hh hw
  obtain ⟨l1, l2⟩ := last_row_in_last_page length h w hw hh
  dsimp only
  generalize MaxInt64 (((length + w - 1).tdiv w - h) * w) 0 = m at *
  have hmin : MinInt64 (o + s) m = o + s ∨ MinInt64 (o + s) m = m := by
    rw [MinInt64_eq]; omega
  split_ifs with h1 h2
  · constructor <;> omega
  · rw [h2]; exact ⟨l1, l2⟩
  · constructor
    · omega
    · rcases hmin with h3 | h3
      · omega
      · exact absurd h3 h2

theorem pageDown_viewport (w : Window β) (hw : 0 < w.width) (hh : 2 ≤ w.height)
    (hv : InViewport w) : InViewport w.pageDownZ := by
  have hs : 0 ≤ (w.height - 2) * w.width := mul_nonneg (by omega) hw.le
  have := page_down_by w.offset w.cursor w.height w.width _ w.length hw (by omega) hs
    hv.1 hv.2
  unfold Window.pageDownZ InViewport
  dsimp only at this ⊢
  split_ifs at this ⊢ <;> exact this

theorem pageDownHalf_viewport (w : Window β) (hw : 0 < w.width) (hh : 0 < w.height)
    (hv : InViewport w) : InViewport w.pageDownHalfZ := by
  have hs : 0 ≤ MaxInt64 (w.height.tdiv 2) 1 * w.width :=
    mul_nonneg (by rw [MaxInt64_eq]; omega) hw.le
  have := page_down_by w.offset w.cursor w.height w.width _ w.length hw hh hs
    hv.1 hv.2
  unfold Window.pageDownHalfZ InViewport
  dsimp only at this ⊢
  split_ifs at this ⊢ <;> exact this

theorem pageTop_viewport (w : Window β) (hw : 0 < w.width) (hh : 0 < w.height) :
    InViewport w.pageTop := by
  have p3 := mul_pos hh hw
  unfold Window.pageTop InViewport
  dsimp only
  constructor <;> omega

theorem pageEnd_viewport (w : Window β) (hw : 0 < w.width) (hh : 0 < w.height) :
    InViewport w.pageEndZ := by
  unfold Window.pageEndZ InViewport
  dsimp only
  exact last_row_in_last_page w.length w.height w.width hw hh

/-- C2 (the code at the failing input): a window of one row, sixteen columns and a
buffer of 100 bytes, with cursor and offset 0, meets every hypothesis of the claim, yet
after `pageDown` the offset is -16 and the cursor 0, and after `pageUp` the offset is 16
and the cursor still 0: both times the cursor is outside the viewport.  `pageUpHalf` and
`pageDownHalf`, which clamp the number of rows with `MaxInt64(height/2, 1)`, keep it
inside on the same window. -/
theorem page_motion_one_row_leaves_viewport :
    (0 < (geometry 1 16 0 0 100).width ∧ 0 < (geometry 1 16 0 0 100).height ∧
      0 ≤ (geometry 1 16 0 0 100).offset ∧
      (geometry 1 16 0 0 100).offset.tmod (geometry 1 16 0 0 100).width = 0 ∧
      InViewport (geometry 1 16 0 0 100) ∧ 0 ≤ (geometry 1 16 0 0 100).cursor ∧
      (geometry 1 16 0 0 100).cursor ≤ MaxInt64 (geometry 1 16 0 0 100).length 1 - 1) ∧
    ((geometry 1 16 0 0 100).pageUp.offset = 16 ∧
      (geometry 1 16 0 0 100).pageUp.cursor = 0 ∧
      ¬ InViewport (geometry 1 16 0 0 100).pageUp) ∧
    ((geometry 1 16 0 0 100).pageDown.offset = -16 ∧
      (geometry 1 16 0 0 100).pageDown.cursor = 0 ∧
      ¬ InViewport (geometry 1 16 0 0 100).pageDown) ∧
    (InViewport (geometry 1 16 0 0 100).pageUpHalf ∧
      InViewport (geometry 1 16 0 0 100).pageDownHalf) := by
  refine ⟨?_, ?_, ?_, ?_⟩ <;> decide

/-- In exact arithmetic: for a window with positive width and height, a non-negative offset
that is a multiple of the width, the cursor inside the viewport and
`0 <= cursor <= max(length,1) - 1`, every single motion operation, with any count,
leaves the cursor inside the viewport, `offset <= cursor < offset + height*width`;
for `pageUp` and `pageDown` the viewport has at least two rows. -/
theorem motion_in_viewport_exact (B : BufferOps β) (w : Window β) (op : Op)
    (hop : op.isMotion = true) (hw : 0 < w.width) (hh : 0 < w.height)
    (ho : 0 ≤ w.offset) (ha : w.offset.tmod w.width = 0)
    (hv1 : w.offset ≤ w.cursor) (hv2 : w.cursor < w.offset + w.height * w.width)
    (hc : 0 ≤ w.cursor) (hcL : w.cursor ≤ MaxInt64 w.length 1 - 1)
    (hpage : op = Op.pageUp ∨ op = Op.pageDown → 2 ≤ w.height) :
    (w.applyZ B op).offset ≤ (w.applyZ B op).cursor ∧
      (w.applyZ B op).cursor <
        (w.applyZ B op).offset + (w.applyZ B op).height * (w.applyZ B op).width := by
  have hv : InViewport w := ⟨hv1, hv2⟩
  cases op with
  | cursorUp c => exact cursorUp_viewport w c hw hh hv hc
  | cursorDown c => exact cursorDown_viewport w c hw hh ho hv hc hcL
  | cursorLeft c => exact cursorLeft_viewport w c hw ha hv hc
  | cursorRight c => exact cursorRight_viewport w c hw ha hv hc hcL
  | cursorPrev c => exact cursorPrev_viewport w c hw hh hv hc
  | cursorNext c => exact cursorNext_viewport w c hw hh ho hv hcL
  | cursorHead c => exact cursorHead_viewport w c hw ha hv hc
  | cursorEnd c => exact cursorEnd_viewport w c hw hh ho hv hc hcL
  | scrollUp c => exact scrollUp_viewport w c hw hh ho hv
  | scrollDown c => exact scrollDown_viewport w c hw hh ha hv hcL
  | pageUp => exact pageUp_viewport w hw (hpage (Or.inl rfl)) ho hv
  | pageDown => exact pageDown_viewport w hw (hpage (Or.inr rfl)) hv
  | pageUpHalf => exact pageUpHalf_viewport w hw hh ho hv
  | pageDownHalf => exact pageDownHalf_viewport w hw hh hv
  | pageTop => exact pageTop_viewport w hw hh
  | pageEnd => exact pageEnd_viewport w hw hh
  | _ => simp [Op.isMotion] at hop

/-! ## The buffer: what each position holds -/

theorem original_getElem? (source : List Nat) (pos len i : Nat) :
    ((source.drop pos).take len)[i]? = if i < len then source[pos + i]? else none := by
  rw [List.getElem?_take, List.getElem?_drop]

theorem pushRun_cases (r : Run) (rs : List Run) (t : Nat) :
    (r.size = 0 ∧ pushRun r (rs, t) = (rs, t)) ∨
    (∃ a b rs2, r = Run.overlay a ∧ rs = Run.overlay b :: rs2 ∧
      pushRun r (rs, t) = (Run.overlay (a ++ b) :: rs2, t)) ∨
    (∃ p l m rs2, r = Run.original p l ∧ rs = Run.original (p + l) m :: rs2 ∧
      pushRun r (rs, t) = (Run.original p (l + m) :: rs2, t)) ∨
    (∃ p l, r = Run.original p l ∧ rs = [] ∧ t = p + l ∧ pushRun r (rs, t) = ([], p)) ∨
    (0 < r.size ∧ pushRun r (rs, t) = (r :: rs, t)) := by
  cases r with
  | overlay a =>
    cases a with
    | nil => left; simp [pushRun, Run.size]
    | cons x a =>
      cases rs with
      | nil => right; right; right; right; simp [pushRun, Run.size]
      | cons r2 rs2 =>
        cases r2 with
        | overlay b => right; left; exact ⟨_, _, _, rfl, rfl, by simp [pushRun]⟩
        | original q m => right; right; right; right; simp [pushRun, Run.size]
  | original p l =>
    cases l with
    | zero => left; simp [pushRun, Run.size]
    | succ l =>
      cases rs with
      | nil =>
        by_cases hc : p + (l + 1) = t
        · right; right; right; left
          exact ⟨_, _, rfl, rfl, hc.symm, by simp [pushRun, hc]⟩
        · right; right; right; right; simp [pushRun, Run.size, hc]
      | cons r2 rs2 =>
        cases r2 with
        | overlay b => right; right; right; right; simp [pushRun, Run.size]
        | original q m =>
          by_cases hc : p + (l + 1) = q
          · right; right; left
            exact ⟨_, _, _, _, rfl, by rw [hc], by simp [pushRun, hc]⟩
          · right; right; right; right; simp [pushRun, Run.size, hc]

theorem cellAt_pushRun (source : List Nat) (r : Run) (rs : List Run) (t j : Nat) :
    cellAt source (pushRun r (rs, t)).1 (pushRun r (rs, t)).2 j =
      cellAt source (r :: rs) t j := by
  rcases pushRun_cases r rs t with ⟨h0, e⟩ | ⟨a, b, rs2, rfl, rfl, e⟩ |
      ⟨p, l, m, rs2, rfl, rfl, e⟩ | ⟨p, l, rfl, rfl, rfl, e⟩ | ⟨-, e⟩
  · rw [e]; simp [cellAt, h0]
  · rw [e]
    simp only [cellAt, Run.size, Run.bytes, List.length_append]
    by_cases h1 : j < a.length
    · simp [h1, show j < a.length + b.length by omega, List.getElem?_append_left h1]
    · by_cases h2 : j < a.length + b.length
      · simp [h1, h2, show j - a.length < b.length by omega,
          List.getElem?_append_right (show a.length ≤ j by omega)]
      · simp [h1, h2, show ¬ j - a.length < b.length by omega, Nat.sub_sub]
  · rw [e]
    simp only [cellAt, Run.size, Run.bytes, original_getElem?]
    by_cases h1 : j < l
    · simp [h1, show j < l + m by omega]
    · by_cases h2 : j < l + m
      · simp [h1, h2, show j - l < m by omega]
        congr 1
        omega
      · simp [h1, h2, show ¬ j - l < m by omega, Nat.sub_sub]
  · rw [e]
    simp only [cellAt, Run.size, Run.bytes, original_getElem?]
    by_cases h1 : j < l
    · simp [h1]
    · simp [h1]
      congr 1
      omega
  · rw [e]

theorem runsSize_pushRun (r : Run) (rs : List Run) (t : Nat) :
    (runsSize (pushRun r (rs, t)).1 : Int) - ((pushRun r (rs, t)).2 : Int) =
      (r.size : Int) + (runsSize rs : Int) - (t : Int) := by
  rcases pushRun_cases r rs t with ⟨h0, e⟩ | ⟨a, b, rs2, rfl, rfl, e⟩ |
      ⟨p, l, m, rs2, rfl, rfl, e⟩ | ⟨p, l, rfl, rfl, rfl, e⟩ | ⟨-, e⟩
  · rw [e]; simp [h0]
  · rw [e]; simp [runsSize, Run.size]; omega
  · rw [e]; simp [runsSize, Run.size]; omega
  · rw [e]; simp [runsSize, Run.size]
  · rw [e]; simp [runsSize]

theorem cellAt_normalize (source : List Nat) (rs : List Run) (t j : Nat) :
    cellAt source (normalize rs t).1 (normalize rs t).2 j = cellAt source rs t j := by
  induction rs generalizing j with
  | nil => rfl
  | cons r rs ih =>
    have h : normalize (r :: rs) t = pushRun r ((normalize rs t).1, (normalize rs t).2) := rfl
    rw [h, cellAt_pushRun]
    simp only [cellAt]
    split_ifs
    · rfl
    · exact ih _

theorem runsSize_normalize (rs : List Run) (t : Nat) :
    (runsSize (normalize rs t).1 : Int) - ((normalize rs t).2 : Int) =
      (runsSize rs : Int) - (t : Int) := by
  induction rs with
  | nil => rfl
  | cons r rs ih =>
    have h : normalize (r :: rs) t = pushRun r ((normalize rs t).1, (normalize rs t).2) := rfl
    rw [h, runsSize_pushRun]
    simp only [runsSize]
    push_cast
    omega

theorem runsSize_append (l r : List Run) : runsSize (l ++ r) = runsSize l + runsSize r := by
  induction l with
  | nil => simp [runsSize]
  | cons x l ih => simp [runsSize, ih]; omega

theorem cellAt_append_right (source : List Nat) (l r : List Run) (t j : Nat)
    (h : runsSize l ≤ j) :
    cellAt source (l ++ r) t j = cellAt source r t (j - runsSize l) := by
  induction l generalizing j with
  | nil => simp [runsSize]
  | cons x l ih =>
    simp only [runsSize] at h
    have h2 := ih (j - x.size) (by omega)
    rw [Nat.sub_sub] at h2
    have h3 : cellAt source (x :: l ++ r) t j = cellAt source (l ++ r) t (j - x.size) := by
      simp only [List.cons_append, cellAt, show ¬ j < x.size by omega, if_false]
      rfl
    rw [h3, h2]
    simp only [runsSize]

theorem Run.size_take (r : Run) (i : Nat) (h : i ≤ r.size) : (r.take i).size = i := by
  cases r <;> simp [Run.take, Run.size] at * <;> omega

theorem Run.size_drop (r : Run) (i : Nat) : (r.drop i).size = r.size - i := by
  cases r <;> simp [Run.drop, Run.size]

theorem Run.bytes_take (source : List Nat) (r : Run) (i j : Nat) (h : i ≤ r.size)
    (hj : j < i) : ((r.take i).bytes source)[j]? = (r.bytes source)[j]? := by
  cases r with
  | original pos len =>
    simp only [Run.take, Run.bytes, Run.size, original_getElem?] at *
    simp [hj, show j < len by omega]
  | overlay bytes =>
    simp only [Run.take, Run.bytes, Run.size] at *
    rw [List.getElem?_take]
    simp [hj]

theorem Run.bytes_drop (source : List Nat) (r : Run) (i j : Nat) :
    ((r.drop i).bytes source)[j]? = (r.bytes source)[i + j]? := by
  cases r with
  | original pos len =>
    simp only [Run.drop, Run.bytes, Run.size, original_getElem?] at *
    by_cases h : j < len - i
    · simp [h, show i + j < len by omega, Nat.add_assoc]
    · simp [h, show ¬ i + j < len by omega]
  | overlay bytes =>
    simp only [Run.drop, Run.bytes, Run.size] at *
    rw [List.getElem?_drop]

theorem splitRuns_size (rs : List Run) (t i : Nat) : runsSize (splitRuns rs t i).1 = i := by
  induction rs generalizing i with
  | nil => simp [splitRuns, runsSize, Run.size]
  | cons r rs ih =>
    simp only [splitRuns]
    split_ifs with h
    · simp [runsSize, Run.size_take r i (by omega)]
    · simp only [runsSize, ih]
      omega

theorem splitRuns_left (source : List Nat) (rs : List Run) (t i j : Nat) (X : List Run)
    (t2 : Nat) (hj : j < i) :
    cellAt source ((splitRuns rs t i).1 ++ X) t2 j = cellAt source rs t j := by
  induction rs generalizing i j with
  | nil =>
    simp only [splitRuns, List.singleton_append, cellAt, Run.size, Run.bytes,
      original_getElem?, hj, if_true]
  | cons r rs ih =>
    simp only [splitRuns]
    split_ifs with h
    · simp only [List.singleton_append, cellAt, Run.size_take r i (by omega), hj, if_true,
        show j < r.size by omega]
      exact Run.bytes_take source r i j (by omega) hj
    · simp only [List.cons_append, cellAt]
      split_ifs with h2
      · rfl
      · exact ih _ _ (by omega)

theorem splitRuns_right (source : List Nat) (rs : List Run) (t i j : Nat) :
    cellAt source (splitRuns rs t i).2.1 (splitRuns rs t i).2.2 j =
      cellAt source rs t (i + j) := by
  induction rs generalizing i j with
  | nil => simp [splitRuns, cellAt, Nat.add_assoc]
  | cons r rs ih =>
    simp only [splitRuns]
    split_ifs with h
    · simp only [cellAt, Run.size_drop, Run.bytes_drop]
      by_cases h2 : j < r.size - i
      · simp [h2, show i + j < r.size by omega]
      · simp [h2, show ¬ i + j < r.size by omega]
        congr 1
        omega
    · simp only [cellAt, show ¬ i + j < r.size by omega, if_false]
      rw [ih]
      congr 1
      omega

theorem splitRuns_len (rs : List Run) (t i : Nat) :
    (runsSize (splitRuns rs t i).1 : Int) + (runsSize (splitRuns rs t i).2.1 : Int) -
      ((splitRuns rs t i).2.2 : Int) = (runsSize rs : Int) - (t : Int) := by
  induction rs generalizing i with
  | nil => simp [splitRuns, runsSize, Run.size]
  | cons r rs ih =>
    simp only [splitRuns]
    split_ifs with h
    · simp only [runsSize, Run.size_take r i (by omega), Run.size_drop]
      push_cast
      omega
    · have := ih (i - r.size)
      simp only [runsSize]
      push_cast
      omega

/-- The runs from the split position on start with a run that is not empty. -/
theorem splitRuns_head (rs : List Run) (t i : Nat) :
    (splitRuns rs t i).2.1 = [] ∨
      ∃ r rs2, (splitRuns rs t i).2.1 = r :: rs2 ∧ 0 < r.size := by
  induction rs generalizing i with
  | nil => left; rfl
  | cons r rs ih =>
    simp only [splitRuns]
    split_ifs with h
    · right
      exact ⟨_, _, rfl, by rw [Run.size_drop]; omega⟩
    · exact ih _

theorem behead_cell (source : List Nat) (rs : List Run) (t j : Nat)
    (h : rs = [] ∨ ∃ r rs2, rs = r :: rs2 ∧ 0 < r.size) :
    cellAt source (behead rs t).1 (behead rs t).2 j = cellAt source rs t (j + 1) := by
  rcases h with rfl | ⟨r, rs2, rfl, hr⟩
  · simp [behead, cellAt, Nat.add_assoc, Nat.add_comm 1 j]
  · simp only [behead, cellAt, Run.size_drop, Run.bytes_drop]
    by_cases h2 : j < r.size - 1
    · simp [h2, show j + 1 < r.size by omega, Nat.add_comm 1 j]
    · simp [h2, show ¬ j + 1 < r.size by omega]
      congr 1
      omega

theorem behead_len (rs : List Run) (t : Nat)
    (h : rs = [] ∨ ∃ r rs2, rs = r :: rs2 ∧ 0 < r.size) :
    (runsSize (behead rs t).1 : Int) - ((behead rs t).2 : Int) =
      (runsSize rs : Int) - (t : Int) - 1 := by
  rcases h with rfl | ⟨r, rs2, rfl, hr⟩
  · simp [behead, runsSize]; omega
  · simp only [behead, runsSize, Run.size_drop]
    push_cast
    omega

theorem Len_Insert (b : Buffer) (i c : Nat) : (b.Insert i c).Len.1 = b.Len.1 + 1 := by
  have h1 := runsSize_normalize ((splitRuns b.rrs b.tail i).1 ++
    Run.overlay [c] :: (splitRuns b.rrs b.tail i).2.1) (splitRuns b.rrs b.tail i).2.2
  have h2 := splitRuns_len b.rrs b.tail i
  simp only [runsSize_append, runsSize, Run.size, List.length_singleton] at h1
  simp only [Buffer.Insert, Buffer.Len]
  push_cast at h1
  omega

theorem byteAt_Insert (b : Buffer) (i c j : Nat) :
    (b.Insert i c).byteAt j =
      if j < i then b.byteAt j else if j = i then some c else b.byteAt (j - 1) := by
  simp only [Buffer.Insert, Buffer.byteAt, cellAt_normalize]
  split_ifs with h1 h2
  · exact splitRuns_left _ _ _ _ _ _ _ h1
  · subst h2
    rw [cellAt_append_right _ _ _ _ _ (by rw [splitRuns_size]), splitRuns_size]
    simp [cellAt, Run.size, Run.bytes]
  · rw [cellAt_append_right _ _ _ _ _ (by rw [splitRuns_size]; omega), splitRuns_size]
    simp only [cellAt, Run.size, List.length_singleton, show ¬ j - i < 1 by omega, if_false]
    rw [splitRuns_right]
    congr 1
    omega

theorem Len_Replace (b : Buffer) (i c : Nat) : (b.Replace i c).Len.1 = b.Len.1 := by
  have h0 := behead_len _ (splitRuns b.rrs b.tail i).2.2 (splitRuns_head b.rrs b.tail i)
  have h1 := runsSize_normalize ((splitRuns b.rrs b.tail i).1 ++
    Run.overlay [c] :: (behead (splitRuns b.rrs b.tail i).2.1 (splitRuns b.rrs b.tail i).2.2).1)
    (behead (splitRuns b.rrs b.tail i).2.1 (splitRuns b.rrs b.tail i).2.2).2
  have h2 := splitRuns_len b.rrs b.tail i
  simp only [runsSize_append, runsSize, Run.size, List.length_singleton] at h1
  simp only [Buffer.Replace, Buffer.Len]
  push_cast at h1
  omega

theorem byteAt_Replace (b : Buffer) (i c j : Nat) :
    (b.Replace i c).byteAt j = if j = i then some c else b.byteAt j := by
  simp only [Buffer.Replace, Buffer.byteAt, cellAt_normalize]
  by_cases h1 : j < i
  · rw [if_neg (by omega)]
    exact splitRuns_left _ _ _ _ _ _ _ h1
  · rw [cellAt_append_right _ _ _ _ _ (by rw [splitRuns_size]; omega), splitRuns_size]
    split_ifs with h2
    · subst h2
      simp [cellAt, Run.size, Run.bytes]
    · simp only [cellAt, Run.size, List.length_singleton, show ¬ j - i < 1 by omega,
        if_false]
      rw [behead_cell _ _ _ _ (splitRuns_head b.rrs b.tail i), splitRuns_right]
      congr 1
      omega

theorem Len_Delete (b : Buffer) (i : Nat) (h : (i : Int) < b.Len.1) :
    (b.Delete i).Len.1 = b.Len.1 - 1 := by
  have h0 := behead_len _ (splitRuns b.rrs b.tail i).2.2 (splitRuns_head b.rrs b.tail i)
  have h1 := runsSize_normalize ((splitRuns b.rrs b.tail i).1 ++
    (behead (splitRuns b.rrs b.tail i).2.1 (splitRuns b.rrs b.tail i).2.2).1)
    (behead (splitRuns b.rrs b.tail i).2.1 (splitRuns b.rrs b.tail i).2.2).2
  have h2 := splitRuns_len b.rrs b.tail i
  simp only [runsSize_append] at h1
  simp only [Buffer.Delete, if_pos h]
  simp only [Buffer.Len] at *
  push_cast at h1
  omega

theorem byteAt_Delete (b : Buffer) (i j : Nat) (h : (i : Int) < b.Len.1) :
    (b.Delete i).byteAt j = if j < i then b.byteAt j else b.byteAt (j + 1) := by
  simp only [Buffer.Delete, if_pos h]
  simp only [Buffer.byteAt, cellAt_normalize]
  split_ifs with h1
  · exact splitRuns_left _ _ _ _ _ _ _ h1
  · rw [cellAt_append_right _ _ _ _ _ (by rw [splitRuns_size]; omega), splitRuns_size]
    rw [behead_cell _ _ _ _ (splitRuns_head b.rrs b.tail i), splitRuns_right]
    congr 1
    omega

theorem Delete_past_end (b : Buffer) (i : Nat) (h : b.Len.1 ≤ (i : Int)) :
    b.Delete i = b := by
  simp only [Buffer.Delete, if_neg (not_lt.2 h)]

/-! ## The buffer: reading -/

theorem take_append_take_drop (X : List Nat) (a want : Nat) (h : a ≤ want) :
    X.take a ++ (X.drop a).take (want - (X.take a).length) = X.take want := by
  by_cases ha : a ≤ X.length
  · rw [List.length_take, Nat.min_eq_left ha]
    have : want = a + (want - a) := by omega
    conv_rhs => rw [this, List.take_add]
  · have h1 : X.take a = X := List.take_of_length_le (by omega)
    have h2 : X.drop a = [] := List.drop_of_length_le (by omega)
    rw [h1, h2, List.take_of_length_le (show X.length ≤ want by omega)]
    simp

theorem readRuns_zero (source : List Nat) (rs : List Run) (t idx : Nat) :
    readRuns source rs t idx 0 = [] := by
  induction rs generalizing idx with
  | nil => simp [readRuns]
  | cons r rs ih =>
    simp only [readRuns]
    split_ifs with h1 h2
    · exact ih _
    · simp
    · simp [ih]

/-- Over runs whose positions hold exactly the bytes of `s`, a read is a slice of `s`. -/
theorem readRuns_content (source : List Nat) (rs : List Run) (t idx want : Nat)
    (s : List Nat) (h : ∀ j, cellAt source rs t j = s[j]?) :
    readRuns source rs t idx want = (s.drop idx).take want := by
  induction rs generalizing idx want s with
  | nil =>
    have e : source.drop t = s := by
      apply List.ext_getElem?
      intro j
      rw [List.getElem?_drop]
      exact h j
    simp only [readRuns]
    rw [← e, List.drop_drop]
  | cons r rs ih =>
    have hb : r.bytes source = s.take r.size := by
      apply List.ext_getElem?
      intro j
      rw [List.getElem?_take]
      split_ifs with hj
      · have := h j
        simp only [cellAt, hj, if_true] at this
        exact this
      · cases r with
        | original pos len =>
          simp only [Run.bytes, Run.size, original_getElem?] at *
          simp [hj]
        | overlay bytes =>
          simp only [Run.bytes, Run.size] at *
          exact List.getElem?_eq_none (by omega)
    have hr : ∀ j, cellAt source rs t j = (s.drop r.size)[j]? := by
      intro j
      have := h (r.size + j)
      simp only [cellAt, show ¬ r.size + j < r.size by omega, if_false,
        Nat.add_sub_cancel_left] at this
      rw [List.getElem?_drop]
      exact this
    simp only [readRuns]
    split_ifs with h1 h2
    · rw [ih _ _ _ hr, List.drop_drop]
      congr 2
      omega
    · rw [hb, List.drop_take, List.take_take]
      congr 1
      omega
    · rw [ih _ _ _ hr, hb, List.drop_take, List.take_take,
        Nat.min_eq_right (show r.size - idx ≤ want by omega), Nat.min_self, List.drop_zero]
      have e : s.drop r.size = (s.drop idx).drop (r.size - idx) := by
        rw [List.drop_drop]
        congr 1
        omega
      rw [e]
      exact take_append_take_drop (s.drop idx) (r.size - idx) want (by omega)

theorem NewBuffer_HasContent (r : List Nat) : (NewBuffer r).HasContent r := by
  constructor
  · simp [NewBuffer, Buffer.Len, runsSize]
  · intro i
    simp [NewBuffer, Buffer.byteAt, cellAt]

/-- `Seek(o, io.SeekStart)` then `Read(p)` on a buffer with content `s`. -/
theorem readAt_content (b : Buffer) (s : List Nat) (o : Int) (p : List Nat)
    (hb : b.HasContent s) (ho : 0 ≤ o) :
    (b.readAt o p).2 =
      (((s.drop o.toNat).take p.length).length,
        (s.drop o.toNat).take p.length ++ p.drop ((s.drop o.toNat).take p.length).length,
        if ((s.drop o.toNat).take p.length).length = 0 ∧ 0 < p.length then Err.EOF
        else Err.nil) := by
  have h := readRuns_content b.source b.rrs b.tail o.toNat p.length s hb.2
  simp only [Buffer.readAt, Buffer.Seek, if_neg (not_lt.2 ho), Buffer.Read, h]

theorem HasContent_Insert (b : Buffer) (s : List Nat) (i c : Nat) (hb : b.HasContent s)
    (hi : i ≤ s.length) : (b.Insert i c).HasContent (s.take i ++ c :: s.drop i) := by
  constructor
  · rw [Len_Insert, hb.1]
    simp [Nat.min_eq_left hi]
    omega
  · intro j
    rw [byteAt_Insert]
    have hl : (s.take i).length = i := by simp [Nat.min_eq_left hi]
    split_ifs with h1 h2
    · rw [List.getElem?_append_left (by omega), List.getElem?_take, if_pos h1]
      exact hb.2 j
    · subst h2
      rw [List.getElem?_append_right (by omega), hl]
      simp
    · rw [List.getElem?_append_right (by omega), hl]
      obtain ⟨k, hk⟩ : ∃ k, j - i = k + 1 := ⟨j - i - 1, by omega⟩
      rw [hk, List.getElem?_cons_succ, List.getElem?_drop, hb.2]
      congr 1
      omega

theorem HasContent_Replace (b : Buffer) (s : List Nat) (i c : Nat) (hb : b.HasContent s)
    (hi : i < s.length) : (b.Replace i c).HasContent (s.set i c) := by
  constructor
  · rw [Len_Replace, hb.1]
    simp
  · intro j
    rw [byteAt_Replace]
    by_cases h1 : j = i
    · subst h1
      simp [hi]
    · rw [if_neg h1, List.getElem?_set_ne (fun h => h1 h.symm)]
      exact hb.2 j

theorem HasContent_Delete (b : Buffer) (s : List Nat) (i : Nat) (hb : b.HasContent s)
    (hi : i < s.length) : (b.Delete i).HasContent (s.take i ++ s.drop (i + 1)) := by
  have hlt : (i : Int) < b.Len.1 := by rw [hb.1]; exact_mod_cast hi
  rw [← List.eraseIdx_eq_take_drop_succ]
  constructor
  · rw [Len_Delete b i hlt, hb.1, List.length_eraseIdx, if_pos hi]
    omega
  · intro j
    rw [byteAt_Delete b i j hlt, List.getElem?_eraseIdx]
    split_ifs
    · exact hb.2 j
    · exact hb.2 (j + 1)

/-- On a buffer whose positions hold exactly `s`: after `Insert(i, c)` with `i <= len(s)`,
`Len()` returns `len(s) + 1`, and seeking to 0 and reading `len(s) + 1` bytes yields
`s[0:i] ++ [c] ++ s[i:]`, which the positions hold from then on. -/
theorem HasContent_Insert_read (b : Buffer) (s : List Nat) (c i : Nat) (p : List Nat)
    (hb : b.HasContent s) (hi : i ≤ s.length) (hp : p.length = s.length + 1) :
    (b.Insert i c).Len = ((s.length : Int) + 1, Err.nil) ∧
      ((b.Insert i c).readAt 0 p).2 =
        (s.length + 1, s.take i ++ c :: s.drop i, Err.nil) ∧
      (b.Insert i c).HasContent (s.take i ++ c :: s.drop i) := by
  have h := HasContent_Insert b s i c hb hi
  have hl : (s.take i ++ c :: s.drop i).length = s.length + 1 := by
    simp [Nat.min_eq_left hi]
    omega
  refine ⟨?_, ?_, h⟩
  · have := h.1
    rw [hl] at this
    exact Prod.ext (by rw [this]; push_cast; rfl) rfl
  · rw [readAt_content _ _ 0 p h (le_refl 0)]
    generalize s.take i ++ c :: s.drop i = L at hl ⊢
    have e : (L.drop (0 : Int).toNat).take p.length = L := by
      rw [Int.toNat_zero, List.drop_zero, hp, ← hl, List.take_length]
    rw [e, hl, List.drop_of_length_le (by omega)]
    simp

/-- On a buffer whose positions hold exactly `s`: if `i < len(s)`, after `Delete(i)` they
hold `s[0:i] ++ s[i+1:]` and `Len()` returns `len(s) - 1`; if `i >= len(s)`, `Delete(i)`
leaves the buffer as it is. -/
theorem HasContent_Delete_cases (b : Buffer) (s : List Nat) (i : Nat) (hb : b.HasContent s) :
    (i < s.length →
      (b.Delete i).HasContent (s.take i ++ s.drop (i + 1)) ∧
        (b.Delete i).Len = ((s.length : Int) - 1, Err.nil)) ∧
    (s.length ≤ i → b.Delete i = b) := by
  constructor
  · intro hi
    have hlt : (i : Int) < b.Len.1 := by rw [hb.1]; exact_mod_cast hi
    refine ⟨HasContent_Delete b s i hb hi, Prod.ext ?_ rfl⟩
    rw [Len_Delete b i hlt, hb.1]
  · intro hi
    exact Delete_past_end b i (by rw [hb.1]; exact_mod_cast hi)

theorem take_length_take (X : List Nat) (k : Nat) : X.take (X.take k).length = X.take k := by
  rw [List.length_take]
  by_cases h : k ≤ X.length
  · rw [Nat.min_eq_left h]
  · rw [Nat.min_eq_right (by omega), List.take_length, List.take_of_length_le (by omega)]

/-- On a buffer whose positions hold exactly `s`, for an offset `o >= 0` and a destination
`p` of size `k > 0`: `Seek(o, io.SeekStart)` followed by `Read(p)` returns
`n = min(k, max(len(s) - o, 0))`, leaves `s[o : o+n]` in `p[0:n]` and `p[n:]` as it
was; the error is `io.EOF` exactly when `n = 0`, and nil otherwise. -/
theorem HasContent_Seek_Read (b : Buffer) (s : List Nat) (o : Int) (p : List Nat)
    (hb : b.HasContent s) (ho : 0 ≤ o) (hp : 0 < p.length) :
    ((b.readAt o p).2.1 : Int) = min (p.length : Int) (max ((s.length : Int) - o) 0) ∧
      (b.readAt o p).2.2.1 =
        (s.drop o.toNat).take (b.readAt o p).2.1 ++ p.drop (b.readAt o p).2.1 ∧
      ((b.readAt o p).2.2.2 = Err.EOF ↔ (b.readAt o p).2.1 = 0) ∧
      ((b.readAt o p).2.1 ≠ 0 → (b.readAt o p).2.2.2 = Err.nil) := by
  rw [readAt_content b s o p hb ho]
  dsimp only
  have hn : ((s.drop o.toNat).take p.length).length = min p.length (s.length - o.toNat) := by
    simp
  refine ⟨?_, ?_, ?_, ?_⟩
  · rw [hn]
    omega
  · rw [take_length_take]
  · generalize ((s.drop o.toNat).take p.length).length = n
    by_cases h0 : n = 0 <;> simp [h0, hp]
  · generalize ((s.drop o.toNat).take p.length).length = n
    intro h0
    simp [h0]

/-! ## The model against the fixtures of `buffer_test.go` -/

/-- `TestBufferEmpty` and `TestBuffer`. -/
theorem fixture_read_seek :
    ((NewBuffer []).Read (List.replicate 10 0)).2.1 = 0 ∧
    ((NewBuffer []).Read (List.replicate 10 0)).2.2.2 = Err.EOF ∧
    (NewBuffer []).Len = (0, Err.nil) ∧
    ((NewBuffer fixtureSource).Read (List.replicate 8 0)).2 =
      (8, ascii "01234567", Err.nil) ∧
    (NewBuffer fixtureSource).Len = (16, Err.nil) ∧
    ((NewBuffer fixtureSource).readAt 4 (ascii "01234567")).2 =
      (8, ascii "456789ab", Err.nil) ∧
    (((NewBuffer fixtureSource).Seek (-4) Whence.SeekEnd).1.Read (ascii "456789ab")).2 =
      (4, ascii "cdef89ab", Err.nil) := by
  decide

/-- `TestBufferInsert`: the eight rows, the edited indices and `len(b.rrs)`. -/
theorem fixture_insert :
    (insertFixture 1).probe 0 = (8, ascii "90123456", 17) ∧
    (insertFixture 2).probe 0 = (8, ascii "89012345", 18) ∧
    (insertFixture 3).probe 0 = (8, ascii "89017234", 19) ∧
    (insertFixture 4).probe 3 = (8, ascii "17234056", 20) ∧
    (insertFixture 5).probe 3 = (8, ascii "17234015", 21) ∧
    (insertFixture 6).probe 4 = (8, ascii "72340215", 22) ∧
    (insertFixture 7).probe 19 = (4, ascii "def9\x00\x00\x00\x00", 23) ∧
    (insertFixture 8).probe 19 = (5, ascii "def89\x00\x00\x00", 24) ∧
    (insertFixture 8).EditedIndices = [0, 2, 4, 5, 8, 11, 23, 25] ∧
    (insertFixture 8).rrs.length + 1 = 8 := by
  decide

/-- `TestBufferReplace`: the nine rows, the edited indices and `len(b.rrs)`. -/
theorem fixture_replace :
    (replaceFixture 1).probe 0 = (8, ascii "91234567", 16) ∧
    (replaceFixture 2).probe 0 = (8, ascii "81234567", 16) ∧
    (replaceFixture 3).probe 0 = (8, ascii "87234567", 16) ∧
    (replaceFixture 4).probe 0 = (8, ascii "87234067", 16) ∧
    (replaceFixture 5).probe 0 = (8, ascii "87231067", 16) ∧
    (replaceFixture 6).probe 0 = (8, ascii "87201067", 16) ∧
    (replaceFixture 7).probe 0 = (8, ascii "87101067", 16) ∧
    (replaceFixture 8).probe 9 = (8, ascii "9abcdef1", 16) ∧
    (replaceFixture 9).probe 9 = (8, ascii "9abcde01", 16) ∧
    (replaceFixture 9).EditedIndices = [0, 6, 15, 17] ∧
    (replaceFixture 9).rrs.length + 1 = 4 := by
  decide

/-- `TestBufferDelete`: the thirteen rows, the edited indices and `len(b.rrs)`. -/
theorem fixture_delete :
    (deleteFixture 1).probe 0 = (8, ascii "01235678", 15) ∧
    (deleteFixture 2).probe 0 = (8, ascii "01256789", 14) ∧
    (deleteFixture 3).probe 0 = (8, ascii "0125679a", 13) ∧
    (deleteFixture 4).probe 0 = (8, ascii "125679ab", 12) ∧
    (deleteFixture 5).probe 0 = (8, ascii "1256979a", 13) ∧
    (deleteFixture 6).probe 0 = (8, ascii "12569879", 14) ∧
    (deleteFixture 7).probe 0 = (8, ascii "1259879a", 13) ∧
    (deleteFixture 8).probe 0 = (8, ascii "125979ab", 12) ∧
    (deleteFixture 9).probe 0 = (8, ascii "12579abc", 11) ∧
    (deleteFixture 10).probe 4 = (8, ascii "9abc9def", 12) ∧
    (deleteFixture 11).probe 4 = (8, ascii "9abc89de", 13) ∧
    (deleteFixture 12).probe 4 = (8, ascii "9abc9def", 12) ∧
    (deleteFixture 13).probe 4 = (7, ascii "9abcdef\x00", 11) ∧
    (deleteFixture 13).EditedIndices = [] ∧
    (deleteFixture 13).rrs.length + 1 = 4 := by
  refine ⟨?_, ?_, ?_, ?_, ?_, ?_, ?_, ?_, ?_, ?_, ?_, ?_, ?_, ?_, ?_⟩ <;> decide

/-! ## Reading one byte, and two states of the fixtures -/

/-- A position that holds a byte gives that byte to a read of one byte. -/
theorem readRuns_one (source : List Nat) (rs : List Run) (t idx v : Nat)
    (h : cellAt source rs t idx = some v) : readRuns source rs t idx 1 = [v] := by
  induction rs generalizing idx with
  | nil =>
    simp only [cellAt] at h
    simp only [readRuns]
    obtain ⟨hlt, hv⟩ := List.getElem?_eq_some_iff.1 h
    rw [List.drop_eq_getElem_cons hlt, hv]
    simp
  | cons r rs ih =>
    simp only [cellAt] at h
    simp only [readRuns]
    split_ifs with h1 h2
    · rw [if_neg (by omega)] at h
      exact ih _ h
    · rw [if_pos (by omega)] at h
      obtain ⟨hlt, hv⟩ := List.getElem?_eq_some_iff.1 h
      rw [List.drop_eq_getElem_cons hlt, hv, Nat.min_eq_left (by omega)]
      simp
    · rw [if_pos (by omega)] at h
      obtain ⟨hlt, hv⟩ := List.getElem?_eq_some_iff.1 h
      rw [List.drop_eq_getElem_cons hlt, hv, Nat.min_eq_left (by omega)]
      simp [readRuns_zero]

theorem readAt_one (b : Buffer) (j v x : Nat) (h : b.byteAt j = some v) :
    (b.readAt (j : Int) [x]).2 = (1, [v], Err.nil) := by
  have h1 := readRuns_one b.source b.rrs b.tail j v h
  have h2 : ¬ (j : Int) < 0 := by omega
  simp only [Buffer.readAt, Buffer.Seek, if_neg h2, Buffer.Read, Int.toNat_ofNat,
    List.length_singleton]
  simp [h1]

theorem insertFixture_six_content :
    (insertFixture 6).HasContent (ascii "8901723402156789abcdef") := by
  have h0 := NewBuffer_HasContent fixtureSource
  have h1 := HasContent_Insert _ _ 0 0x39 h0 (by decide)
  have h2 := HasContent_Insert _ _ 0 0x38 h1 (by decide)
  have h3 := HasContent_Insert _ _ 4 0x37 h2 (by decide)
  have h4 := HasContent_Insert _ _ 8 0x30 h3 (by decide)
  have h5 := HasContent_Insert _ _ 9 0x31 h4 (by decide)
  have h6 := HasContent_Insert _ _ 9 0x32 h5 (by decide)
  exact h6

theorem replaceFixture_seven_content :
    (replaceFixture 7).HasContent (ascii "8710106789abcdef") := by
  have h0 := NewBuffer_HasContent fixtureSource
  have h1 := HasContent_Replace _ _ 0 0x39 h0 (by decide)
  have h2 := HasContent_Replace _ _ 0 0x38 h1 (by decide)
  have h3 := HasContent_Replace _ _ 1 0x37 h2 (by decide)
  have h4 := HasContent_Replace _ _ 5 0x30 h3 (by decide)
  have h5 := HasContent_Replace _ _ 4 0x31 h4 (by decide)
  have h6 := HasContent_Replace _ _ 3 0x30 h5 (by decide)
  have h7 := HasContent_Replace _ _ 2 0x31 h6 (by decide)
  exact h7

/-! ## The offset after `scrollUp` and `scrollDown` -/

/-- C10 (the code at the failing input): ten rows of sixteen bytes over a buffer of one
byte, offset and cursor 0.  The bounds of the claim hold before, `[0, 0]`; `scrollDown(1)`
leaves the offset at -144. -/
theorem scrollDown_short_content_negative_offset :
    (0 < (geometry 10 16 0 0 1).width ∧ 0 < (geometry 10 16 0 0 1).height ∧
      0 ≤ (geometry 10 16 0 0 1).length ∧
      (geometry 10 16 0 0 1).offset.tmod (geometry 10 16 0 0 1).width = 0 ∧
      0 ≤ (geometry 10 16 0 0 1).offset ∧
      (geometry 10 16 0 0 1).offset ≤
        MaxInt64 ((MaxInt64 (geometry 10 16 0 0 1).length 1 + (geometry 10 16 0 0 1).width - 1).tdiv
          (geometry 10 16 0 0 1).width - (geometry 10 16 0 0 1).height) 0 *
            (geometry 10 16 0 0 1).width) ∧
    ((geometry 10 16 0 0 1).scrollDown 1).offset = -144 ∧
    ¬ (0 ≤ ((geometry 10 16 0 0 1).scrollDown 1).offset) ∧
    ((geometry 10 16 0 0 1).pageDown).offset = 0 ∧
    ((geometry 10 16 0 0 1).pageEnd).offset = 0 := by
  decide

/-- In exact arithmetic, the part of C10 that holds: `scrollUp` always, and `scrollDown`
when the content has at least as many rows as the viewport. -/
theorem scroll_offset_bounds_exact (w : Window β) (c : Int) (hw : 0 < w.width)
    (ha : w.offset.tmod w.width = 0) (ho : 0 ≤ w.offset)
    (hb : w.offset ≤ MaxInt64 ((MaxInt64 w.length 1 + w.width - 1).tdiv w.width - w.height) 0 *
      w.width) :
    (0 ≤ (w.scrollUpZ c).offset ∧
      (w.scrollUpZ c).offset ≤
        MaxInt64 ((MaxInt64 w.length 1 + w.width - 1).tdiv w.width - w.height) 0 * w.width) ∧
    (w.height ≤ (MaxInt64 w.length 1 + w.width - 1).tdiv w.width →
      0 ≤ (w.scrollDownZ c).offset ∧
      (w.scrollDownZ c).offset ≤
        MaxInt64 ((MaxInt64 w.length 1 + w.width - 1).tdiv w.width - w.height) 0 * w.width) := by
  obtain ⟨q0, q1, q2, -, -, -⟩ := tdiv_facts w.offset w.width ho hw
  have e := Int.tdiv_add_tmod' w.offset w.width
  rw [ha] at e
  constructor
  · have hm0 : 0 ≤ MinInt64 (MaxInt64 c 1) (w.offset.tdiv w.width) := by
      rw [MinInt64_eq, MaxInt64_eq]; omega
    have hm1 : MinInt64 (MaxInt64 c 1) (w.offset.tdiv w.width) ≤ w.offset.tdiv w.width := by
      rw [MinInt64_eq, MaxInt64_eq]; omega
    have p0 := mul_nonneg hm0 hw.le
    have p1 := mul_mono_right hw hm1
    unfold Window.scrollUpZ
    dsimp only
    split_ifs <;> dsimp only <;> constructor <;> omega
  · intro hrows
    generalize hR : (MaxInt64 w.length 1 + w.width - 1).tdiv w.width = R at *
    have eR : MaxInt64 (R - w.height) 0 = R - w.height := by rw [MaxInt64_eq]; omega
    rw [eR] at hb ⊢
    have e3 : (R - w.height + 1) * w.width = (R - w.height) * w.width + w.width := by ring
    have hk : w.offset.tdiv w.width ≤ R - w.height := by
      have : w.offset.tdiv w.width < R - w.height + 1 := lt_of_mul_lt hw (by omega)
      omega
    have hm0 : 0 ≤ MinInt64 (MaxInt64 c 1) (R - w.height - w.offset.tdiv w.width) := by
      rw [MinInt64_eq, MaxInt64_eq]; omega
    have hm1 : w.offset.tdiv w.width +
        MinInt64 (MaxInt64 c 1) (R - w.height - w.offset.tdiv w.width) ≤ R - w.height := by
      rw [MinInt64_eq, MaxInt64_eq]; omega
    have p0 := mul_nonneg hm0 hw.le
    have p1 := mul_mono_right hw hm1
    rw [add_mul] at p1
    unfold Window.scrollDownZ
    dsimp only
    rw [hR]
    split_ifs <;> dsimp only <;> constructor <;> omega

/-! ## The edited indices -/

theorem NormalRuns_cons (r : Run) (rs : List Run) (h : NormalRuns (r :: rs)) :
    0 < r.size ∧ NormalRuns rs := by
  cases rs with
  | nil => exact ⟨h, trivial⟩
  | cons r2 rs => exact ⟨h.1, h.2.2⟩

theorem NormalRuns_pushRun (r : Run) (rs : List Run) (t : Nat) (h : NormalRuns rs) :
    NormalRuns (pushRun r (rs, t)).1 := by
  cases r with
  | overlay a =>
    cases a with
    | nil => simpa [pushRun] using h
    | cons x a =>
      cases rs with
      | nil => simp [pushRun, NormalRuns, Run.size]
      | cons r2 rs2 =>
        cases r2 with
        | overlay b =>
          simp only [pushRun]
          cases rs2 with
          | nil => simp [NormalRuns, Run.size]
          | cons r3 rs3 =>
            obtain ⟨h1, h2, h3⟩ := h
            refine ⟨by simp [Run.size], ?_, h3⟩
            simpa [Run.isOverlay] using h2
        | original q m =>
          simp only [pushRun]
          exact ⟨by simp [Run.size], by simp [Run.isOverlay], h⟩
  | original p l =>
    cases l with
    | zero => simpa [pushRun] using h
    | succ l =>
      cases rs with
      | nil =>
        simp only [pushRun]
        split_ifs
        · trivial
        · simp [NormalRuns, Run.size]
      | cons r2 rs2 =>
        cases r2 with
        | overlay b =>
          simp only [pushRun]
          exact ⟨by simp [Run.size], by simp [Run.isOverlay], h⟩
        | original q m =>
          simp only [pushRun]
          split_ifs
          · cases rs2 with
            | nil => simp [NormalRuns, Run.size]
            | cons r3 rs3 =>
              obtain ⟨h1, h2, h3⟩ := h
              exact ⟨by simp [Run.size], by simp [Run.isOverlay], h3⟩
          · exact ⟨by simp [Run.size], by simp [Run.isOverlay], h⟩

theorem NormalRuns_normalize (rs : List Run) (t : Nat) : NormalRuns (normalize rs t).1 := by
  induction rs with
  | nil => trivial
  | cons r rs ih =>
    have h : normalize (r :: rs) t = pushRun r ((normalize rs t).1, (normalize rs t).2) := rfl
    rw [h]
    exact NormalRuns_pushRun r _ _ ih

theorem NormalRuns_edit (b : Buffer) (e : Edit) (h : NormalRuns b.rrs) :
    NormalRuns (b.edit e).rrs := by
  cases e with
  | Insert i c => exact NormalRuns_normalize _ _
  | Replace i c => exact NormalRuns_normalize _ _
  | Delete i =>
    simp only [Buffer.edit, Buffer.Delete]
    split_ifs
    · exact NormalRuns_normalize _ _
    · exact h

theorem NormalRuns_edits (b : Buffer) (es : List Edit) (h : NormalRuns b.rrs) :
    NormalRuns (b.edits es).rrs := by
  induction es generalizing b with
  | nil => exact h
  | cons e es ih => exact ih _ (NormalRuns_edit b e h)

theorem covered_append_pair (eis : List Int) (a b i : Int) (n : Nat)
    (h : eis.length = 2 * n) :
    covered (eis ++ [a, b]) i ↔ covered eis i ∨ (a ≤ i ∧ i < b) := by
  induction n generalizing eis with
  | zero =>
    have : eis = [] := List.eq_nil_of_length_eq_zero (by omega)
    subst this
    simp [covered]
  | succ n ih =>
    match eis, h with
    | x :: y :: rest, h =>
      have hr : rest.length = 2 * n := by simp at h; omega
      have h1 : covered (x :: y :: rest ++ [a, b]) i ↔
          (x ≤ i ∧ i < y) ∨ covered (rest ++ [a, b]) i := Iff.rfl
      have h2 : covered (x :: y :: rest) i ↔ (x ≤ i ∧ i < y) ∨ covered rest i := Iff.rfl
      rw [h1, h2, ih rest hr]
      tauto

theorem editedRuns_spec (rs : List Run) (lo : Nat) (eis : List Int) (hn : NormalRuns rs)
    (he : eis.length % 2 = 0) (hp : eis.Pairwise (· < ·))
    (hle : ∀ e ∈ eis, 0 ≤ e ∧ e ≤ (lo : Int))
    (hlt : ∀ r rs2, rs = r :: rs2 → r.isOverlay = true → ∀ e ∈ eis, e < (lo : Int)) :
    (editedRuns rs lo eis).length % 2 = 0 ∧
      (editedRuns rs lo eis).Pairwise (· < ·) ∧
      (∀ e ∈ editedRuns rs lo eis, 0 ≤ e ∧ e ≤ ((lo + runsSize rs : Nat) : Int)) ∧
      ∀ i : Nat, covered (editedRuns rs lo eis) i ↔
        covered eis i ∨ (lo ≤ i ∧ overlayAt rs (i - lo) = true) := by
  induction rs generalizing lo eis with
  | nil =>
    refine ⟨he, hp, ?_, ?_⟩
    · intro e hmem
      simpa [editedRuns, runsSize] using hle e hmem
    · intro i
      simp [editedRuns, overlayAt]
  | cons r rs ih =>
    obtain ⟨hpos, hn2⟩ := NormalRuns_cons r rs hn
    cases r with
    | original p len =>
      simp only [Run.size] at hpos
      have hle2 : ∀ e ∈ eis, 0 ≤ e ∧ e ≤ ((lo + len : Nat) : Int) := by
        intro e hmem
        have := hle e hmem
        push_cast
        omega
      have hlt2 : ∀ r2 rs2, rs = r2 :: rs2 → r2.isOverlay = true →
          ∀ e ∈ eis, e < ((lo + len : Nat) : Int) := by
        intro _ _ _ _ e hmem
        have := hle e hmem
        push_cast
        omega
      obtain ⟨a1, a2, a3, a4⟩ := ih (lo + len) eis hn2 he hp hle2 hlt2
      simp only [editedRuns]
      refine ⟨a1, a2, ?_, ?_⟩
      · intro e hmem
        have := a3 e hmem
        simp only [runsSize, Run.size]
        push_cast at this ⊢
        omega
      · intro i
        rw [a4 i]
        simp only [overlayAt, Run.size, Run.isOverlay]
        by_cases h1 : i - lo < len
        · simp [h1]
          intro h2
          omega
        · simp only [h1, if_false]
          constructor
          · rintro (h | ⟨h2, h3⟩)
            · exact Or.inl h
            · exact Or.inr ⟨by omega, by rw [← h3]; congr 1; omega⟩
          · rintro (h | ⟨h2, h3⟩)
            · exact Or.inl h
            · refine Or.inr ⟨by omega, by rw [← h3]; congr 1; omega⟩
    | overlay bytes =>
      simp only [Run.size] at hpos
      have hlo : ∀ e ∈ eis, e < (lo : Int) := hlt _ _ rfl rfl
      have hlast : eis.getLast? ≠ some (lo : Int) := by
        intro hcon
        have := hlo _ (List.mem_of_getLast?_eq_some hcon)
        omega
      have he2 : (eis ++ [(lo : Int), ((lo + bytes.length : Nat) : Int)]).length % 2 = 0 := by
        simp
        omega
      have hp2 : (eis ++ [(lo : Int), ((lo + bytes.length : Nat) : Int)]).Pairwise (· < ·) := by
        rw [List.pairwise_append]
        refine ⟨hp, by simp; omega, ?_⟩
        intro x hx y hy
        have := hlo x hx
        simp at hy
        rcases hy with rfl | rfl
        · exact this
        · omega
      have hle2 : ∀ e ∈ eis ++ [(lo : Int), ((lo + bytes.length : Nat) : Int)],
          0 ≤ e ∧ e ≤ ((lo + bytes.length : Nat) : Int) := by
        intro e hmem
        rcases List.mem_append.1 hmem with h | h
        · have := hle e h
          push_cast
          omega
        · simp at h
          rcases h with rfl | rfl
          · push_cast; omega
          · push_cast; omega
      have hlt2 : ∀ r2 rs2, rs = r2 :: rs2 → r2.isOverlay = true →
          ∀ e ∈ eis ++ [(lo : Int), ((lo + bytes.length : Nat) : Int)],
            e < ((lo + bytes.length : Nat) : Int) := by
        intro r2 rs2 hrs hov
        subst hrs
        exact absurd ⟨rfl, hov⟩ hn.2.1
      obtain ⟨a1, a2, a3, a4⟩ := ih (lo + bytes.length) _ hn2 he2 hp2 hle2 hlt2
      simp only [editedRuns, if_neg hlast]
      refine ⟨a1, a2, ?_, ?_⟩
      · intro e hmem
        have := a3 e hmem
        simp only [runsSize, Run.size]
        push_cast at this ⊢
        omega
      · intro i
        obtain ⟨n, hn3⟩ : ∃ n, eis.length = 2 * n := ⟨eis.length / 2, by omega⟩
        rw [a4 i, covered_append_pair eis _ _ _ n hn3]
        simp only [overlayAt, Run.size, Run.isOverlay]
        by_cases h1 : i - lo < bytes.length
        · simp only [h1, if_true]
          constructor
          · rintro ((h | ⟨h2, h3⟩) | ⟨h2, h3⟩)
            · exact Or.inl h
            · exact Or.inr ⟨by omega, trivial⟩
            · exact Or.inr ⟨by omega, trivial⟩
          · rintro (h | ⟨h2, -⟩)
            · exact Or.inl (Or.inl h)
            · refine Or.inl (Or.inr ⟨by omega, by push_cast; omega⟩)
        · simp only [h1, if_false]
          constructor
          · rintro ((h | ⟨h2, h3⟩) | ⟨h2, h3⟩)
            · exact Or.inl h
            · push_cast at h3
              by_cases h4 : lo ≤ i
              · omega
              · omega
            · exact Or.inr ⟨by omega, by rw [← h3]; congr 1; omega⟩
          · rintro (h | ⟨h2, h3⟩)
            · exact Or.inl (Or.inl h)
            · refine Or.inr ⟨by omega, by rw [← h3]; congr 1; omega⟩

theorem splitRuns_tail (rs : List Run) (t i : Nat) :
    (splitRuns rs t i).2.2 = t + (i - runsSize rs) ∧
      ((splitRuns rs t i).2.1 = [] → runsSize rs ≤ i) := by
  induction rs generalizing i with
  | nil => simp [splitRuns, runsSize]
  | cons r rs ih =>
    simp only [splitRuns, runsSize]
    split_ifs with h
    · refine ⟨by dsimp only; omega, fun hcon => by simp at hcon⟩
    · obtain ⟨h1, h2⟩ := ih (i - r.size)
      refine ⟨by dsimp only; omega, fun hcon => ?_⟩
      have := h2 hcon
      omega

theorem pushRun_tail_le (r : Run) (rs : List Run) (t : Nat) : (pushRun r (rs, t)).2 ≤ t := by
  rcases pushRun_cases r rs t with ⟨h0, e⟩ | ⟨a, b, rs2, rfl, rfl, e⟩ |
      ⟨p, l, m, rs2, rfl, rfl, e⟩ | ⟨p, l, rfl, rfl, rfl, e⟩ | ⟨-, e⟩ <;> (rw [e]; try simp)

theorem normalize_tail_le (rs : List Run) (t : Nat) : (normalize rs t).2 ≤ t := by
  induction rs with
  | nil => exact le_refl t
  | cons r rs ih =>
    have h : normalize (r :: rs) t = pushRun r ((normalize rs t).1, (normalize rs t).2) := rfl
    rw [h]
    exact le_trans (pushRun_tail_le _ _ _) ih

theorem behead_tail (rs : List Run) (t : Nat) :
    (rs = [] → (behead rs t).2 = t + 1) ∧ (rs ≠ [] → (behead rs t).2 = t) := by
  cases rs <;> simp [behead]

theorem edit_source (b : Buffer) (e : Edit) : (b.edit e).source = b.source := by
  cases e with
  | Insert i c => rfl
  | Replace i c => rfl
  | Delete i =>
    simp only [Buffer.edit, Buffer.Delete]
    split_ifs <;> rfl

/-- The source position of the last run-range stays inside the source under calls that
address no position past the end. -/
theorem tail_le_Insert (b : Buffer) (i c : Nat) (ht : b.tail ≤ b.source.length)
    (hi : (i : Int) ≤ b.Len.1) : (b.Insert i c).tail ≤ b.source.length := by
  have h1 := normalize_tail_le ((splitRuns b.rrs b.tail i).1 ++
    Run.overlay [c] :: (splitRuns b.rrs b.tail i).2.1) (splitRuns b.rrs b.tail i).2.2
  obtain ⟨h2, -⟩ := splitRuns_tail b.rrs b.tail i
  simp only [Buffer.Len] at hi
  simp only [Buffer.Insert]
  omega

theorem tail_le_behead (b : Buffer) (i : Nat) (ht : b.tail ≤ b.source.length)
    (hi : (i : Int) < b.Len.1) :
    (behead (splitRuns b.rrs b.tail i).2.1 (splitRuns b.rrs b.tail i).2.2).2 ≤
      b.source.length := by
  obtain ⟨h2, h3⟩ := splitRuns_tail b.rrs b.tail i
  obtain ⟨h4, h5⟩ := behead_tail (splitRuns b.rrs b.tail i).2.1 (splitRuns b.rrs b.tail i).2.2
  simp only [Buffer.Len] at hi
  by_cases hnil : (splitRuns b.rrs b.tail i).2.1 = []
  · have := h3 hnil
    rw [h4 hnil]
    omega
  · rw [h5 hnil]
    by_cases hle : runsSize b.rrs ≤ i
    · omega
    · omega

theorem tail_le_Replace (b : Buffer) (i c : Nat) (ht : b.tail ≤ b.source.length)
    (hi : (i : Int) < b.Len.1) : (b.Replace i c).tail ≤ b.source.length := by
  have h0 := tail_le_behead b i ht hi
  have h1 := normalize_tail_le ((splitRuns b.rrs b.tail i).1 ++ Run.overlay [c] ::
    (behead (splitRuns b.rrs b.tail i).2.1 (splitRuns b.rrs b.tail i).2.2).1)
    (behead (splitRuns b.rrs b.tail i).2.1 (splitRuns b.rrs b.tail i).2.2).2
  simp only [Buffer.Replace]
  omega

theorem tail_le_Delete (b : Buffer) (i : Nat) (ht : b.tail ≤ b.source.length) :
    (b.Delete i).tail ≤ b.source.length := by
  simp only [Buffer.Delete]
  split_ifs with hi
  · have h0 := tail_le_behead b i ht hi
    have h1 := normalize_tail_le ((splitRuns b.rrs b.tail i).1 ++
      (behead (splitRuns b.rrs b.tail i).2.1 (splitRuns b.rrs b.tail i).2.2).1)
      (behead (splitRuns b.rrs b.tail i).2.1 (splitRuns b.rrs b.tail i).2.2).2
    dsimp only
    omega
  · exact ht

theorem tail_le_edits (b : Buffer) (es : List Edit) (ht : b.tail ≤ b.source.length)
    (hw : b.editsWithin es) : (b.edits es).tail ≤ (b.edits es).source.length := by
  induction es generalizing b with
  | nil => exact ht
  | cons e es ih =>
    cases e with
    | Insert i c =>
      exact ih (b.Insert i c) (tail_le_Insert b i c ht hw.1) hw.2
    | Replace i c =>
      exact ih (b.Replace i c) (tail_le_Replace b i c ht hw.1) hw.2
    | Delete i =>
      have hs : (b.Delete i).source = b.source := edit_source b (Edit.Delete i)
      exact ih (b.Delete i) (by rw [hs]; exact tail_le_Delete b i ht) hw

/-- C9 (as stated, refuted): `TestBufferInsert`.  After the eight calls of `Insert` the
edited indices are `[0, 2, 4, 5, 8, 11, 23, 25]` and `Len()` is 24: the last pair,
`[23, 25)`, does not lie inside `[0, Len())`. -/
theorem EditedIndices_beyond_Len :
    (NewBuffer fixtureSource).edits
        [Edit.Insert 0 0x39, Edit.Insert 0 0x38, Edit.Insert 4 0x37, Edit.Insert 8 0x30,
          Edit.Insert 9 0x31, Edit.Insert 9 0x32, Edit.Insert 23 0x39, Edit.Insert 23 0x38] =
        insertFixture 8 ∧
      (insertFixture 8).EditedIndices = [0, 2, 4, 5, 8, 11, 23, 25] ∧
      (insertFixture 8).Len = (24, Err.nil) ∧
      ¬ (∀ e ∈ (insertFixture 8).EditedIndices, 0 ≤ e ∧ e ≤ (insertFixture 8).Len.1) := by
  refine ⟨by decide, by decide, by decide, ?_⟩
  intro h
  have := h 25 (by decide)
  revert this
  decide

/-- For every buffer reached from a fresh buffer by a sequence of `Insert`, `Replace` and
`Delete` calls, `EditedIndices()` has even length and strictly increasing entries, its
pairs `[e0, e1), [e2, e3), ...` cover exactly the logical positions that lie in an
overlay run, and it is empty when no position does; every entry lies in `[0, Len()]`
when no call of the sequence addressed a position past the end of the buffer. -/
theorem EditedIndices_runs (r : List Nat) (es : List Edit) :
    ((NewBuffer r).edits es).EditedIndices.length % 2 = 0 ∧
      ((NewBuffer r).edits es).EditedIndices.Pairwise (· < ·) ∧
      (∀ i : Nat, covered ((NewBuffer r).edits es).EditedIndices i ↔
        overlayAt ((NewBuffer r).edits es).rrs i = true) ∧
      ((∀ i : Nat, overlayAt ((NewBuffer r).edits es).rrs i = false) →
        ((NewBuffer r).edits es).EditedIndices = []) ∧
      ((NewBuffer r).editsWithin es →
        ∀ e ∈ ((NewBuffer r).edits es).EditedIndices,
          0 ≤ e ∧ e ≤ ((NewBuffer r).edits es).Len.1) := by
  have hn : NormalRuns ((NewBuffer r).edits es).rrs := NormalRuns_edits _ es trivial
  obtain ⟨a1, a2, a3, a4⟩ := editedRuns_spec ((NewBuffer r).edits es).rrs 0 [] hn rfl
    List.Pairwise.nil (by simp) (by simp)
  have hcov : ∀ i : Nat, covered ((NewBuffer r).edits es).EditedIndices i ↔
      overlayAt ((NewBuffer r).edits es).rrs i = true := by
    intro i
    have := a4 i
    simpa [covered] using this
  refine ⟨a1, a2, hcov, ?_, ?_⟩
  · intro hnone
    match hl : ((NewBuffer r).edits es).EditedIndices, a1, a2 with
    | [], _, _ => rfl
    | [x], h1, _ => simp [Buffer.EditedIndices] at hl; rw [hl] at h1; simp at h1
    | x :: y :: rest, _, h2 =>
      exfalso
      have hxy : x < y := by
        simp only [Buffer.EditedIndices] at hl
        rw [hl] at h2
        exact (List.pairwise_cons.1 h2).1 y (by simp)
      have hx0 : 0 ≤ x := by
        have := a3 x (by simp only [Buffer.EditedIndices] at hl; rw [hl]; simp)
        exact this.1
      have hc := (hcov x.toNat).1 (by
        rw [hl]
        left
        rw [Int.toNat_of_nonneg hx0]
        exact ⟨le_refl x, hxy⟩)
      rw [hnone] at hc
      exact Bool.noConfusion hc
  · intro hw e hmem
    have ht := tail_le_edits (NewBuffer r) es (Nat.zero_le _) hw
    have := a3 e hmem
    simp only [Buffer.Len]
    push_cast at this
    omega

/-! ## The cursor and the length -/

/-- C3 (as stated, refuted): on a new window over an empty source, `startInsert` and the
two nibbles of one byte in insert mode leave cursor and length both 1 with the
extending flag clear (the append flag is set instead). -/
theorem insert_on_empty_cursor_at_length :
    NewWindow Buffer.ops (NewBuffer []) "empty" 3 8 = some emptyWindow ∧
    (emptyWindow.run Buffer.ops
      [Op.startInsert, Op.insert Mode.ModeInsert 4, Op.insert Mode.ModeInsert 1]).cursor = 1 ∧
    (emptyWindow.run Buffer.ops
      [Op.startInsert, Op.insert Mode.ModeInsert 4, Op.insert Mode.ModeInsert 1]).length = 1 ∧
    (emptyWindow.run Buffer.ops
      [Op.startInsert, Op.insert Mode.ModeInsert 4, Op.insert Mode.ModeInsert 1]).extending
        = false ∧
    (emptyWindow.run Buffer.ops
      [Op.startInsert, Op.insert Mode.ModeInsert 4, Op.insert Mode.ModeInsert 1]).append
        = true ∧
    (emptyWindow.run Buffer.ops
      [Op.startInsert, Op.insert Mode.ModeInsert 4, Op.insert Mode.ModeInsert 1]).buffer.probe 0
        = (1, [0x41, 0, 0, 0, 0, 0, 0, 0], 1) ∧
    ¬ (0 ≤ (emptyWindow.run Buffer.ops
          [Op.startInsert, Op.insert Mode.ModeInsert 4, Op.insert Mode.ModeInsert 1]).cursor ∧
        ((emptyWindow.run Buffer.ops
            [Op.startInsert, Op.insert Mode.ModeInsert 4, Op.insert Mode.ModeInsert 1]).cursor <
          (emptyWindow.run Buffer.ops
            [Op.startInsert, Op.insert Mode.ModeInsert 4, Op.insert Mode.ModeInsert 1]).length ∨
          ((emptyWindow.run Buffer.ops
              [Op.startInsert, Op.insert Mode.ModeInsert 4,
                Op.insert Mode.ModeInsert 1]).length = 0 ∧
            (emptyWindow.run Buffer.ops
              [Op.startInsert, Op.insert Mode.ModeInsert 4,
                Op.insert Mode.ModeInsert 1]).cursor = 0) ∨
          (emptyWindow.run Buffer.ops
            [Op.startInsert, Op.insert Mode.ModeInsert 4,
              Op.insert Mode.ModeInsert 1]).extending = true)) := by
  refine ⟨rfl, ?_, ?_, ?_, ?_, ?_, ?_⟩ <;> decide

theorem cursorUp_frame (w : Window β) (c : Int) :
    (w.cursorUpZ c).width = w.width ∧ (w.cursorUpZ c).height = w.height ∧
      (w.cursorUpZ c).length = w.length ∧ (w.cursorUpZ c).stack = w.stack := by
  unfold Window.cursorUpZ
  dsimp only
  split_ifs <;> exact ⟨rfl, rfl, rfl, rfl⟩
theorem rows_pos (length w : Int) (hw : 0 < w) :
    0 ≤ ((MaxInt64 length 1 + w - 1).tdiv w - 1) * w := by
  obtain ⟨f1, f2⟩ := rows_facts length w hw
  have hL : 1 ≤ MaxInt64 length 1 := by rw [MaxInt64_eq]; omega
  have : 0 < (MaxInt64 length 1 + w - 1).tdiv w := by
    have h0 : (0 : Int) * w < (MaxInt64 length 1 + w - 1).tdiv w * w := by omega
    exact lt_of_mul_lt hw h0
  exact mul_nonneg (by omega) hw.le

theorem cursorUp_cursor (w : Window β) (c : Int) (hw : 0 < w.width)
    (hc : CursorNonneg w) :
    CursorNonneg (w.cursorUpZ c) ∧ (w.cursorUpZ c).height = w.height := by
  obtain ⟨hc, hs⟩ := hc
  obtain ⟨q0, q1, q2, -, -, -⟩ := tdiv_facts w.cursor w.width hc hw
  have hm0 : 0 ≤ MinInt64 (MaxInt64 c 1) (w.cursor.tdiv w.width) := by
    rw [MinInt64_eq, MaxInt64_eq]; omega
  have hm1 : MinInt64 (MaxInt64 c 1) (w.cursor.tdiv w.width) ≤ w.cursor.tdiv w.width := by
    rw [MinInt64_eq, MaxInt64_eq]; omega
  have p1 := mul_mono_right hw hm1
  unfold Window.cursorUpZ CursorNonneg
  dsimp only
  split_ifs <;> exact ⟨⟨by dsimp only; omega, hs⟩, rfl⟩

theorem cursorDown_cursor (w : Window β) (c : Int) (hw : 0 < w.width)
    (hc : CursorNonneg w) :
    CursorNonneg (w.cursorDownZ c) ∧ (w.cursorDownZ c).height = w.height := by
  obtain ⟨hc, hs⟩ := hc
  have hL : 1 ≤ MaxInt64 w.length 1 := by rw [MaxInt64_eq]; omega
  obtain ⟨q0, q1, q2, -, -, -⟩ := tdiv_facts w.cursor w.width hc hw
  obtain ⟨a0, a1, a2, -, -, -⟩ := tdiv_facts (MaxInt64 w.length 1 - 1) w.width (by omega) hw
  have hX : 0 ≤ w.cursor + MinInt64 (MaxInt64 c 1)
      ((MaxInt64 w.length 1 - 1).tdiv w.width - w.cursor.tdiv w.width) * w.width := by
    by_cases h : 0 ≤ (MaxInt64 w.length 1 - 1).tdiv w.width - w.cursor.tdiv w.width
    · have : 0 ≤ MinInt64 (MaxInt64 c 1)
          ((MaxInt64 w.length 1 - 1).tdiv w.width - w.cursor.tdiv w.width) := by
        rw [MinInt64_eq, MaxInt64_eq]; omega
      have := mul_nonneg this hw.le
      omega
    · have e : MinInt64 (MaxInt64 c 1)
          ((MaxInt64 w.length 1 - 1).tdiv w.width - w.cursor.tdiv w.width) =
          (MaxInt64 w.length 1 - 1).tdiv w.width - w.cursor.tdiv w.width := by
        rw [MinInt64_eq, MaxInt64_eq]; omega
      rw [e, sub_mul]
      have := mul_nonneg a0 hw.le
      omega
  have hd : 0 ≤ w.cursor + MinInt64 (MinInt64 (MaxInt64 c 1)
      ((MaxInt64 w.length 1 - 1).tdiv w.width - w.cursor.tdiv w.width) * w.width)
      (MaxInt64 w.length 1 - 1 - w.cursor) := by
    rw [MinInt64_eq (_ * _)]; omega
  unfold Window.cursorDownZ CursorNonneg
  dsimp only
  split_ifs <;> exact ⟨⟨hd, hs⟩, rfl⟩

theorem cursorLeft_cursor (w : Window β) (c : Int) (hw : 0 < w.width)
    (hc : CursorNonneg w) :
    CursorNonneg (w.cursorLeftZ c) ∧ (w.cursorLeftZ c).height = w.height := by
  obtain ⟨hc, hs⟩ := hc
  obtain ⟨q0, q1, q2, r0, r1, e⟩ := tdiv_facts w.cursor w.width hc hw
  have p := mul_nonneg q0 hw.le
  unfold Window.cursorLeftZ CursorNonneg
  dsimp only
  rw [MinInt64_eq, MaxInt64_eq]
  exact ⟨⟨by omega, hs⟩, rfl⟩

theorem cursorRight_cursor (w : Window β) (c : Int) (hw : 0 < w.width)
    (hc : CursorNonneg w) :
    CursorNonneg (w.cursorRightZ c) ∧ (w.cursorRightZ c).height = w.height := by
  obtain ⟨hc, hs⟩ := hc
  obtain ⟨q0, q1, q2, r0, r1, e⟩ := tdiv_facts w.cursor w.width hc hw
  unfold Window.cursorRightZ CursorNonneg
  dsimp only
  rw [MinInt64_eq, MinInt64_eq, MaxInt64_eq, MaxInt64_eq]
  exact ⟨⟨by omega, hs⟩, rfl⟩

theorem cursorPrev_cursor (w : Window β) (c : Int) (hc : CursorNonneg w) :
    CursorNonneg (w.cursorPrevZ c) ∧ (w.cursorPrevZ c).height = w.height := by
  obtain ⟨hc, hs⟩ := hc
  have hd : 0 ≤ w.cursor - MinInt64 (MaxInt64 c 1) w.cursor := by
    rw [MinInt64_eq, MaxInt64_eq]; omega
  unfold Window.cursorPrevZ CursorNonneg
  dsimp only
  split_ifs <;> exact ⟨⟨hd, hs⟩, rfl⟩

theorem cursorNext_cursor (w : Window β) (c : Int) (hc : CursorNonneg w) :
    CursorNonneg (w.cursorNextZ c) ∧ (w.cursorNextZ c).height = w.height := by
  obtain ⟨hc, hs⟩ := hc
  have hd : 0 ≤ w.cursor + MinInt64 (MaxInt64 c 1) (MaxInt64 w.length 1 - 1 - w.cursor) := by
    rw [MinInt64_eq, MaxInt64_eq, MaxInt64_eq]; omega
  unfold Window.cursorNextZ CursorNonneg
  dsimp only
  split_ifs <;> exact ⟨⟨hd, hs⟩, rfl⟩

theorem cursorHead_cursor (w : Window β) (c : Int) (hw : 0 < w.width)
    (hc : CursorNonneg w) :
    CursorNonneg (w.cursorHeadZ c) ∧ (w.cursorHeadZ c).height = w.height := by
  obtain ⟨hc, hs⟩ := hc
  obtain ⟨q0, q1, q2, r0, r1, e⟩ := tdiv_facts w.cursor w.width hc hw
  have p := mul_nonneg q0 hw.le
  unfold Window.cursorHeadZ CursorNonneg
  dsimp only
  exact ⟨⟨by omega, hs⟩, rfl⟩

theorem cursorEnd_cursor (w : Window β) (c : Int) (hw : 0 < w.width)
    (hc : CursorNonneg w) :
    CursorNonneg (w.cursorEndZ c) ∧ (w.cursorEndZ c).height = w.height := by
  obtain ⟨hc, hs⟩ := hc
  obtain ⟨q0, q1, q2, r0, r1, e⟩ := tdiv_facts w.cursor w.width hc hw
  have p1 := mul_mono_right hw
    (show (1 : Int) ≤ w.cursor.tdiv w.width + MaxInt64 c 1 by rw [MaxInt64_eq]; omega)
  have hd : 0 ≤ MinInt64 ((w.cursor.tdiv w.width + MaxInt64 c 1) * w.width - 1)
      (MaxInt64 w.length 1 - 1) := by
    rw [MinInt64_eq, MaxInt64_eq w.length]; omega
  unfold Window.cursorEndZ CursorNonneg
  dsimp only
  split_ifs <;> exact ⟨⟨hd, hs⟩, rfl⟩

theorem scrollUp_cursor (w : Window β) (c : Int) (hw : 0 < w.width) (hh : 0 < w.height)
    (ha : w.width ∣ w.offset) (hc : CursorNonneg w) :
    CursorNonneg (w.scrollUpZ c) ∧ (w.scrollUpZ c).height = w.height := by
  obtain ⟨hc, hs⟩ := hc
  have e := Int.tdiv_add_tmod' w.offset w.width
  rw [Int.tmod_eq_zero_of_dvd ha] at e
  have p2 := mul_mono_right hw (show (1 : Int) ≤ w.height by omega)
  have ho : 0 ≤ w.offset - MinInt64 (MaxInt64 c 1) (w.offset.tdiv w.width) * w.width := by
    by_cases h : 1 ≤ w.offset.tdiv w.width
    · have hm1 : MinInt64 (MaxInt64 c 1) (w.offset.tdiv w.width) ≤ w.offset.tdiv w.width := by
        rw [MinInt64_eq, MaxInt64_eq]; omega
      have p1 := mul_mono_right hw hm1
      omega
    · have e2 : MinInt64 (MaxInt64 c 1) (w.offset.tdiv w.width) = w.offset.tdiv w.width := by
        rw [MinInt64_eq, MaxInt64_eq]; omega
      rw [e2]
      omega
  unfold Window.scrollUpZ CursorNonneg
  dsimp only
  split_ifs with hif
  · dsimp only
    obtain ⟨-, r1, r2, -, -, -⟩ := tdiv_facts
      (w.cursor - (w.offset - MinInt64 (MaxInt64 c 1) (w.offset.tdiv w.width) * w.width)
        - w.height * w.width) w.width (by omega) hw
    rw [add_mul] at r2 ⊢
    exact ⟨⟨by omega, hs⟩, rfl⟩
  · exact ⟨⟨hc, hs⟩, rfl⟩

theorem scrollDown_cursor (w : Window β) (c : Int) (hw : 0 < w.width)
    (hc : CursorNonneg w) :
    CursorNonneg (w.scrollDownZ c) ∧ (w.scrollDownZ c).height = w.height := by
  obtain ⟨hc, hs⟩ := hc
  unfold Window.scrollDownZ CursorNonneg
  dsimp only
  split_ifs with hif
  · dsimp only
    generalize w.offset + MinInt64 (MaxInt64 c 1)
      ((MaxInt64 w.length 1 + w.width - 1).tdiv w.width - w.height -
        w.offset.tdiv w.width) * w.width = o at *
    obtain ⟨r0, -, -, -, -, -⟩ := tdiv_facts (o - w.cursor + w.width - 1) w.width (by omega) hw
    have p := mul_nonneg r0 hw.le
    rw [MinInt64_eq, MaxInt64_eq]
    exact ⟨⟨by omega, hs⟩, rfl⟩
  · exact ⟨⟨hc, hs⟩, rfl⟩

theorem pageUp_cursor (w : Window β) (hw : 0 < w.width) (hh : 0 < w.height)
    (hc : CursorNonneg w) : CursorNonneg w.pageUpZ ∧ w.pageUpZ.height = w.height := by
  obtain ⟨hc, hs⟩ := hc
  have p := mul_nonneg (show 0 ≤ w.height - 1 by omega) hw.le
  have ho : 0 ≤ MaxInt64 (w.offset - (w.height - 2) * w.width) 0 := by
    rw [MaxInt64_eq]; omega
  unfold Window.pageUpZ CursorNonneg
  dsimp only
  split_ifs <;> exact ⟨⟨by dsimp only; omega, hs⟩, rfl⟩

theorem pageUpHalf_cursor (w : Window β) (hw : 0 < w.width) (hh : 0 < w.height)
    (hc : CursorNonneg w) : CursorNonneg w.pageUpHalfZ ∧ w.pageUpHalfZ.height = w.height := by
  obtain ⟨hc, hs⟩ := hc
  have p := mul_nonneg (show 0 ≤ w.height - 1 by omega) hw.le
  have ho : 0 ≤ MaxInt64 (w.offset - MaxInt64 (w.height.tdiv 2) 1 * w.width) 0 := by
    rw [MaxInt64_eq]; omega
  unfold Window.pageUpHalfZ CursorNonneg
  dsimp only
  split_ifs <;> exact ⟨⟨by dsimp only; omega, hs⟩, rfl⟩

theorem pageDown_cursor (w : Window β) (hw : 0 < w.width)
    (hc : CursorNonneg w) : CursorNonneg w.pageDownZ ∧ w.pageDownZ.height = w.height := by
  obtain ⟨hc, hs⟩ := hc
  have p := rows_pos w.length w.width hw
  unfold Window.pageDownZ CursorNonneg
  dsimp only
  split_ifs <;> exact ⟨⟨by dsimp only; omega, hs⟩, rfl⟩

theorem pageDownHalf_cursor (w : Window β) (hw : 0 < w.width)
    (hc : CursorNonneg w) :
    CursorNonneg w.pageDownHalfZ ∧ w.pageDownHalfZ.height = w.height := by
  obtain ⟨hc, hs⟩ := hc
  have p := rows_pos w.length w.width hw
  unfold Window.pageDownHalfZ CursorNonneg
  dsimp only
  split_ifs <;> exact ⟨⟨by dsimp only; omega, hs⟩, rfl⟩

theorem pageTop_cursor (w : Window β) (hc : CursorNonneg w) :
    CursorNonneg w.pageTop ∧ w.pageTop.height = w.height :=
  ⟨⟨le_refl 0, hc.2⟩, rfl⟩

theorem pageEnd_cursor (w : Window β) (hw : 0 < w.width) (hc : CursorNonneg w) :
    CursorNonneg w.pageEndZ ∧ w.pageEndZ.height = w.height :=
  ⟨⟨rows_pos w.length w.width hw, hc.2⟩, rfl⟩

theorem jumpTo_cursor (B : BufferOps β) (w : Window β) (hc : CursorNonneg w) :
    CursorNonneg (w.jumpToZ B) ∧ (w.jumpToZ B).height = w.height := by
  obtain ⟨hc, hs⟩ := hc
  unfold Window.jumpToZ CursorNonneg
  dsimp only
  split
  · split_ifs with h1 h2 h3
    · exact ⟨⟨hc, hs⟩, rfl⟩
    · exact ⟨⟨hc, hs⟩, rfl⟩
    · exact ⟨⟨hc, hs⟩, rfl⟩
    · refine ⟨⟨by dsimp only; omega, ?_⟩, rfl⟩
      intro p hp
      rcases List.mem_append.1 hp with hp | hp
      · exact hs p hp
      · rw [List.mem_singleton] at hp
        subst hp
        exact hc
  · exact ⟨⟨hc, hs⟩, rfl⟩

theorem jumpBack_cursor (w : Window β) (hc : CursorNonneg w) :
    CursorNonneg w.jumpBack ∧ w.jumpBack.height = w.height := by
  obtain ⟨hc, hs⟩ := hc
  unfold Window.jumpBack CursorNonneg
  split
  · exact ⟨⟨hc, hs⟩, rfl⟩
  · next p hp =>
    exact ⟨⟨hs p (List.mem_of_getLast?_eq_some hp),
      fun q hq => hs q (List.mem_of_mem_dropLast hq)⟩, rfl⟩

theorem deleteByte_loop_cursor (B : BufferOps β) (n : Nat) (w : Window β)
    (hc : 0 ≤ w.cursor) : 0 ≤ (Window.deleteByte.loop B n w).cursor := by
  induction n generalizing w with
  | zero => exact hc
  | succ n ih =>
    simp only [Window.deleteByte.loop]
    split_ifs with h
    · exact ih _ (by dsimp only at h ⊢; omega)
    · exact ih _ hc

theorem deleteByte_cursor (B : BufferOps β) (w : Window β) (c : Int)
    (hc : CursorNonneg w) :
    CursorNonneg (w.deleteByte B c) ∧ (w.deleteByte B c).height = w.height := by
  obtain ⟨hc, hs⟩ := hc
  unfold Window.deleteByte CursorNonneg
  split_ifs
  · exact ⟨⟨hc, hs⟩, rfl⟩
  · obtain ⟨-, -, e3, e4⟩ := deleteByte_loop_frame B
      (MinInt64 (MinInt64 (MaxInt64 c 1) (w.width - w.cursor.tmod w.width))
        (w.length - w.cursor)).toNat w
    dsimp only
    rw [e4]
    exact ⟨⟨deleteByte_loop_cursor B _ w hc, hs⟩, e3⟩

theorem deletePrevByte_loop_values (B : BufferOps β) (n : Nat) (w : Window β) :
    (Window.deletePrevByte.loop B n w).cursor = w.cursor - n ∧
      (Window.deletePrevByte.loop B n w).length = w.length - n := by
  induction n generalizing w with
  | zero => simp [Window.deletePrevByte.loop]
  | succ n ih =>
    simp only [Window.deletePrevByte.loop]
    obtain ⟨h1, h2⟩ := ih
      { w with buffer := B.Delete w.buffer (w.cursor - 1),
               cursor := w.cursor - 1, length := w.length - 1 }
    rw [h1, h2]
    push_cast
    constructor <;> ring

theorem deletePrevByte_count (w : Window β) (c : Int) (hw : 0 < w.width)
    (hc : 0 ≤ w.cursor) :
    ((MinInt64 (MaxInt64 c 1) (w.cursor.tmod w.width)).toNat : Int) ≤ w.cursor := by
  obtain ⟨q0, q1, q2, r0, r1, e⟩ := tdiv_facts w.cursor w.width hc hw
  have p := mul_nonneg q0 hw.le
  rw [MinInt64_eq, MaxInt64_eq]
  omega

theorem deletePrevByte_cursor (B : BufferOps β) (w : Window β) (c : Int)
    (hw : 0 < w.width) (hc : CursorNonneg w) :
    CursorNonneg (w.deletePrevByte B c) ∧ (w.deletePrevByte B c).height = w.height := by
  obtain ⟨hc, hs⟩ := hc
  have hn := deletePrevByte_count w c hw hc
  unfold Window.deletePrevByte CursorNonneg
  obtain ⟨-, -, e3, e4⟩ := deletePrevByte_loop_frame B
    (MinInt64 (MaxInt64 c 1) (w.cursor.tmod w.width)).toNat w
  obtain ⟨v1, -⟩ := deletePrevByte_loop_values B
    (MinInt64 (MaxInt64 c 1) (w.cursor.tmod w.width)).toNat w
  dsimp only
  rw [e4, v1]
  exact ⟨⟨by omega, hs⟩, e3⟩

theorem increment_cursor (B : BufferOps β) (w : Window β) (c : Int)
    (hc : CursorNonneg w) :
    CursorNonneg (w.increment B c) ∧ (w.increment B c).height = w.height := by
  unfold Window.increment
  split
  · dsimp only
    split_ifs <;> exact ⟨hc, rfl⟩
  · exact ⟨hc, rfl⟩

theorem decrement_cursor (B : BufferOps β) (w : Window β) (c : Int)
    (hc : CursorNonneg w) :
    CursorNonneg (w.decrement B c) ∧ (w.decrement B c).height = w.height := by
  unfold Window.decrement
  split
  · dsimp only
    split_ifs <;> exact ⟨hc, rfl⟩
  · exact ⟨hc, rfl⟩

theorem startAppend_cursor (w : Window β) (hc : CursorNonneg w) :
    CursorNonneg w.startAppendZ ∧ w.startAppendZ.height = w.height := by
  obtain ⟨hc, hs⟩ := hc
  unfold Window.startAppendZ CursorNonneg
  dsimp only
  split_ifs <;> exact ⟨⟨by dsimp only; omega, hs⟩, rfl⟩

theorem exitInsert_cursor (w : Window β) (hc : CursorNonneg w) :
    CursorNonneg w.exitInsert ∧ w.exitInsert.height = w.height := by
  obtain ⟨hc, hs⟩ := hc
  unfold Window.exitInsert CursorNonneg
  dsimp only
  split_ifs <;> exact ⟨⟨by dsimp only at *; omega, hs⟩, rfl⟩

theorem insert_switch_cursor (B : BufferOps β) (w : Window β) (mode : Mode) (b : Nat)
    (hc : CursorNonneg w) :
    CursorNonneg (Window.insert.switch B w mode b) ∧
      (Window.insert.switch B w mode b).height = w.height := by
  unfold Window.insert.switch
  cases mode
  · exact ⟨hc, rfl⟩
  · exact ⟨⟨by dsimp only; have := hc.1; omega, hc.2⟩, rfl⟩
  · dsimp only
    split_ifs <;> first
      | exact exitInsert_cursor _ hc
      | exact ⟨⟨by dsimp only; have := hc.1; omega, hc.2⟩, rfl⟩

theorem insert_cursor (B : BufferOps β) (w : Window β) (mode : Mode) (b : Nat)
    (hc : CursorNonneg w) :
    CursorNonneg (w.insertZ B mode b) ∧ (w.insertZ B mode b).height = w.height := by
  unfold Window.insertZ
  split_ifs
  · obtain ⟨a, e⟩ := insert_switch_cursor B w mode b hc
    dsimp only
    split_ifs <;> exact ⟨a, e⟩
  · exact ⟨hc, rfl⟩

theorem backspace_cursor (B : BufferOps β) (w : Window β) (hc : CursorNonneg w) :
    CursorNonneg (w.backspace B) ∧ (w.backspace B).height = w.height := by
  obtain ⟨hc, hs⟩ := hc
  unfold Window.backspace CursorNonneg
  split_ifs <;> exact ⟨⟨by (try dsimp only); omega, hs⟩, rfl⟩

theorem apply_cursor (B : BufferOps β) (w : Window β) (op : Op) (hw : 0 < w.width)
    (hh : 0 < w.height) (ha : w.width ∣ w.offset) (hc : CursorNonneg w) :
    CursorNonneg (w.applyZ B op) ∧ (w.applyZ B op).height = w.height := by
  cases op with
  | cursorUp c => exact cursorUp_cursor w c hw hc
  | cursorDown c => exact cursorDown_cursor w c hw hc
  | cursorLeft c => exact cursorLeft_cursor w c hw hc
  | cursorRight c => exact cursorRight_cursor w c hw hc
  | cursorPrev c => exact cursorPrev_cursor w c hc
  | cursorNext c => exact cursorNext_cursor w c hc
  | cursorHead c => exact cursorHead_cursor w c hw hc
  | cursorEnd c => exact cursorEnd_cursor w c hw hc
  | scrollUp c => exact scrollUp_cursor w c hw hh ha hc
  | scrollDown c => exact scrollDown_cursor w c hw hc
  | pageUp => exact pageUp_cursor w hw hh hc
  | pageDown => exact pageDown_cursor w hw hc
  | pageUpHalf => exact pageUpHalf_cursor w hw hh hc
  | pageDownHalf => exact pageDownHalf_cursor w hw hc
  | pageTop => exact pageTop_cursor w hc
  | pageEnd => exact pageEnd_cursor w hw hc
  | jumpTo => exact jumpTo_cursor B w hc
  | jumpBack => exact jumpBack_cursor w hc
  | deleteByte c => exact deleteByte_cursor B w c hc
  | deletePrevByte c => exact deletePrevByte_cursor B w c hw hc
  | increment c => exact increment_cursor B w c hc
  | decrement c => exact decrement_cursor B w c hc
  | startInsert => exact ⟨hc, rfl⟩
  | startInsertHead => exact cursorHead_cursor w 0 hw hc
  | startAppend => exact startAppend_cursor w hc
  | startAppendEnd =>
    obtain ⟨a, e⟩ := cursorEnd_cursor w 0 hw hc
    obtain ⟨a2, e2⟩ := startAppend_cursor _ a
    exact ⟨a2, e2.trans e⟩
  | startReplaceByte => exact ⟨hc, rfl⟩
  | startReplace => exact ⟨hc, rfl⟩
  | exitInsert => exact exitInsert_cursor w hc
  | insert mode b => exact insert_cursor B w mode b hc
  | backspace => exact backspace_cursor B w hc

theorem run_cursor (B : BufferOps β) (ops : List Op) (w : Window β) (hw : 0 < w.width)
    (hh : 0 < w.height) (ha : OffsetAligned w) (hc : CursorNonneg w) :
    CursorNonneg (w.runZ B ops) := by
  induction ops generalizing w with
  | nil => exact hc
  | cons op ops ih =>
    obtain ⟨a1, a2⟩ := apply_aligned B w op ha
    obtain ⟨c1, c2⟩ := apply_cursor B w op hw hh ha.1 hc
    exact ih (w.applyZ B op) (by rw [a2]; exact hw) (by rw [c2]; exact hh) a1 c1

theorem cursorUp_bound (w : Window β) (c : Int) (hw : 0 < w.width) (hc : 0 ≤ w.cursor)
    (hb : CursorInLength w) : CursorInLength (w.cursorUpZ c) := by
  obtain ⟨hl, hb⟩ := hb
  obtain ⟨q0, -, -, -, -, -⟩ := tdiv_facts w.cursor w.width hc hw
  have hm0 : 0 ≤ MinInt64 (MaxInt64 c 1) (w.cursor.tdiv w.width) := by
    rw [MinInt64_eq, MaxInt64_eq]; omega
  have p0 := mul_nonneg hm0 hw.le
  unfold Window.cursorUpZ CursorInLength
  dsimp only
  split_ifs <;> exact ⟨hl, by dsimp only; omega⟩

theorem cursorDown_bound (w : Window β) (c : Int) (hb : CursorInLength w) :
    CursorInLength (w.cursorDownZ c) := by
  obtain ⟨hl, hb⟩ := hb
  have hd : w.cursor + MinInt64 (MinInt64 (MaxInt64 c 1)
      ((MaxInt64 w.length 1 - 1).tdiv w.width - w.cursor.tdiv w.width) * w.width)
      (MaxInt64 w.length 1 - 1 - w.cursor) ≤ MaxInt64 w.length 1 - 1 := by
    rw [MinInt64_eq (_ * _)]; omega
  unfold Window.cursorDownZ CursorInLength
  dsimp only
  split_ifs <;> exact ⟨hl, hd⟩

theorem cursorLeft_bound (w : Window β) (c : Int) (hw : 0 < w.width) (hc : 0 ≤ w.cursor)
    (hb : CursorInLength w) : CursorInLength (w.cursorLeftZ c) := by
  obtain ⟨hl, hb⟩ := hb
  obtain ⟨-, -, -, r0, -, -⟩ := tdiv_facts w.cursor w.width hc hw
  unfold Window.cursorLeftZ CursorInLength
  dsimp only
  rw [MinInt64_eq, MaxInt64_eq c]
  exact ⟨hl, by omega⟩

theorem cursorRight_bound (w : Window β) (c : Int) (hb : CursorInLength w) :
    CursorInLength (w.cursorRightZ c) := by
  obtain ⟨hl, hb⟩ := hb
  unfold Window.cursorRightZ CursorInLength
  dsimp only
  rw [MinInt64_eq]
  exact ⟨hl, by omega⟩

theorem cursorPrev_bound (w : Window β) (c : Int) (hc : 0 ≤ w.cursor)
    (hb : CursorInLength w) : CursorInLength (w.cursorPrevZ c) := by
  obtain ⟨hl, hb⟩ := hb
  have hd : w.cursor - MinInt64 (MaxInt64 c 1) w.cursor ≤ MaxInt64 w.length 1 - 1 := by
    rw [MinInt64_eq, MaxInt64_eq c]; omega
  unfold Window.cursorPrevZ CursorInLength
  dsimp only
  split_ifs <;> exact ⟨hl, hd⟩

theorem cursorNext_bound (w : Window β) (c : Int) (hb : CursorInLength w) :
    CursorInLength (w.cursorNextZ c) := by
  obtain ⟨hl, hb⟩ := hb
  have hd : w.cursor + MinInt64 (MaxInt64 c 1) (MaxInt64 w.length 1 - 1 - w.cursor) ≤
      MaxInt64 w.length 1 - 1 := by
    rw [MinInt64_eq]; omega
  unfold Window.cursorNextZ CursorInLength
  dsimp only
  split_ifs <;> exact ⟨hl, hd⟩

theorem cursorHead_bound (w : Window β) (c : Int) (hw : 0 < w.width) (hc : 0 ≤ w.cursor)
    (hb : CursorInLength w) : CursorInLength (w.cursorHeadZ c) := by
  obtain ⟨hl, hb⟩ := hb
  obtain ⟨-, -, -, r0, -, -⟩ := tdiv_facts w.cursor w.width hc hw
  unfold Window.cursorHeadZ CursorInLength
  dsimp only
  exact ⟨hl, by omega⟩

theorem cursorEnd_bound (w : Window β) (c : Int) (hb : CursorInLength w) :
    CursorInLength (w.cursorEndZ c) := by
  obtain ⟨hl, hb⟩ := hb
  have hd : MinInt64 ((w.cursor.tdiv w.width + MaxInt64 c 1) * w.width - 1)
      (MaxInt64 w.length 1 - 1) ≤ MaxInt64 w.length 1 - 1 := by
    rw [MinInt64_eq]; omega
  unfold Window.cursorEndZ CursorInLength
  dsimp only
  split_ifs <;> exact ⟨hl, hd⟩

theorem scrollUp_bound (w : Window β) (c : Int) (hw : 0 < w.width)
    (hb : CursorInLength w) : CursorInLength (w.scrollUpZ c) := by
  obtain ⟨hl, hb⟩ := hb
  unfold Window.scrollUpZ CursorInLength
  dsimp only
  split_ifs with hif
  · dsimp only
    obtain ⟨r0, -, -, -, -, -⟩ := tdiv_facts
      (w.cursor - (w.offset - MinInt64 (MaxInt64 c 1) (w.offset.tdiv w.width) * w.width)
        - w.height * w.width) w.width (by omega) hw
    have p := mul_nonneg (show 0 ≤ (w.cursor - (w.offset -
      MinInt64 (MaxInt64 c 1) (w.offset.tdiv w.width) * w.width)
        - w.height * w.width).tdiv w.width + 1 by omega) hw.le
    exact ⟨hl, by omega⟩
  · exact ⟨hl, hb⟩

theorem scrollDown_bound (w : Window β) (c : Int) (hb : CursorInLength w) :
    CursorInLength (w.scrollDownZ c) := by
  obtain ⟨hl, hb⟩ := hb
  unfold Window.scrollDownZ CursorInLength
  dsimp only
  split_ifs with hif
  · dsimp only
    rw [MinInt64_eq (_ * _)]
    exact ⟨hl, by omega⟩
  · exact ⟨hl, hb⟩

theorem pageUp_bound (w : Window β) (hw : 0 < w.width) (hb : CursorInLength w) :
    CursorInLength w.pageUpZ := by
  obtain ⟨hl, hb⟩ := hb
  have hL : 1 ≤ MaxInt64 w.length 1 := by rw [MaxInt64_eq]; omega
  have e : (w.height - 1) * w.width = w.height * w.width - w.width := by ring
  unfold Window.pageUpZ CursorInLength
  dsimp only
  split_ifs <;> exact ⟨hl, by dsimp only at *; omega⟩

theorem pageUpHalf_bound (w : Window β) (hw : 0 < w.width) (hb : CursorInLength w) :
    CursorInLength w.pageUpHalfZ := by
  obtain ⟨hl, hb⟩ := hb
  have hL : 1 ≤ MaxInt64 w.length 1 := by rw [MaxInt64_eq]; omega
  have e : (w.height - 1) * w.width = w.height * w.width - w.width := by ring
  unfold Window.pageUpHalfZ CursorInLength
  dsimp only
  split_ifs <;> exact ⟨hl, by dsimp only at *; omega⟩

theorem last_page_le (w : Window β) (hw : 0 < w.width) (hh : 0 < w.height) :
    MaxInt64 (((w.length + w.width - 1).tdiv w.width - w.height) * w.width) 0 ≤
      MaxInt64 w.length 1 - 1 ∧
    ((MaxInt64 w.length 1 + w.width - 1).tdiv w.width - 1) * w.width ≤
      MaxInt64 w.length 1 - 1 := by
  obtain ⟨l1, -⟩ := last_row_in_last_page w.length w.height w.width hw hh
  obtain ⟨f1, -⟩ := rows_facts w.length w.width hw
  exact ⟨by omega, f1⟩

theorem pageDown_bound (w : Window β) (hw : 0 < w.width) (hh : 0 < w.height)
    (hb : CursorInLength w) : CursorInLength w.pageDownZ := by
  obtain ⟨hl, hb⟩ := hb
  obtain ⟨g1, g2⟩ := last_page_le w hw hh
  have hmin : MinInt64 (w.offset + (w.height - 2) * w.width)
      (MaxInt64 (((w.length + w.width - 1).tdiv w.width - w.height) * w.width) 0) ≤
      MaxInt64 (((w.length + w.width - 1).tdiv w.width - w.height) * w.width) 0 := by
    rw [MinInt64_eq]; omega
  unfold Window.pageDownZ CursorInLength
  dsimp only
  split_ifs <;> exact ⟨hl, by dsimp only at *; omega⟩

theorem pageDownHalf_bound (w : Window β) (hw : 0 < w.width) (hh : 0 < w.height)
    (hb : CursorInLength w) : CursorInLength w.pageDownHalfZ := by
  obtain ⟨hl, hb⟩ := hb
  obtain ⟨g1, g2⟩ := last_page_le w hw hh
  have hmin : MinInt64 (w.offset + MaxInt64 (w.height.tdiv 2) 1 * w.width)
      (MaxInt64 (((w.length + w.width - 1).tdiv w.width - w.height) * w.width) 0) ≤
      MaxInt64 (((w.length + w.width - 1).tdiv w.width - w.height) * w.width) 0 := by
    rw [MinInt64_eq]; omega
  unfold Window.pageDownHalfZ CursorInLength
  dsimp only
  split_ifs <;> exact ⟨hl, by dsimp only at *; omega⟩

theorem pageTop_bound (w : Window β) (hb : CursorInLength w) : CursorInLength w.pageTop := by
  have hL : 1 ≤ MaxInt64 w.length 1 := by rw [MaxInt64_eq]; omega
  exact ⟨hb.1, by unfold Window.pageTop; dsimp only; omega⟩

theorem pageEnd_bound (w : Window β) (hw : 0 < w.width) (hh : 0 < w.height)
    (hb : CursorInLength w) : CursorInLength w.pageEndZ :=
  ⟨hb.1, (last_page_le w hw hh).2⟩

theorem jumpTo_bound (B : BufferOps β) (w : Window β) (hb : CursorInLength w) :
    CursorInLength (w.jumpToZ B) := by
  obtain ⟨hl, hb⟩ := hb
  unfold Window.jumpToZ CursorInLength
  dsimp only
  split
  · split_ifs with h1 h2 h3
    · exact ⟨hl, hb⟩
    · exact ⟨hl, hb⟩
    · exact ⟨hl, hb⟩
    · dsimp only at h3 ⊢
      rw [MaxInt64_eq]
      exact ⟨hl, by omega⟩
  · exact ⟨hl, hb⟩

theorem deleteByte_loop_bound (B : BufferOps β) (n : Nat) (w : Window β)
    (hc : 0 ≤ w.cursor) (hn : (n : Int) ≤ w.length - w.cursor) (hb : CursorInLength w) :
    CursorInLength (Window.deleteByte.loop B n w) := by
  induction n generalizing w with
  | zero => exact hb
  | succ n ih =>
    obtain ⟨hl, hb⟩ := hb
    push_cast at hn
    simp only [Window.deleteByte.loop]
    split_ifs with h
    · try dsimp only at h
      apply ih
      · (try dsimp only); omega
      · (try dsimp only); omega
      · unfold CursorInLength
        dsimp only
        rw [MaxInt64_eq]
        constructor <;> omega
    · try dsimp only at h
      apply ih
      · exact hc
      · (try dsimp only); omega
      · unfold CursorInLength
        dsimp only
        rw [MaxInt64_eq]
        constructor <;> omega

theorem deleteByte_bound (B : BufferOps β) (w : Window β) (c : Int) (hc : 0 ≤ w.cursor)
    (hb : CursorInLength w) : CursorInLength (w.deleteByte B c) := by
  unfold Window.deleteByte
  split_ifs with h0
  · exact hb
  · apply deleteByte_loop_bound B _ w hc _ hb
    have hl := hb.1
    have := hb.2
    rw [MaxInt64_eq] at this
    rw [MinInt64_eq (MinInt64 _ _)]
    omega

theorem deletePrevByte_bound (B : BufferOps β) (w : Window β) (c : Int) (hw : 0 < w.width)
    (hc : 0 ≤ w.cursor) (hb : CursorInLength w) : CursorInLength (w.deletePrevByte B c) := by
  obtain ⟨hl, hb⟩ := hb
  have hn := deletePrevByte_count w c hw hc
  obtain ⟨v1, v2⟩ := deletePrevByte_loop_values B
    (MinInt64 (MaxInt64 c 1) (w.cursor.tmod w.width)).toNat w
  unfold Window.deletePrevByte CursorInLength
  dsimp only
  rw [v1, v2]
  rw [MaxInt64_eq w.length 1] at hb
  rw [MaxInt64_eq (w.length - _) 1]
  constructor <;> omega

theorem increment_bound (B : BufferOps β) (w : Window β) (c : Int)
    (hb : CursorInLength w) : CursorInLength (w.increment B c) := by
  obtain ⟨hl, hb⟩ := hb
  unfold Window.increment CursorInLength
  split
  · dsimp only
    split_ifs with h0
    · dsimp only
      rw [h0] at hb ⊢
      have e1 : MaxInt64 (0 : Int) 1 = 1 := by decide
      have e2 : MaxInt64 ((0 : Int) + 1) 1 = 1 := by decide
      exact ⟨by omega, by omega⟩
    · exact ⟨hl, hb⟩
  · exact ⟨hl, hb⟩

theorem decrement_bound (B : BufferOps β) (w : Window β) (c : Int)
    (hb : CursorInLength w) : CursorInLength (w.decrement B c) := by
  obtain ⟨hl, hb⟩ := hb
  unfold Window.decrement CursorInLength
  split
  · dsimp only
    split_ifs with h0
    · dsimp only
      rw [h0] at hb ⊢
      have e1 : MaxInt64 (0 : Int) 1 = 1 := by decide
      have e2 : MaxInt64 ((0 : Int) + 1) 1 = 1 := by decide
      exact ⟨by omega, by omega⟩
    · exact ⟨hl, hb⟩
  · exact ⟨hl, hb⟩

theorem apply_bound (B : BufferOps β) (w : Window β) (op : Op) (hop : op.isNormal = true)
    (hw : 0 < w.width) (hh : 0 < w.height) (hc : 0 ≤ w.cursor) (hb : CursorInLength w) :
    CursorInLength (w.applyZ B op) := by
  cases op with
  | cursorUp c => exact cursorUp_bound w c hw hc hb
  | cursorDown c => exact cursorDown_bound w c hb
  | cursorLeft c => exact cursorLeft_bound w c hw hc hb
  | cursorRight c => exact cursorRight_bound w c hb
  | cursorPrev c => exact cursorPrev_bound w c hc hb
  | cursorNext c => exact cursorNext_bound w c hb
  | cursorHead c => exact cursorHead_bound w c hw hc hb
  | cursorEnd c => exact cursorEnd_bound w c hb
  | scrollUp c => exact scrollUp_bound w c hw hb
  | scrollDown c => exact scrollDown_bound w c hb
  | pageUp => exact pageUp_bound w hw hb
  | pageDown => exact pageDown_bound w hw hh hb
  | pageUpHalf => exact pageUpHalf_bound w hw hb
  | pageDownHalf => exact pageDownHalf_bound w hw hh hb
  | pageTop => exact pageTop_bound w hb
  | pageEnd => exact pageEnd_bound w hw hh hb
  | jumpTo => exact jumpTo_bound B w hb
  | deleteByte c => exact deleteByte_bound B w c hc hb
  | deletePrevByte c => exact deletePrevByte_bound B w c hw hc hb
  | increment c => exact increment_bound B w c hb
  | decrement c => exact decrement_bound B w c hb
  | _ => simp [Op.isNormal, Op.isMotion] at hop

theorem run_bound (B : BufferOps β) (ops : List Op) (w : Window β) (hw : 0 < w.width)
    (hh : 0 < w.height) (ha : OffsetAligned w) (hc : CursorNonneg w)
    (hb : CursorInLength w) (hn : ∀ op ∈ ops, op.isNormal = true) :
    CursorInLength (w.runZ B ops) := by
  induction ops generalizing w with
  | nil => exact hb
  | cons op ops ih =>
    obtain ⟨a1, a2⟩ := apply_aligned B w op ha
    obtain ⟨c1, c2⟩ := apply_cursor B w op hw hh ha.1 hc
    have b1 := apply_bound B w op (hn op (List.mem_cons_self _ _)) hw hh hc.1 hb
    exact ih (w.applyZ B op) (by rw [a2]; exact hw) (by rw [c2]; exact hh) a1 c1 b1
      (fun o ho => hn o (List.mem_cons_of_mem _ ho))

/-- In exact arithmetic: for a window made by `NewWindow` with positive width and height over a
byte source (its length is not negative), after every finite sequence of window
operations `0 <= cursor`; and after every finite sequence of motions, `jumpTo`,
`deleteByte`, `deletePrevByte`, `increment` and `decrement` also `cursor < length`, or
`length = 0` and `cursor = 0`. -/
theorem cursor_after_ops_exact (B : BufferOps β) (buffer : β) (name : String)
    (height width : Int) (w : Window β) (hw : 0 < width) (hh : 0 < height)
    (hnew : NewWindow B buffer name height width = some w) (hlen : 0 ≤ w.length)
    (ops : List Op) :
    0 ≤ (w.runZ B ops).cursor ∧
      ((∀ op ∈ ops, op.isNormal = true) →
        (w.runZ B ops).cursor < (w.runZ B ops).length ∨
          ((w.runZ B ops).length = 0 ∧ (w.runZ B ops).cursor = 0)) := by
  obtain ⟨a, e1, e2, -, e4, e5⟩ := NewWindow_aligned B buffer name height width w hnew
  have hc : CursorNonneg w := ⟨by rw [e4], by rw [e5]; simp⟩
  have hb : CursorInLength w := ⟨hlen, by rw [e4, MaxInt64_eq]; omega⟩
  have h1 := run_cursor B ops w (by rw [e1]; exact hw) (by rw [e2]; exact hh) a hc
  refine ⟨h1.1, fun hn => ?_⟩
  obtain ⟨b1, b2⟩ := run_bound B ops w (by rw [e1]; exact hw) (by rw [e2]; exact hh) a hc hb hn
  have := h1.1
  rw [MaxInt64_eq] at b2
  omega

/-- Every buffer reached from a fresh buffer by calls that address no position past the
end has a logical content. -/
theorem edits_HasContent (b : Buffer) (s : List Nat) (es : List Edit)
    (hb : b.HasContent s) (hw : b.editsWithin es) : ∃ s2, (b.edits es).HasContent s2 := by
  induction es generalizing b s with
  | nil => exact ⟨s, hb⟩
  | cons e es ih =>
    cases e with
    | Insert i c =>
      have hi : i ≤ s.length := by
        have := hw.1
        rw [hb.1] at this
        exact_mod_cast this
      exact ih (b.Insert i c) _ (HasContent_Insert b s i c hb hi) hw.2
    | Replace i c =>
      have hi : i < s.length := by
        have := hw.1
        rw [hb.1] at this
        exact_mod_cast this
      exact ih (b.Replace i c) _ (HasContent_Replace b s i c hb hi) hw.2
    | Delete i =>
      by_cases hi : i < s.length
      · exact ih (b.Delete i) _ (HasContent_Delete b s i hb hi) hw
      · have e : b.Delete i = b :=
          Delete_past_end b i (by rw [hb.1]; exact_mod_cast (not_lt.1 hi))
        have hw2 : (b.Delete i).editsWithin es := hw
        rw [e] at hw2
        have := ih b s hb hw2
        simpa [Buffer.edits, Buffer.edit, e] using this

/-! ## A single motion keeps the cursor inside the content -/

theorem motion_cursor_ignores_stack (B : BufferOps β) (w : Window β) (op : Op)
    (hop : op.isMotion = true) (st : List Position) :
    (({ w with stack := st } : Window β).applyZ B op).cursor = (w.applyZ B op).cursor ∧
      (w.applyZ B op).length = w.length := by
  cases op <;> simp only [Op.isMotion, Bool.false_eq_true] at hop
  case cursorUp c => unfold Window.applyZ Window.cursorUpZ; dsimp only; split_ifs <;> exact ⟨rfl, rfl⟩
  case cursorDown c =>
    unfold Window.applyZ Window.cursorDownZ; dsimp only; split_ifs <;> exact ⟨rfl, rfl⟩
  case cursorLeft c => exact ⟨rfl, rfl⟩
  case cursorRight c => exact ⟨rfl, rfl⟩
  case cursorPrev c =>
    unfold Window.applyZ Window.cursorPrevZ; dsimp only; split_ifs <;> exact ⟨rfl, rfl⟩
  case cursorNext c =>
    unfold Window.applyZ Window.cursorNextZ; dsimp only; split_ifs <;> exact ⟨rfl, rfl⟩
  case cursorHead c => exact ⟨rfl, rfl⟩
  case cursorEnd c =>
    unfold Window.applyZ Window.cursorEndZ; dsimp only; split_ifs <;> exact ⟨rfl, rfl⟩
  case scrollUp c =>
    unfold Window.applyZ Window.scrollUpZ; dsimp only; split_ifs <;> exact ⟨rfl, rfl⟩
  case scrollDown c =>
    unfold Window.applyZ Window.scrollDownZ; dsimp only; split_ifs <;> exact ⟨rfl, rfl⟩
  case pageUp => unfold Window.applyZ Window.pageUpZ; dsimp only; split_ifs <;> exact ⟨rfl, rfl⟩
  case pageDown =>
    unfold Window.applyZ Window.pageDownZ; dsimp only; split_ifs <;> exact ⟨rfl, rfl⟩
  case pageUpHalf =>
    unfold Window.applyZ Window.pageUpHalfZ; dsimp only; split_ifs <;> exact ⟨rfl, rfl⟩
  case pageDownHalf =>
    unfold Window.applyZ Window.pageDownHalfZ; dsimp only; split_ifs <;> exact ⟨rfl, rfl⟩
  case pageTop => exact ⟨rfl, rfl⟩
  case pageEnd => exact ⟨rfl, rfl⟩
theorem motion_cursor_le (B : BufferOps β) (w : Window β) (op : Op)
    (hop : op.isMotion = true) (hw : 0 < w.width) (hh : 0 < w.height)
    (hc : 0 ≤ w.cursor) (hb : w.cursor ≤ MaxInt64 w.length 1 - 1) :
    (w.applyZ B op).cursor ≤ MaxInt64 w.length 1 - 1 := by
  have hL : 1 ≤ MaxInt64 w.length 1 := by rw [MaxInt64_eq]; omega
  have e : (w.height - 1) * w.width = w.height * w.width - w.width := by ring
  obtain ⟨q0, -, -, r0, -, -⟩ := tdiv_facts w.cursor w.width hc hw
  obtain ⟨g1, g2⟩ := last_page_le w hw hh
  cases op <;> simp only [Op.isMotion, Bool.false_eq_true] at hop
  case cursorUp c =>
    have hm0 : 0 ≤ MinInt64 (MaxInt64 c 1) (w.cursor.tdiv w.width) := by
      rw [MinInt64_eq, MaxInt64_eq]; omega
    have p0 := mul_nonneg hm0 hw.le
    unfold Window.applyZ Window.cursorUpZ
    dsimp only
    split_ifs <;> (dsimp only; omega)
  case cursorDown c =>
    have hd : w.cursor + MinInt64 (MinInt64 (MaxInt64 c 1)
        ((MaxInt64 w.length 1 - 1).tdiv w.width - w.cursor.tdiv w.width) * w.width)
        (MaxInt64 w.length 1 - 1 - w.cursor) ≤ MaxInt64 w.length 1 - 1 := by
      rw [MinInt64_eq (_ * _)]; omega
    unfold Window.applyZ Window.cursorDownZ
    dsimp only
    split_ifs <;> exact hd
  case cursorLeft c =>
    unfold Window.applyZ Window.cursorLeftZ
    dsimp only
    rw [MinInt64_eq, MaxInt64_eq c]
    omega
  case cursorRight c =>
    unfold Window.applyZ Window.cursorRightZ
    dsimp only
    rw [MinInt64_eq]
    omega
  case cursorPrev c =>
    have hd : w.cursor - MinInt64 (MaxInt64 c 1) w.cursor ≤ MaxInt64 w.length 1 - 1 := by
      rw [MinInt64_eq, MaxInt64_eq c]; omega
    unfold Window.applyZ Window.cursorPrevZ
    dsimp only
    split_ifs <;> exact hd
  case cursorNext c =>
    have hd : w.cursor + MinInt64 (MaxInt64 c 1) (MaxInt64 w.length 1 - 1 - w.cursor) ≤
        MaxInt64 w.length 1 - 1 := by
      rw [MinInt64_eq]; omega
    unfold Window.applyZ Window.cursorNextZ
    dsimp only
    split_ifs <;> exact hd
  case cursorHead c =>
    unfold Window.applyZ Window.cursorHeadZ
    dsimp only
    omega
  case cursorEnd c =>
    have hd : MinInt64 ((w.cursor.tdiv w.width + MaxInt64 c 1) * w.width - 1)
        (MaxInt64 w.length 1 - 1) ≤ MaxInt64 w.length 1 - 1 := by
      rw [MinInt64_eq]; omega
    unfold Window.applyZ Window.cursorEndZ
    dsimp only
    split_ifs <;> exact hd
  case scrollUp c =>
    unfold Window.applyZ Window.scrollUpZ
    dsimp only
    split_ifs with hif
    · dsimp only
      obtain ⟨s0, -, -, -, -, -⟩ := tdiv_facts
        (w.cursor - (w.offset - MinInt64 (MaxInt64 c 1) (w.offset.tdiv w.width) * w.width)
          - w.height * w.width) w.width (by omega) hw
      have p := mul_nonneg (show 0 ≤ (w.cursor - (w.offset -
        MinInt64 (MaxInt64 c 1) (w.offset.tdiv w.width) * w.width)
          - w.height * w.width).tdiv w.width + 1 by omega) hw.le
      omega
    · exact hb
  case scrollDown c =>
    unfold Window.applyZ Window.scrollDownZ
    dsimp only
    split_ifs with hif
    · dsimp only
      rw [MinInt64_eq (_ * _)]
      omega
    · exact hb
  case pageUp =>
    unfold Window.applyZ Window.pageUpZ
    dsimp only
    split_ifs <;> (dsimp only at *; omega)
  case pageDown =>
    have hmin : MinInt64 (w.offset + (w.height - 2) * w.width)
        (MaxInt64 (((w.length + w.width - 1).tdiv w.width - w.height) * w.width) 0) ≤
        MaxInt64 (((w.length + w.width - 1).tdiv w.width - w.height) * w.width) 0 := by
      rw [MinInt64_eq]; omega
    unfold Window.applyZ Window.pageDownZ
    dsimp only
    split_ifs <;> (dsimp only at *; omega)
  case pageUpHalf =>
    unfold Window.applyZ Window.pageUpHalfZ
    dsimp only
    split_ifs <;> (dsimp only at *; omega)
  case pageDownHalf =>
    have hmin : MinInt64 (w.offset + MaxInt64 (w.height.tdiv 2) 1 * w.width)
        (MaxInt64 (((w.length + w.width - 1).tdiv w.width - w.height) * w.width) 0) ≤
        MaxInt64 (((w.length + w.width - 1).tdiv w.width - w.height) * w.width) 0 := by
      rw [MinInt64_eq]; omega
    unfold Window.applyZ Window.pageDownHalfZ
    dsimp only
    split_ifs <;> (dsimp only at *; omega)
  case pageTop =>
    unfold Window.applyZ Window.pageTop
    dsimp only
    omega
  case pageEnd => exact g2

/-- In exact arithmetic: on a window with `width > 0`, `height > 0`, `offset >= 0`,
`offset % width == 0`, the cursor inside the viewport and
`0 <= cursor <= L - 1` for `L = max(length, 1)`, each single motion, with any count
(zero and negative counts included), leaves `0 <= cursor <= L - 1`; the length is the
one before the call. -/
theorem motion_in_length_exact (B : BufferOps β) (w : Window β) (op : Op)
    (hop : op.isMotion = true) (hw : 0 < w.width) (hh : 0 < w.height)
    (_ho : 0 ≤ w.offset) (ha : w.offset.tmod w.width = 0) (_hv : InViewport w)
    (hc : 0 ≤ w.cursor) (hb : w.cursor ≤ MaxInt64 w.length 1 - 1) :
    0 ≤ (w.applyZ B op).cursor ∧
      (w.applyZ B op).cursor ≤ MaxInt64 (w.applyZ B op).length 1 - 1 ∧
      (w.applyZ B op).length = w.length := by
  obtain ⟨e1, e2⟩ := motion_cursor_ignores_stack B w op hop []
  have hd : w.width ∣ w.offset := Int.dvd_of_tmod_eq_zero ha
  have h0 := (apply_cursor B ({ w with stack := [] } : Window β) op hw hh hd
    ⟨hc, by intro p hp; cases hp⟩).1.1
  rw [e1] at h0
  refine ⟨h0, ?_, e2⟩
  rw [e2]
  exact motion_cursor_le B w op hop hw hh hc hb

/-! ## Two nibbles make one byte -/

theorem nibbles (hi lo : Nat) (h1 : hi < 16) (h2 : lo < 16) :
    ((hi <<< 4) % 256) ||| lo = 16 * hi + lo := by
  interval_cases hi <;> interval_cases lo <;> rfl

/-- C12: on a window with `pending == false`, `insert(ModeInsert, hi)` followed by
`insert(ModeInsert, lo)` for two nibbles makes exactly one editing call on the buffer,
`Insert(c, 16*hi + lo)` at the cursor `c` held before the two calls; the first call
leaves buffer, cursor and length alone; at the end the cursor is `c + 1`, the length is
one more, `pending` is false and `pendingByte` is 0. -/
theorem insert_two_nibbles (B : BufferOps β) (w : Window (β × List Call)) (hi lo : Nat)
    (hp : w.pending = false) (h1 : hi < 16) (h2 : lo < 16) :
    (w.insert B.traced Mode.ModeInsert hi).buffer = w.buffer ∧
      (w.insert B.traced Mode.ModeInsert hi).cursor = w.cursor ∧
      (w.insert B.traced Mode.ModeInsert hi).length = w.length ∧
      ((w.insert B.traced Mode.ModeInsert hi).insert B.traced Mode.ModeInsert lo).buffer =
        (B.Insert w.buffer.1 w.cursor (16 * hi + lo),
          w.buffer.2 ++ [Call.Insert w.cursor (16 * hi + lo)]) ∧
      ((w.insert B.traced Mode.ModeInsert hi).insert B.traced Mode.ModeInsert lo).cursor =
        w.cursor + 1 ∧
      ((w.insert B.traced Mode.ModeInsert hi).insert B.traced Mode.ModeInsert lo).length =
        w.length + 1 ∧
      ((w.insert B.traced Mode.ModeInsert hi).insert B.traced Mode.ModeInsert lo).pending =
        false ∧
      ((w.insert B.traced Mode.ModeInsert hi).insert B.traced Mode.ModeInsert lo).pendingByte =
        0 := by
  have hn := nibbles hi lo h1 h2
  have e1 : w.insert B.traced Mode.ModeInsert hi =
      { w with pending := true, pendingByte := (hi <<< 4) % 256 } := by
    unfold Window.insert
    rw [if_neg (by simp [hp])]
  rw [e1]
  refine ⟨rfl, rfl, rfl, ?_⟩
  unfold Window.insert Window.insert.switch
  dsimp only
  rw [if_pos rfl, hn]
  split_ifs <;> exact ⟨rfl, rfl, rfl, rfl, rfl⟩

theorem insert_two_nibbles_witness :
    ((tracedWindow.insert Buffer.ops.traced Mode.ModeInsert 4).insert Buffer.ops.traced
        Mode.ModeInsert 1).buffer =
      ((NewBuffer fixtureSource).Insert 0 0x41, [Call.Insert 0 0x41]) ∧
    ((tracedWindow.insert Buffer.ops.traced Mode.ModeInsert 4).insert Buffer.ops.traced
        Mode.ModeInsert 1).cursor = 1 :=
  ⟨(insert_two_nibbles Buffer.ops tracedWindow 4 1 rfl (by decide) (by decide)).2.2.2.1,
    (insert_two_nibbles Buffer.ops tracedWindow 4 1 rfl (by decide) (by decide)).2.2.2.2.1⟩

/-! ## `jumpTo` with the cursor in the first 50 bytes -/

/-- C13: the content is the digit `7` followed by sixty letters `x`, the cursor is on
the digit (position 0): the run of digits under the cursor is `7`, bounded by the start
of the buffer and a letter, and `0 < 7 < 61`.  The read starts at `max(0 - 50, 0) = 0`,
yet the scan starts at index 50 of what was read, the letter at position 50, so `jumpTo`
returns without a jump.  With a second number at position 50 the jump goes to that
number and not to the one under the cursor. -/
theorem jumpTo_near_start_scans_position_fifty :
    (ascii "7" ++ List.replicate 60 0x78).getD 0 0 = 0x37 ∧
      isDigit ((ascii "7" ++ List.replicate 60 0x78).getD 1 0) = false ∧
      ParseInt (ascii "7") = 7 ∧
      (windowAt (ascii "7" ++ List.replicate 60 0x78) 0).length = 61 ∧
      ((windowAt (ascii "7" ++ List.replicate 60 0x78) 0).jumpTo Buffer.ops).cursor = 0 ∧
      ((windowAt (ascii "7" ++ List.replicate 60 0x78) 0).jumpTo Buffer.ops).offset = 0 ∧
      ((windowAt (ascii "7" ++ List.replicate 60 0x78) 0).jumpTo Buffer.ops).stack = [] ∧
      ((windowAt (ascii "7" ++ List.replicate 49 0x78 ++ ascii "9" ++ List.replicate 10 0x78)
        0).jumpTo Buffer.ops).cursor = 9 := by
  refine ⟨?_, ?_, ?_, ?_, ?_, ?_, ?_, ?_⟩ <;> decide

/-! ## `jumpTo` and `jumpBack` -/

/-- C14: `jumpTo` either leaves cursor, offset and stack as they were, or pushes exactly
one frame, the previous `(cursor, offset)`, and sets the cursor to a value `v` with
`0 < v < length`; in that case `jumpBack` right after it restores cursor, offset and
stack.  `jumpBack` on an empty stack changes nothing. -/
theorem jumpTo_then_jumpBack (B : BufferOps β) (w : Window β) :
    (((w.jumpTo B).cursor = w.cursor ∧ (w.jumpTo B).offset = w.offset ∧
        (w.jumpTo B).stack = w.stack) ∨
      ((w.jumpTo B).stack = w.stack ++ [{ cursor := w.cursor, offset := w.offset }] ∧
        0 < (w.jumpTo B).cursor ∧ (w.jumpTo B).cursor < w.length ∧
        (w.jumpTo B).length = w.length ∧
        (w.jumpTo B).jumpBack.cursor = w.cursor ∧
        (w.jumpTo B).jumpBack.offset = w.offset ∧
        (w.jumpTo B).jumpBack.stack = w.stack)) ∧
      (w.stack = [] → w.jumpBack = w) := by
  constructor
  · unfold Window.jumpTo
    dsimp only
    split
    · split_ifs with h1 h2 h3
      · exact Or.inl ⟨rfl, rfl, rfl⟩
      · exact Or.inl ⟨rfl, rfl, rfl⟩
      · exact Or.inl ⟨rfl, rfl, rfl⟩
      · right
        try dsimp only at h3
        refine ⟨rfl, by dsimp only; omega, by dsimp only; omega, rfl, ?_, ?_, ?_⟩ <;>
          (unfold Window.jumpBack; simp)
    · exact Or.inl ⟨rfl, rfl, rfl⟩
  · intro h
    unfold Window.jumpBack
    rw [h]
    rfl

/-! ## `startAppend` undone by `exitInsert` -/

theorem startAppend_fields (w : Window β) :
    w.startAppend.buffer = w.buffer ∧ w.startAppend.append = true ∧
      w.startAppend.cursor = (if w.length > 0 then w.cursor + 1 else w.cursor) ∧
      (w.startAppend.extending = true ↔
        (if w.length > 0 then w.cursor + 1 else w.cursor) = w.length) ∧
      w.startAppend.length =
        (if (if w.length > 0 then w.cursor + 1 else w.cursor) = w.length
          then w.length + 1 else w.length) := by
  unfold Window.startAppend
  dsimp only
  by_cases h1 : w.length > 0
  · simp only [if_pos h1]
    by_cases h2 : w.cursor + 1 = w.length
    · simp only [if_pos h2]
      split_ifs <;> exact ⟨rfl, rfl, rfl, by simp [h2], rfl⟩
    · simp only [if_neg h2]
      split_ifs <;> exact ⟨rfl, rfl, rfl, by simp [h2], rfl⟩
  · simp only [if_neg h1]
    by_cases h2 : w.cursor = w.length
    · simp only [if_pos h2]
      split_ifs <;> exact ⟨rfl, rfl, rfl, by simp [h2], rfl⟩
    · simp only [if_neg h2]
      split_ifs <;> exact ⟨rfl, rfl, rfl, by simp [h2], rfl⟩

theorem exitInsert_fields (w : Window β) (ha : w.append = true) :
    w.exitInsert.buffer = w.buffer ∧
      w.exitInsert.length =
        (if w.extending = true ∧ w.length > 0 then w.length - 1 else w.length) ∧
      w.exitInsert.cursor = (if w.cursor > 0 then w.cursor - 1 else w.cursor) := by
  unfold Window.exitInsert
  dsimp only
  rw [if_pos ha]
  by_cases h1 : w.extending = true ∧ w.length > 0
  · simp only [if_pos h1]
    split_ifs <;> exact ⟨rfl, rfl, rfl⟩
  · simp only [if_neg h1]
    split_ifs <;> exact ⟨rfl, rfl, rfl⟩

/-- C15: on a window with `width > 0`, `height > 0`, `0 <= cursor` and either
`cursor < length` or `length == 0` and `cursor == 0`, `startAppend` followed at once by
`exitInsert` leaves the buffer alone (neither takes the buffer's methods) and leaves
cursor and length as before `startAppend`; when `startAppend` set `extending`, it had
made the length one more, and `exitInsert` takes that off again. -/
theorem startAppend_then_exitInsert (w : Window β) (_hw : 0 < w.width)
    (_hh : 0 < w.height) (hc : 0 ≤ w.cursor)
    (hcl : w.cursor < w.length ∨ (w.length = 0 ∧ w.cursor = 0)) :
    w.startAppend.exitInsert.buffer = w.buffer ∧
      w.startAppend.exitInsert.cursor = w.cursor ∧
      w.startAppend.exitInsert.length = w.length ∧
      (w.startAppend.extending = true ↔ (w.cursor + 1 = w.length ∨ w.length = 0)) ∧
      (w.startAppend.extending = true → w.startAppend.length = w.length + 1) := by
  obtain ⟨s1, s2, s3, s4, s5⟩ := startAppend_fields w
  obtain ⟨e1, e2, e3⟩ := exitInsert_fields w.startAppend s2
  rw [e1, e2, e3, s1, s3, s5]
  simp only [s4]
  refine ⟨trivial, ?_, ?_, ?_, ?_⟩
  · split_ifs <;> omega
  · split_ifs <;> omega
  · split_ifs <;> constructor <;> intro h <;> omega
  · split_ifs <;> intro h <;> omega

theorem startAppend_then_exitInsert_witness :
    (windowAt fixtureSource 15).startAppend.exitInsert.buffer = NewBuffer fixtureSource ∧
      (windowAt fixtureSource 15).startAppend.exitInsert.cursor = 15 ∧
      (windowAt fixtureSource 15).startAppend.exitInsert.length = 16 ∧
      ((windowAt fixtureSource 15).startAppend.extending = true ↔
        ((15 : Int) + 1 = 16 ∨ (16 : Int) = 0)) ∧
      ((windowAt fixtureSource 15).startAppend.extending = true →
        (windowAt fixtureSource 15).startAppend.length = 16 + 1) :=
  startAppend_then_exitInsert (windowAt fixtureSource 15) (by decide) (by decide)
    (by decide) (Or.inl (by decide))

/-! ## `deleteByte`: the calls it makes -/

theorem deleteByte_loop_succ (B : BufferOps β) (n : Nat) (w : Window β) :
    Window.deleteByte.loop B (n + 1) w =
      Window.deleteByte.loop B n
        (if w.cursor = w.length - 1 ∧ w.cursor > 0 then
          { w with buffer := B.Delete w.buffer w.cursor, length := w.length - 1,
                   cursor := w.cursor - 1 }
        else { w with buffer := B.Delete w.buffer w.cursor, length := w.length - 1 }) := by
  rw [Window.deleteByte.loop]

theorem deleteByte_loop_spec (B : BufferOps β) (n : Nat) (w : Window β)
    (hc : 0 ≤ w.cursor) (hn : (n : Int) ≤ w.length - w.cursor) :
    (Window.deleteByte.loop B n w).buffer = (fun b => B.Delete b w.cursor)^[n] w.buffer ∧
      (Window.deleteByte.loop B n w).length = w.length - n ∧
      (Window.deleteByte.loop B n w).cursor =
        (if 0 < n ∧ (n : Int) = w.length - w.cursor then MaxInt64 (w.cursor - 1) 0
          else w.cursor) := by
  induction n generalizing w with
  | zero =>
    refine ⟨rfl, ?_, ?_⟩
    · simp [Window.deleteByte.loop]
    · simp [Window.deleteByte.loop]
  | succ n ih =>
    rw [deleteByte_loop_succ]
    push_cast at hn ⊢
    rcases Nat.eq_zero_or_pos n with h0 | hpos
    · subst h0
      simp only [Window.deleteByte.loop, Function.iterate_succ, Function.iterate_zero,
        Function.comp_apply, id_eq]
      clear ih
      rw [MaxInt64_eq]
      simp only [Nat.cast_zero, zero_add, Nat.lt_one_iff, true_and] at hn ⊢
      split_ifs <;> refine ⟨rfl, ?_, ?_⟩ <;> dsimp only <;> omega
    · have hne : ¬ (w.cursor = w.length - 1 ∧ w.cursor > 0) := by omega
      rw [if_neg hne]
      obtain ⟨i1, i2, i3⟩ := ih
        ({ w with buffer := B.Delete w.buffer w.cursor, length := w.length - 1 } : Window β)
        hc (by dsimp only; omega)
      dsimp only at i1 i2 i3
      rw [i1, i2, i3]
      refine ⟨rfl, by omega, ?_⟩
      split_ifs <;> first | rfl | omega

theorem traced_Delete_iterate (B : BufferOps β) (i : Int) (n : Nat) (x : β)
    (l : List Call) :
    (fun b => B.traced.Delete b i)^[n] (x, l) =
      ((fun b => B.Delete b i)^[n] x, l ++ List.replicate n (Call.Delete i)) := by
  induction n generalizing x l with
  | zero => simp
  | succ n ih =>
    rw [Function.iterate_succ_apply, Function.iterate_succ_apply]
    show (fun b => B.traced.Delete b i)^[n] (B.Delete x i, l ++ [Call.Delete i]) = _
    rw [ih, List.replicate_succ, List.append_assoc, List.singleton_append]

/-- C16: on a window with `width > 0`, `length > 0` and `0 <= cursor < length`, for
every count, `deleteByte(count)` calls `Delete` exactly
`n = min(max(count,1), width - cursor % width, length - cursor)` times and makes no
other editing call, every time at the cursor held before the call; `n >= 1`; the length
goes down by `n`; afterwards `cursor <= max(length - 1, 0)`, and the cursor is the old
one unless the deletion reached the end of the buffer (`n = length - cursor`), when it
is `max(cursor - 1, 0)`.  With `length == 0`, `deleteByte` does nothing. -/
theorem deleteByte_calls (B : BufferOps β) (w : Window (β × List Call)) (count : Int)
    (hw : 0 < w.width) (hl : 0 < w.length) (hc : 0 ≤ w.cursor) (hcl : w.cursor < w.length) :
    1 ≤ MinInt64 (MinInt64 (MaxInt64 count 1) (w.width - w.cursor.tmod w.width))
        (w.length - w.cursor) ∧
      (w.deleteByte B.traced count).buffer =
        ((fun b => B.Delete b w.cursor)^[(MinInt64 (MinInt64 (MaxInt64 count 1)
            (w.width - w.cursor.tmod w.width)) (w.length - w.cursor)).toNat] w.buffer.1,
          w.buffer.2 ++ List.replicate (MinInt64 (MinInt64 (MaxInt64 count 1)
            (w.width - w.cursor.tmod w.width)) (w.length - w.cursor)).toNat
            (Call.Delete w.cursor)) ∧
      (w.deleteByte B.traced count).length =
        w.length - MinInt64 (MinInt64 (MaxInt64 count 1) (w.width - w.cursor.tmod w.width))
          (w.length - w.cursor) ∧
      (w.deleteByte B.traced count).cursor ≤
        MaxInt64 ((w.deleteByte B.traced count).length - 1) 0 ∧
      (w.deleteByte B.traced count).cursor =
        (if MinInt64 (MinInt64 (MaxInt64 count 1) (w.width - w.cursor.tmod w.width))
            (w.length - w.cursor) = w.length - w.cursor
          then MaxInt64 (w.cursor - 1) 0 else w.cursor) ∧
      (∀ w0 : Window (β × List Call), w0.length = 0 → w0.deleteByte B.traced count = w0) := by
  obtain ⟨-, -, -, r0, r1, -⟩ := tdiv_facts w.cursor w.width hc hw
  generalize hn : MinInt64 (MinInt64 (MaxInt64 count 1) (w.width - w.cursor.tmod w.width))
    (w.length - w.cursor) = n
  have hn1 : 1 ≤ n := by
    rw [← hn, MinInt64_eq, MinInt64_eq, MaxInt64_eq]; omega
  have hn2 : n ≤ w.length - w.cursor := by
    rw [← hn, MinInt64_eq]; omega
  have hcast : ((n.toNat : Nat) : Int) = n := Int.toNat_of_nonneg (by omega)
  obtain ⟨s1, s2, s3⟩ := deleteByte_loop_spec B.traced n.toNat w hc (by rw [hcast]; exact hn2)
  have e : w.deleteByte B.traced count = Window.deleteByte.loop B.traced n.toNat w := by
    unfold Window.deleteByte
    rw [if_neg (by omega)]
    dsimp only
    rw [hn]
  rw [e, s1, s2, s3, hcast]
  refine ⟨hn1, ?_, rfl, ?_, ?_, ?_⟩
  · exact traced_Delete_iterate B w.cursor n.toNat w.buffer.1 w.buffer.2
  · rw [MaxInt64_eq, MaxInt64_eq]
    split_ifs <;> omega
  · have hpos : 0 < n.toNat := by omega
    simp only [hpos, true_and]
  · intro w0 h0
    unfold Window.deleteByte
    rw [if_pos h0]

theorem deleteByte_calls_witness :
    (tracedWindow.deleteByte Buffer.ops.traced 3).length = 16 - 3 ∧
      (tracedWindow.deleteByte Buffer.ops.traced 3).buffer =
        ((fun b => Buffer.ops.Delete b 0)^[3] (NewBuffer fixtureSource),
          [] ++ List.replicate 3 (Call.Delete 0)) :=
  ⟨(deleteByte_calls Buffer.ops tracedWindow 3 (by decide) (by decide) (by decide)
      (by decide)).2.2.1,
    (deleteByte_calls Buffer.ops tracedWindow 3 (by decide) (by decide) (by decide)
      (by decide)).2.1⟩

/-! ## `increment` and `decrement` -/

theorem byte_add (x : Nat) (c : Int) :
    (x + ((MaxInt64 c 1).tmod 256).toNat) % 256 = (((x : Int) + MaxInt64 c 1) % 256).toNat := by
  have h1 : 1 ≤ MaxInt64 c 1 := by rw [MaxInt64_eq]; omega
  rw [Int.tmod_eq_emod (by omega) (by omega)]
  omega

theorem byte_sub (x : Nat) (c : Int) :
    (x + 256 - ((MaxInt64 c 1).tmod 256).toNat) % 256 =
      (((x : Int) - MaxInt64 c 1) % 256).toNat := by
  have h1 : 1 ≤ MaxInt64 c 1 := by rw [MaxInt64_eq]; omega
  rw [Int.tmod_eq_emod (by omega) (by omega)]
  omega

theorem byte_restore (x : Nat) (m : Int) (v : Nat)
    (hv : v = (((x : Int) + m) % 256).toNat) : (((v : Int) - m) % 256).toNat = x % 256 := by
  omega

theorem readBytes_traced (B : BufferOps β) (w : Window (β × List Call)) (pos : Int)
    (len : Nat) : (w.readBytes B.traced pos len).1.2 = w.buffer.2 := by
  unfold Window.readBytes
  dsimp only [BufferOps.traced]
  split
  · rename_i h1
    obtain ⟨rfl, -⟩ := Prod.mk.inj h1
    split <;> rename_i h2 <;> obtain ⟨rfl, -⟩ := Prod.mk.inj h2 <;> rfl
  · rename_i h1
    obtain ⟨rfl, -⟩ := Prod.mk.inj h1
    rfl

theorem increment_eq (B : BufferOps β) (w : Window β) (c : Int) (b1 : β) (n : Nat)
    (bytes : List Nat) (hread : w.readBytes B w.cursor 1 = (b1, n, bytes, Err.nil)) :
    w.increment B c =
      { w with
        buffer := B.Replace b1 w.cursor ((((bytes.getD 0 0 : Nat) : Int) + MaxInt64 c 1) % 256).toNat,
        length := if w.length = 0 then 1 else w.length } := by
  unfold Window.increment
  rw [hread]
  dsimp only
  rw [byte_add]
  split_ifs with h
  · simp [h]
  · rfl

theorem decrement_eq (B : BufferOps β) (w : Window β) (c : Int) (b1 : β) (n : Nat)
    (bytes : List Nat) (hread : w.readBytes B w.cursor 1 = (b1, n, bytes, Err.nil)) :
    w.decrement B c =
      { w with
        buffer := B.Replace b1 w.cursor ((((bytes.getD 0 0 : Nat) : Int) - MaxInt64 c 1) % 256).toNat,
        length := if w.length = 0 then 1 else w.length } := by
  unfold Window.decrement
  rw [hread]
  dsimp only
  rw [byte_sub]
  split_ifs with h
  · simp [h]
  · rfl

/-- C17: when the read of one byte at the cursor succeeds and gives the byte `x` (the
destination is zeroed before the read, so `x = 0` when nothing is read), for every
count: `increment(count)` makes one editing call, `Replace(cursor, (x + max(count,1))
mod 256)`, and `decrement(count)` makes one, `Replace(cursor, (x - max(count,1)) mod
256)`; cursor and offset stay, and the length changes only from 0 to 1.  When the
buffer then gives back the byte that `increment` wrote, `decrement(count)` after
`increment(count)` writes `x` again. -/
theorem increment_decrement_calls (B : BufferOps β) (w : Window (β × List Call))
    (count : Int) (b1 : β × List Call) (n : Nat) (bytes : List Nat)
    (hread : w.readBytes B.traced w.cursor 1 = (b1, n, bytes, Err.nil)) :
    (w.increment B.traced count).buffer =
        (B.Replace b1.1 w.cursor
            ((((bytes.getD 0 0 : Nat) : Int) + MaxInt64 count 1) % 256).toNat,
          w.buffer.2 ++ [Call.Replace w.cursor
            ((((bytes.getD 0 0 : Nat) : Int) + MaxInt64 count 1) % 256).toNat]) ∧
      (w.decrement B.traced count).buffer =
        (B.Replace b1.1 w.cursor
            ((((bytes.getD 0 0 : Nat) : Int) - MaxInt64 count 1) % 256).toNat,
          w.buffer.2 ++ [Call.Replace w.cursor
            ((((bytes.getD 0 0 : Nat) : Int) - MaxInt64 count 1) % 256).toNat]) ∧
      (w.increment B.traced count).cursor = w.cursor ∧
      (w.increment B.traced count).offset = w.offset ∧
      (w.decrement B.traced count).cursor = w.cursor ∧
      (w.decrement B.traced count).offset = w.offset ∧
      (w.increment B.traced count).length = (if w.length = 0 then 1 else w.length) ∧
      (w.decrement B.traced count).length = (if w.length = 0 then 1 else w.length) ∧
      (∀ (b2 : β × List Call) (n2 : Nat) (bytes2 : List Nat),
        (w.increment B.traced count).readBytes B.traced w.cursor 1 =
            (b2, n2, bytes2, Err.nil) →
          bytes2.getD 0 0 = ((((bytes.getD 0 0 : Nat) : Int) + MaxInt64 count 1) % 256).toNat →
          ((w.increment B.traced count).decrement B.traced count).buffer =
            (B.Replace b2.1 w.cursor (bytes.getD 0 0 % 256),
              w.buffer.2 ++ [Call.Replace w.cursor
                  ((((bytes.getD 0 0 : Nat) : Int) + MaxInt64 count 1) % 256).toNat,
                Call.Replace w.cursor (bytes.getD 0 0 % 256)])) := by
  have hlog := readBytes_traced B w w.cursor 1
  rw [hread] at hlog
  dsimp only at hlog
  have ei := increment_eq B.traced w count b1 n bytes hread
  have ed := decrement_eq B.traced w count b1 n bytes hread
  refine ⟨?_, ?_, ?_, ?_, ?_, ?_, ?_, ?_, ?_⟩
  · rw [ei, ← hlog]; rfl
  · rw [ed, ← hlog]; rfl
  · rw [ei]
  · rw [ei]
  · rw [ed]
  · rw [ed]
  · rw [ei]
  · rw [ed]
  · intro b2 n2 bytes2 h2 hx
    have hc : (w.increment B.traced count).cursor = w.cursor := by rw [ei]
    have hlog2 := readBytes_traced B (w.increment B.traced count) w.cursor 1
    rw [h2] at hlog2
    dsimp only at hlog2
    have hb : (w.increment B.traced count).buffer.2 =
        w.buffer.2 ++ [Call.Replace w.cursor
          ((((bytes.getD 0 0 : Nat) : Int) + MaxInt64 count 1) % 256).toNat] := by
      rw [ei, ← hlog]; rfl
    rw [← hc] at h2
    have e2 := decrement_eq B.traced (w.increment B.traced count) count b2 n2 bytes2 h2
    rw [e2]
    dsimp only
    rw [hc, byte_restore _ _ _ hx]
    show (B.Replace b2.1 w.cursor (bytes.getD 0 0 % 256), b2.2 ++ _) = _
    rw [hlog2, hb, List.append_assoc]
    rfl

theorem increment_decrement_calls_witness :
    (tracedWindow.increment Buffer.ops.traced 3).buffer.2 = [Call.Replace 0 0x33] ∧
      (tracedWindow.decrement Buffer.ops.traced 3).buffer.2 = [Call.Replace 0 0x2d] :=
  ⟨congrArg Prod.snd (increment_decrement_calls Buffer.ops tracedWindow 3
      ({ NewBuffer fixtureSource with index := 1 }, []) 1 [0x30] (by decide)).1,
    congrArg Prod.snd (increment_decrement_calls Buffer.ops tracedWindow 3
      ({ NewBuffer fixtureSource with index := 1 }, []) 1 [0x30] (by decide)).2.1⟩

/-- `readBytes` over a buffer with content `s`: it never fails, the buffer keeps its
content, and the bytes are those of `s` from `pos` on, then zeros. -/
theorem readBytes_content (w : Window Buffer) (s : List Nat) (pos : Int) (len : Nat)
    (hb : w.buffer.HasContent s) (hp : 0 ≤ pos) :
    (w.readBytes Buffer.ops pos len).2.2 =
        ((s.drop pos.toNat).take len ++
            List.replicate (len - ((s.drop pos.toNat).take len).length) 0, Err.nil) ∧
      (w.readBytes Buffer.ops pos len).1.HasContent s := by
  have h := readAt_content w.buffer s pos (List.replicate len 0) hb hp
  have hseek : Buffer.ops.Seek w.buffer pos Whence.SeekStart =
      ({ w.buffer with index := pos }, pos, Err.nil) := by
    simp [Buffer.ops, Buffer.Seek, not_lt.2 hp]
  have hs1 : (w.buffer.Seek pos Whence.SeekStart).1 = { w.buffer with index := pos } := by
    simp [Buffer.Seek, not_lt.2 hp]
  unfold Buffer.readAt at h
  rw [hs1] at h
  have hcont : ∀ b2 : Buffer, b2.source = w.buffer.source → b2.rrs = w.buffer.rrs →
      b2.tail = w.buffer.tail → b2.HasContent s := by
    intro b2 e1 e2 e3
    unfold Buffer.HasContent Buffer.Len Buffer.byteAt at hb ⊢
    rw [e1, e2, e3]
    exact hb
  have hrd : ∀ b : Buffer, Buffer.ops.Read b (List.replicate len 0) =
      b.Read (List.replicate len 0) := fun _ => rfl
  unfold Window.readBytes
  rw [hseek]
  dsimp only
  rw [hrd]
  generalize hr : ({ w.buffer with index := pos } : Buffer).Read (List.replicate len 0) = r at h
  have hsrc : r.1.source = w.buffer.source ∧ r.1.rrs = w.buffer.rrs ∧
      r.1.tail = w.buffer.tail := by
    rw [← hr]
    exact ⟨rfl, rfl, rfl⟩
  obtain ⟨b2, n, bytes2, err⟩ := r
  simp only [Prod.mk.injEq, List.length_replicate, List.drop_replicate] at h
  obtain ⟨h1, h2, h3⟩ := h
  have hb2 := hcont b2 hsrc.1 hsrc.2.1 hsrc.2.2
  subst h2
  by_cases he : ((s.drop pos.toNat).take len).length = 0 ∧ 0 < len
  · rw [if_pos he] at h3
    subst h3
    exact ⟨rfl, hb2⟩
  · rw [if_neg he] at h3
    subst h3
    exact ⟨rfl, hb2⟩
theorem readBytes_one_content (w : Window Buffer) (s : List Nat)
    (hb : w.buffer.HasContent s) (hc : 0 ≤ w.cursor) :
    ∃ b1 n bytes, w.readBytes Buffer.ops w.cursor 1 = (b1, n, bytes, Err.nil) ∧
      b1.HasContent s ∧ bytes.getD 0 0 = s.getD w.cursor.toNat 0 := by
  obtain ⟨h1, h2⟩ := readBytes_content w s w.cursor 1 hb hc
  generalize w.readBytes Buffer.ops w.cursor 1 = r at h1 h2
  obtain ⟨b1, n, bytes, err⟩ := r
  simp only [Prod.mk.injEq] at h1
  obtain ⟨e1, e2⟩ := h1
  subst e2
  refine ⟨b1, n, bytes, rfl, h2, ?_⟩
  rw [e1]
  by_cases hlt : w.cursor.toNat < s.length
  · have hd : (s.drop w.cursor.toNat).take 1 = [s[w.cursor.toNat]] := by
      rw [List.drop_eq_getElem_cons hlt]
      rfl
    rw [hd]
    simp [List.getD_eq_getElem?_getD, List.getElem?_eq_getElem hlt]
  · rw [List.drop_eq_nil_of_le (by omega)]
    simp [List.getD_eq_getElem?_getD, List.getElem?_eq_none (not_lt.1 hlt)]

/-- Over a buffer with content `s` and the cursor on a byte `x` of it, `increment`
leaves the content `s` with `(x + max(count,1)) mod 256` at the cursor, and `decrement`
the content `s` with `(x - max(count,1)) mod 256` there. -/
theorem increment_content (w : Window Buffer) (s : List Nat) (count : Int)
    (hb : w.buffer.HasContent s) (hc : 0 ≤ w.cursor) (hcl : w.cursor.toNat < s.length) :
    (w.increment Buffer.ops count).buffer.HasContent
        (s.set w.cursor.toNat
          ((((s.getD w.cursor.toNat 0 : Nat) : Int) + MaxInt64 count 1) % 256).toNat) ∧
      (w.decrement Buffer.ops count).buffer.HasContent
        (s.set w.cursor.toNat
          ((((s.getD w.cursor.toNat 0 : Nat) : Int) - MaxInt64 count 1) % 256).toNat) ∧
      (w.increment Buffer.ops count).cursor = w.cursor ∧
      (w.decrement Buffer.ops count).cursor = w.cursor := by
  obtain ⟨b1, n, bytes, hr, hb1, hx⟩ := readBytes_one_content w s hb hc
  have hrep : ∀ v, Buffer.ops.Replace b1 w.cursor v = b1.Replace w.cursor.toNat v := by
    intro v
    simp [Buffer.ops, not_lt.2 hc]
  rw [increment_eq Buffer.ops w count b1 n bytes hr,
    decrement_eq Buffer.ops w count b1 n bytes hr]
  dsimp only
  rw [hrep, hrep, hx]
  exact ⟨HasContent_Replace b1 s _ _ hb1 hcl, HasContent_Replace b1 s _ _ hb1 hcl, rfl, rfl⟩

/-- On a buffer with content `s` and the cursor on a byte of it, `increment(count)`
followed by `decrement(count)` gives back the content `s`. -/
theorem increment_then_decrement_content (w : Window Buffer) (s : List Nat) (count : Int)
    (hb : w.buffer.HasContent s) (hc : 0 ≤ w.cursor) (hcl : w.cursor.toNat < s.length)
    (hx : s.getD w.cursor.toNat 0 < 256) :
    ((w.increment Buffer.ops count).decrement Buffer.ops count).buffer.HasContent s := by
  obtain ⟨h1, -, h3, -⟩ := increment_content w s count hb hc hcl
  have h4 := (increment_content (w.increment Buffer.ops count) _ count h1
    (by rw [h3]; exact hc) (by rw [h3, List.length_set]; exact hcl)).2.1
  rw [h3] at h4
  have hv : (s.set w.cursor.toNat
      ((((s.getD w.cursor.toNat 0 : Nat) : Int) + MaxInt64 count 1) % 256).toNat).getD
        w.cursor.toNat 0 =
      ((((s.getD w.cursor.toNat 0 : Nat) : Int) + MaxInt64 count 1) % 256).toNat := by
    simp [List.getD_eq_getElem?_getD, hcl]
  rw [hv, byte_restore _ _ _ rfl, List.set_set, Nat.mod_eq_of_lt hx] at h4
  have hs : s.set w.cursor.toNat (s.getD w.cursor.toNat 0) = s := by
    rw [List.getD_eq_getElem?_getD, List.getElem?_eq_getElem hcl]
    apply List.ext_getElem?
    intro j
    by_cases hj : j = w.cursor.toNat
    · subst hj
      simp [hcl]
    · rw [List.getElem?_set_ne (fun h => hj h.symm)]
  rw [hs] at h4
  exact h4

/-! ## The first nibble -/

theorem insert_first (B : BufferOps β) (w : Window β) (mode : Mode) (b : Nat)
    (hp : w.pending = false) :
    w.insert B mode b = { w with pending := true, pendingByte := (b <<< 4) % 256 } := by
  unfold Window.insert
  rw [if_neg (by simp [hp])]

/-! ## The cached length follows the buffer -/

theorem ListBuffer_laws : LengthLaws ListBuffer.ops := by
  refine ⟨?_, ?_, ?_, ?_, ?_, ?_⟩
  · intro b o wh
    simp only [ListBuffer.ops, ListBuffer.Seek]
    split_ifs <;> rfl
  · intro b p
    rfl
  · intro b i h0 h1
    simp only [ListBuffer.ops, ListBuffer.Delete, if_neg (not_lt.2 h0)] at h1 ⊢
    rw [List.length_eraseIdx, if_pos (by omega)]
    omega
  · intro b i c h0 h1
    simp only [ListBuffer.ops, ListBuffer.Insert, if_neg (not_lt.2 h0)] at h1 ⊢
    rw [if_pos (by omega)]
    simp only [List.length_append, List.length_take, List.length_cons, List.length_drop]
    omega
  · intro b i c h0 h1
    simp only [ListBuffer.ops, ListBuffer.Replace, if_neg (not_lt.2 h0)] at h1 ⊢
    rw [if_pos (by omega)]
    simp
  · intro b c h0
    simp only [ListBuffer.ops, ListBuffer.Replace] at h0 ⊢
    have : b.bytes.length = 0 := by omega
    simp [this]

theorem readBytes_len (B : BufferOps β) (hL : LengthLaws B) (w : Window β) (pos : Int)
    (len : Nat) : (B.Len (w.readBytes B pos len).1).1 = (B.Len w.buffer).1 := by
  obtain ⟨l1, l2, -⟩ := hL
  have h1 := l1 w.buffer pos Whence.SeekStart
  unfold Window.readBytes
  dsimp only
  split
  · rename_i b1 _ hs
    rw [hs] at h1
    have h2 := l2 b1 (List.replicate len 0)
    split <;> rename_i hr <;> rw [hr] at h2 <;> dsimp only at h1 h2 ⊢ <;> omega
  · rename_i b1 _ _ _ hs
    rw [hs] at h1
    exact h1

theorem Delete_iterate_len (B : BufferOps β) (hL : LengthLaws B) (i : Int) (n : Nat)
    (b : β) (hi : 0 ≤ i) (hn : (n : Int) ≤ (B.Len b).1 - i) :
    (B.Len ((fun b => B.Delete b i)^[n] b)).1 = (B.Len b).1 - n := by
  induction n generalizing b with
  | zero => simp
  | succ n ih =>
    push_cast at hn ⊢
    have h1 := hL.2.2.1 b i hi (by omega)
    rw [Function.iterate_succ_apply, ih (B.Delete b i) (by rw [h1]; omega), h1]
    omega

theorem deleteByte_sync (B : BufferOps β) (hL : LengthLaws B) (w : Window β) (c : Int)
    (hs : LengthInSync B w) (hc : 0 ≤ w.cursor)
    (hcl : w.cursor < w.length ∨ (w.length = 0 ∧ w.cursor = 0)) :
    LengthInSync B (w.deleteByte B c) := by
  unfold Window.deleteByte
  split_ifs with h0
  · exact hs
  · dsimp only
    generalize hn : MinInt64 (MinInt64 (MaxInt64 c 1) (w.width - w.cursor.tmod w.width))
      (w.length - w.cursor) = n
    have hn2 : n ≤ w.length - w.cursor := by rw [← hn, MinInt64_eq]; omega
    have hle : ((n.toNat : Nat) : Int) ≤ w.length - w.cursor := by omega
    obtain ⟨s1, s2, -⟩ := deleteByte_loop_spec B n.toNat w hc hle
    unfold LengthInSync at hs ⊢
    rw [s1, s2, Delete_iterate_len B hL w.cursor n.toNat w.buffer hc (by rw [← hs]; exact hle),
      hs]

theorem deletePrevByte_loop_sync (B : BufferOps β) (hL : LengthLaws B) (n : Nat)
    (w : Window β) (hs : LengthInSync B w) (hn : (n : Int) ≤ w.cursor)
    (hcl : w.cursor ≤ w.length) : LengthInSync B (Window.deletePrevByte.loop B n w) := by
  induction n generalizing w with
  | zero => exact hs
  | succ n ih =>
    push_cast at hn
    rw [Window.deletePrevByte.loop]
    unfold LengthInSync at hs
    refine ih _ ?_ (by dsimp only; omega) (by dsimp only; omega)
    unfold LengthInSync
    dsimp only
    rw [hL.2.2.1 w.buffer (w.cursor - 1) (by omega) (by omega), hs]

theorem deletePrevByte_sync (B : BufferOps β) (hL : LengthLaws B) (w : Window β) (c : Int)
    (hs : LengthInSync B w) (hw : 0 < w.width) (hc : 0 ≤ w.cursor)
    (hcl : w.cursor < w.length ∨ (w.length = 0 ∧ w.cursor = 0)) :
    LengthInSync B (w.deletePrevByte B c) := by
  unfold Window.deletePrevByte
  exact deletePrevByte_loop_sync B hL _ w hs (deletePrevByte_count w c hw hc) (by omega)

theorem backspace_sync (B : BufferOps β) (hL : LengthLaws B) (w : Window β)
    (hs : LengthInSync B w)
    (hcl : w.cursor < w.length ∨ (w.length = 0 ∧ w.cursor = 0)) :
    LengthInSync B (w.backspace B) := by
  unfold Window.backspace
  unfold LengthInSync at hs
  split_ifs with h1 h2
  · exact hs
  · unfold LengthInSync
    dsimp only
    rw [hL.2.2.1 w.buffer (w.cursor - 1) (by omega) (by omega), hs]
  · exact hs

theorem increment_sync (B : BufferOps β) (hL : LengthLaws B) (w : Window β) (c : Int)
    (hs : LengthInSync B w) (hc : 0 ≤ w.cursor)
    (hcl : w.cursor < w.length ∨ (w.length = 0 ∧ w.cursor = 0)) :
    LengthInSync B (w.increment B c) ∧ LengthInSync B (w.decrement B c) := by
  have hr := readBytes_len B hL w w.cursor 1
  unfold LengthInSync at hs
  constructor
  · unfold Window.increment
    split
    · rename_i b1 _ bytes he
      rw [he] at hr
      dsimp only at hr ⊢
      unfold LengthInSync
      split_ifs with h0
      · dsimp only
        have hc0 : w.cursor = 0 := by omega
        rw [hc0, hL.2.2.2.2.2 b1 _ (by omega), h0]
        rfl
      · dsimp only
        rw [hL.2.2.2.2.1 b1 w.cursor _ hc (by omega), hr, hs]
    · rename_i b1 _ _ _ he
      rw [he] at hr
      unfold LengthInSync
      exact hs.trans hr.symm
  · unfold Window.decrement
    split
    · rename_i b1 _ bytes he
      rw [he] at hr
      dsimp only at hr ⊢
      unfold LengthInSync
      split_ifs with h0
      · dsimp only
        have hc0 : w.cursor = 0 := by omega
        rw [hc0, hL.2.2.2.2.2 b1 _ (by omega), h0]
        rfl
      · dsimp only
        rw [hL.2.2.2.2.1 b1 w.cursor _ hc (by omega), hr, hs]
    · rename_i b1 _ _ _ he
      rw [he] at hr
      unfold LengthInSync
      exact hs.trans hr.symm

theorem insert_twice_sync (B : BufferOps β) (hL : LengthLaws B) (w : Window β)
    (hi lo : Nat) (hs : LengthInSync B w) (hc : 0 ≤ w.cursor)
    (hcl : w.cursor < w.length ∨ (w.length = 0 ∧ w.cursor = 0))
    (hp : w.pending = false) :
    LengthInSync B ((w.insert B Mode.ModeInsert hi).insert B Mode.ModeInsert lo) := by
  rw [insert_first B w Mode.ModeInsert hi hp]
  unfold LengthInSync at hs ⊢
  unfold Window.insert Window.insert.switch
  dsimp only
  rw [if_pos rfl]
  have h := hL.2.2.2.1 w.buffer w.cursor ((hi <<< 4) % 256 ||| lo) hc (by omega)
  split_ifs <;> (dsimp only; omega)

/-- C19: with the buffer a list of bytes under the edit semantics of section 4.1, on a
window whose cached length is the length of its buffer, with `width > 0`, `0 <= cursor`
and `cursor < length` or `length == 0` and `cursor == 0`: after `deleteByte(c)`, after
`deletePrevByte(c)`, after `increment(c)`, after `decrement(c)`, and, when `pending` is
false, after `backspace` and after the two calls of `insert` in `ModeInsert` that commit
one byte, the cached length is again the length of the buffer. -/
theorem cached_length_follows_buffer (w : Window ListBuffer) (c : Int) (hi lo : Nat)
    (hs : LengthInSync ListBuffer.ops w) (hw : 0 < w.width) (hc : 0 ≤ w.cursor)
    (hcl : w.cursor < w.length ∨ (w.length = 0 ∧ w.cursor = 0)) :
    LengthInSync ListBuffer.ops (w.deleteByte ListBuffer.ops c) ∧
      LengthInSync ListBuffer.ops (w.deletePrevByte ListBuffer.ops c) ∧
      LengthInSync ListBuffer.ops (w.increment ListBuffer.ops c) ∧
      LengthInSync ListBuffer.ops (w.decrement ListBuffer.ops c) ∧
      (w.pending = false →
        LengthInSync ListBuffer.ops (w.backspace ListBuffer.ops) ∧
        LengthInSync ListBuffer.ops
          ((w.insert ListBuffer.ops Mode.ModeInsert hi).insert ListBuffer.ops
            Mode.ModeInsert lo)) := by
  have hL := ListBuffer_laws
  exact ⟨deleteByte_sync _ hL w c hs hc hcl, deletePrevByte_sync _ hL w c hs hw hc hcl,
    (increment_sync _ hL w c hs hc hcl).1, (increment_sync _ hL w c hs hc hcl).2,
    fun hp => ⟨backspace_sync _ hL w hs hcl, insert_twice_sync _ hL w hi lo hs hc hcl hp⟩⟩

theorem cached_length_follows_buffer_witness :
    LengthInSync ListBuffer.ops ((listWindow (ascii "abc") 2).deleteByte ListBuffer.ops 5) ∧
      LengthInSync ListBuffer.ops
        ((listWindow (ascii "abc") 2).deletePrevByte ListBuffer.ops 5) ∧
      LengthInSync ListBuffer.ops ((listWindow (ascii "abc") 2).increment ListBuffer.ops 5) ∧
      LengthInSync ListBuffer.ops ((listWindow (ascii "abc") 2).decrement ListBuffer.ops 5) ∧
      ((listWindow (ascii "abc") 2).pending = false →
        LengthInSync ListBuffer.ops ((listWindow (ascii "abc") 2).backspace ListBuffer.ops) ∧
        LengthInSync ListBuffer.ops
          (((listWindow (ascii "abc") 2).insert ListBuffer.ops Mode.ModeInsert 4).insert
            ListBuffer.ops Mode.ModeInsert 1)) :=
  cached_length_follows_buffer (listWindow (ascii "abc") 2) 5 4 1 rfl (by decide)
    (by decide) (Or.inl (by decide))

/-! ## The methods agree with exact arithmetic on small windows -/

theorem wrap64_eq (x : Int) (h1 : -9223372036854775808 ≤ x)
    (h2 : x ≤ 9223372036854775807) : wrap64 x = x := by
  unfold wrap64
  omega

theorem tdiv_mul_bounds (x w : Int) (hw : 0 < w) :
    min x 0 ≤ x.tdiv w * w ∧ x.tdiv w * w ≤ max x 0 ∧
      min x 0 ≤ x.tdiv w ∧ x.tdiv w ≤ max x 0 ∧
      min x 0 ≤ x.tmod w ∧ x.tmod w ≤ max x 0 ∧ -w < x.tmod w ∧ x.tmod w < w := by
  have e := Int.tdiv_add_tmod' x w
  by_cases hx : 0 ≤ x
  · have h2 := Int.tmod_nonneg w hx
    have h3 := Int.tmod_lt_of_pos x hw
    have h4 := Int.tdiv_nonneg hx hw.le
    have h5 := mul_mono_right hw (show (0 : Int) ≤ x.tdiv w from h4)
    have h6 : x.tdiv w ≤ x.tdiv w * w := by
      have := mul_le_mul_of_nonneg_left (show (1 : Int) ≤ w by omega) h4
      rwa [mul_one] at this
    refine ⟨by omega, by omega, by omega, by omega, by omega, by omega, by omega, by omega⟩
  · have e2 : x.tdiv w = -((-x).tdiv w) := by
      rw [← Int.neg_tdiv, neg_neg]
    have hx2 : 0 ≤ -x := by omega
    have e4 := Int.tdiv_add_tmod' (-x) w
    have h2 := Int.tmod_nonneg w hx2
    have h3 := Int.tmod_lt_of_pos (-x) hw
    have h4 := Int.tdiv_nonneg hx2 hw.le
    have h5 := mul_mono_right hw (show (0 : Int) ≤ (-x).tdiv w from h4)
    have h6 : (-x).tdiv w ≤ (-x).tdiv w * w := by
      have := mul_le_mul_of_nonneg_left (show (1 : Int) ≤ w by omega) h4
      rwa [mul_one] at this
    rw [e2, neg_mul] at e ⊢
    refine ⟨by omega, by omega, by omega, by omega, by omega, by omega, by omega, by omega⟩

theorem clamp_mul (c x w : Int) (hw : 0 < w) :
    min (x * w) 0 ≤ MinInt64 (MaxInt64 c 1) x * w ∧
      MinInt64 (MaxInt64 c 1) x * w ≤ max (x * w) 0 := by
  by_cases hx : 1 ≤ x
  · have h1 : MinInt64 (MaxInt64 c 1) x ≤ x := by rw [MinInt64_eq]; omega
    have h2 : 0 ≤ MinInt64 (MaxInt64 c 1) x := by rw [MinInt64_eq, MaxInt64_eq]; omega
    have p1 := mul_mono_right hw h1
    have p2 := mul_nonneg h2 hw.le
    omega
  · have e : MinInt64 (MaxInt64 c 1) x = x := by rw [MinInt64_eq, MaxInt64_eq]; omega
    rw [e]
    omega

theorem cursorUp_small (w : Window β) (c : Int) (hS : w.Small) :
    w.cursorUp c = w.cursorUpZ c := by
  obtain ⟨hw, hh, hhw, ho1, ho2, hc1, hc2, hl1, hl2⟩ := hS
  have t1 := tdiv_mul_bounds w.cursor w.width hw
  have k1 := clamp_mul c (w.cursor.tdiv w.width) w.width hw
  have t2 := tdiv_mul_bounds
    (w.cursor - MinInt64 (MaxInt64 c 1) (w.cursor.tdiv w.width) * w.width) w.width hw
  unfold Window.cursorUp Window.cursorUpZ
  simp (disch := omega) only [add64, sub64, mul64, wrap64_eq]

theorem cursorLeft_small (w : Window β) (c : Int) (hS : w.Small) :
    w.cursorLeft c = w.cursorLeftZ c := by
  obtain ⟨hw, hh, hhw, ho1, ho2, hc1, hc2, hl1, hl2⟩ := hS
  have t1 := tdiv_mul_bounds w.cursor w.width hw
  have m1 := MinInt64_eq (MaxInt64 c 1) (w.cursor.tmod w.width)
  have m2 := MaxInt64_eq c 1
  unfold Window.cursorLeft Window.cursorLeftZ
  simp (disch := omega) only [add64, sub64, mul64, wrap64_eq]

theorem cursorHead_small (w : Window β) (c : Int) (hS : w.Small) :
    w.cursorHead c = w.cursorHeadZ c := by
  obtain ⟨hw, hh, hhw, ho1, ho2, hc1, hc2, hl1, hl2⟩ := hS
  have t1 := tdiv_mul_bounds w.cursor w.width hw
  unfold Window.cursorHead Window.cursorHeadZ
  simp (disch := omega) only [add64, sub64, mul64, wrap64_eq]

theorem cursorRight_small (w : Window β) (c : Int) (hS : w.Small) :
    w.cursorRight c = w.cursorRightZ c := by
  obtain ⟨hw, hh, hhw, ho1, ho2, hc1, hc2, hl1, hl2⟩ := hS
  have t1 := tdiv_mul_bounds w.cursor w.width hw
  have p := mul_mono_right hw (show (1 : Int) ≤ w.height by omega)
  have m0 := MaxInt64_eq w.length 1
  have m1 := MinInt64_eq (MinInt64 (MaxInt64 c 1) (w.width - 1 - w.cursor.tmod w.width))
    (MaxInt64 w.length 1 - 1 - w.cursor)
  have m2 := MinInt64_eq (MaxInt64 c 1) (w.width - 1 - w.cursor.tmod w.width)
  have m3 := MaxInt64_eq c 1
  unfold Window.cursorRight Window.cursorRightZ
  simp (disch := omega) only [add64, sub64, mul64, wrap64_eq]

theorem cursorPrev_small (w : Window β) (c : Int) (hS : w.Small) :
    w.cursorPrev c = w.cursorPrevZ c := by
  obtain ⟨hw, hh, hhw, ho1, ho2, hc1, hc2, hl1, hl2⟩ := hS
  have m1 := MinInt64_eq (MaxInt64 c 1) w.cursor
  have m2 := MaxInt64_eq c 1
  have t2 := tdiv_mul_bounds (w.cursor - MinInt64 (MaxInt64 c 1) w.cursor) w.width hw
  unfold Window.cursorPrev Window.cursorPrevZ
  simp (disch := omega) only [add64, sub64, mul64, wrap64_eq]

theorem tdiv_mul_le (x w k : Int) (hw : 0 < w) (h1 : -k ≤ x) (h2 : x ≤ k) :
    -k ≤ x.tdiv w * w ∧ x.tdiv w * w ≤ k ∧ -k ≤ x.tdiv w ∧ x.tdiv w ≤ k ∧
      -k ≤ x.tmod w ∧ x.tmod w ≤ k := by
  obtain ⟨a1, a2, a3, a4, a5, a6, -, -⟩ := tdiv_mul_bounds x w hw
  refine ⟨by omega, by omega, by omega, by omega, by omega, by omega⟩

theorem clamp_mul_le (c x w k : Int) (hw : 0 < w) (h1 : -k ≤ x * w) (h2 : x * w ≤ k) :
    -k ≤ MinInt64 (MaxInt64 c 1) x * w ∧ MinInt64 (MaxInt64 c 1) x * w ≤ k := by
  obtain ⟨a1, a2⟩ := clamp_mul c x w hw
  constructor <;> omega

theorem MinInt64_le (a b k : Int) (h1 : -k ≤ a) (h2 : -k ≤ b) (h3 : b ≤ k) :
    -k ≤ MinInt64 a b ∧ MinInt64 a b ≤ k := by
  rw [MinInt64_eq]
  constructor <;> omega

theorem MaxInt64_one (a k : Int) (h2 : a ≤ k) (h3 : 1 ≤ k) :
    1 ≤ MaxInt64 a 1 ∧ MaxInt64 a 1 ≤ k := by
  rw [MaxInt64_eq]
  constructor <;> omega

theorem dims_le (h w : Int) (hh : 0 < h) (hw : 0 < w) : w ≤ h * w ∧ h ≤ h * w := by
  constructor <;> nlinarith

theorem cursorNext_small (w : Window β) (c : Int) (hS : w.Small) :
    w.cursorNext c = w.cursorNextZ c := by
  obtain ⟨hw, hh, hhw, ho1, ho2, hc1, hc2, hl1, hl2⟩ := hS
  obtain ⟨l1, l2⟩ := MaxInt64_one w.length 72057594037927936 hl2 (by omega)
  obtain ⟨c1, -⟩ := MaxInt64_one c (MaxInt64 c 1) (by rw [MaxInt64_eq]; omega)
    (by rw [MaxInt64_eq]; omega)
  obtain ⟨m1, m2⟩ := MinInt64_le (MaxInt64 c 1) (MaxInt64 w.length 1 - 1 - w.cursor)
    288230376151711744 (by omega) (by omega) (by omega)
  have p := mul_pos hh hw
  obtain ⟨d1, d2⟩ := dims_le w.height w.width hh hw
  obtain ⟨t1, t2, -⟩ := tdiv_mul_le
    (w.cursor + MinInt64 (MaxInt64 c 1) (MaxInt64 w.length 1 - 1 - w.cursor) -
      w.height * w.width + w.width) w.width 1152921504606846976 hw (by omega) (by omega)
  unfold Window.cursorNext Window.cursorNextZ
  simp (disch := omega) only [add64, sub64, mul64, wrap64_eq]

theorem cursorDown_small (w : Window β) (c : Int) (hS : w.Small) :
    w.cursorDown c = w.cursorDownZ c := by
  obtain ⟨hw, hh, hhw, ho1, ho2, hc1, hc2, hl1, hl2⟩ := hS
  have p := mul_pos hh hw
  obtain ⟨d1, d2⟩ := dims_le w.height w.width hh hw
  obtain ⟨l1, l2⟩ := MaxInt64_one w.length 72057594037927936 hl2 (by omega)
  obtain ⟨a1, a2, a3, a4, -⟩ := tdiv_mul_le (MaxInt64 w.length 1 - 1) w.width
    72057594037927936 hw (by omega) (by omega)
  obtain ⟨b1, b2, b3, b4, -⟩ := tdiv_mul_le w.cursor w.width 72057594037927936 hw hc1 hc2
  have e1 : ((MaxInt64 w.length 1 - 1).tdiv w.width - w.cursor.tdiv w.width) * w.width =
      (MaxInt64 w.length 1 - 1).tdiv w.width * w.width - w.cursor.tdiv w.width * w.width := by
    ring
  obtain ⟨k1, k2⟩ := clamp_mul_le c
    ((MaxInt64 w.length 1 - 1).tdiv w.width - w.cursor.tdiv w.width) w.width
    288230376151711744 hw (by omega) (by omega)
  obtain ⟨m1, m2⟩ := MinInt64_le
    (MinInt64 (MaxInt64 c 1)
      ((MaxInt64 w.length 1 - 1).tdiv w.width - w.cursor.tdiv w.width) * w.width)
    (MaxInt64 w.length 1 - 1 - w.cursor) 288230376151711744 (by omega) (by omega) (by omega)
  obtain ⟨t1, t2, -⟩ := tdiv_mul_le
    (w.cursor + MinInt64
      (MinInt64 (MaxInt64 c 1)
        ((MaxInt64 w.length 1 - 1).tdiv w.width - w.cursor.tdiv w.width) * w.width)
      (MaxInt64 w.length 1 - 1 - w.cursor) - w.height * w.width + w.width) w.width
    1152921504606846976 hw (by omega) (by omega)
  unfold Window.cursorDown Window.cursorDownZ
  simp (disch := omega) only [add64, sub64, mul64, wrap64_eq]

theorem row_count_le (x m w : Int) (hw : 0 < w) (hm : 1 ≤ m)
    (hx : -72057594037927936 ≤ x) (hxw : -72057594037927936 ≤ x * w)
    (h : (x + m) * w ≤ 9223372036854775807) :
    -72057594037927936 ≤ x + m ∧ x + m ≤ 9223372036854775807 ∧
      -72057594037927936 ≤ (x + m) * w := by
  have h1 : -72057594037927936 ≤ x + m := by omega
  have h2 : 0 ≤ m * w := mul_nonneg (by omega) hw.le
  have e : (x + m) * w = x * w + m * w := by ring
  refine ⟨h1, ?_, by omega⟩
  by_contra hc
  push_neg at hc
  have : (x + m) * 1 ≤ (x + m) * w := mul_le_mul_of_nonneg_left (by omega) (by omega)
  omega

theorem cursorEnd_small (w : Window β) (c : Int) (hS : w.Small)
    (hr : (Op.cursorEnd c).countInRange w) : w.cursorEnd c = w.cursorEndZ c := by
  obtain ⟨hw, hh, hhw, ho1, ho2, hc1, hc2, hl1, hl2⟩ := hS
  have p := mul_pos hh hw
  obtain ⟨d1, d2⟩ := dims_le w.height w.width hh hw
  obtain ⟨l1, l2⟩ := MaxInt64_one w.length 72057594037927936 hl2 (by omega)
  obtain ⟨c1, -⟩ := MaxInt64_one c (MaxInt64 c 1) (by rw [MaxInt64_eq]; omega)
    (by rw [MaxInt64_eq]; omega)
  obtain ⟨b1, b2, b3, b4, -⟩ := tdiv_mul_le w.cursor w.width 72057594037927936 hw hc1 hc2
  simp only [Op.countInRange] at hr
  obtain ⟨r1, r2, r3⟩ := row_count_le (w.cursor.tdiv w.width) (MaxInt64 c 1) w.width hw c1
    b3 b1 hr
  obtain ⟨m1, m2⟩ := MinInt64_le
    ((w.cursor.tdiv w.width + MaxInt64 c 1) * w.width - 1)
    (MaxInt64 w.length 1 - 1) 288230376151711744 (by omega) (by omega) (by omega)
  obtain ⟨t1, t2, -⟩ := tdiv_mul_le
    (MinInt64 ((w.cursor.tdiv w.width + MaxInt64 c 1) * w.width - 1)
      (MaxInt64 w.length 1 - 1) - w.height * w.width + w.width) w.width
    1152921504606846976 hw (by omega) (by omega)
  unfold Window.cursorEnd Window.cursorEndZ
  simp (disch := omega) only [add64, sub64, mul64, wrap64_eq]

theorem scrollUp_small (w : Window β) (c : Int) (hS : w.Small) :
    w.scrollUp c = w.scrollUpZ c := by
  obtain ⟨hw, hh, hhw, ho1, ho2, hc1, hc2, hl1, hl2⟩ := hS
  have p := mul_pos hh hw
  obtain ⟨d1, d2⟩ := dims_le w.height w.width hh hw
  obtain ⟨b1, b2, b3, b4, -⟩ := tdiv_mul_le w.offset w.width 72057594037927936 hw ho1 ho2
  obtain ⟨k1, k2⟩ := clamp_mul_le c (w.offset.tdiv w.width) w.width
    72057594037927936 hw (by omega) (by omega)
  obtain ⟨t1, t2, t3, t4, -⟩ := tdiv_mul_le
    (w.cursor - (w.offset - MinInt64 (MaxInt64 c 1) (w.offset.tdiv w.width) * w.width) -
      w.height * w.width) w.width 1152921504606846976 hw (by omega) (by omega)
  have e1 : ((w.cursor - (w.offset -
      MinInt64 (MaxInt64 c 1) (w.offset.tdiv w.width) * w.width) -
      w.height * w.width).tdiv w.width + 1) * w.width =
      (w.cursor - (w.offset - MinInt64 (MaxInt64 c 1) (w.offset.tdiv w.width) * w.width) -
      w.height * w.width).tdiv w.width * w.width + w.width := by
    ring
  unfold Window.scrollUp Window.scrollUpZ
  simp (disch := omega) only [add64, sub64, mul64, wrap64_eq]

theorem scrollDown_small (w : Window β) (c : Int) (hS : w.Small) :
    w.scrollDown c = w.scrollDownZ c := by
  obtain ⟨hw, hh, hhw, ho1, ho2, hc1, hc2, hl1, hl2⟩ := hS
  have p := mul_pos hh hw
  obtain ⟨d1, d2⟩ := dims_le w.height w.width hh hw
  obtain ⟨l1, l2⟩ := MaxInt64_one w.length 72057594037927936 hl2 (by omega)
  obtain ⟨a1, a2, a3, a4, -⟩ := tdiv_mul_le (MaxInt64 w.length 1 + w.width - 1) w.width
    288230376151711744 hw (by omega) (by omega)
  obtain ⟨b1, b2, b3, b4, -⟩ := tdiv_mul_le w.offset w.width 72057594037927936 hw ho1 ho2
  have e1 : ((MaxInt64 w.length 1 + w.width - 1).tdiv w.width - w.height -
      w.offset.tdiv w.width) * w.width =
      (MaxInt64 w.length 1 + w.width - 1).tdiv w.width * w.width - w.height * w.width -
        w.offset.tdiv w.width * w.width := by
    ring
  obtain ⟨k1, k2⟩ := clamp_mul_le c
    ((MaxInt64 w.length 1 + w.width - 1).tdiv w.width - w.height - w.offset.tdiv w.width)
    w.width 1152921504606846976 hw (by omega) (by omega)
  obtain ⟨t1, t2, -⟩ := tdiv_mul_le
    (w.offset + MinInt64 (MaxInt64 c 1)
      ((MaxInt64 w.length 1 + w.width - 1).tdiv w.width - w.height -
        w.offset.tdiv w.width) * w.width - w.cursor + w.width - 1) w.width
    2305843009213693952 hw (by omega) (by omega)
  obtain ⟨m1, m2⟩ := MinInt64_le
    ((w.offset + MinInt64 (MaxInt64 c 1)
      ((MaxInt64 w.length 1 + w.width - 1).tdiv w.width - w.height -
        w.offset.tdiv w.width) * w.width - w.cursor + w.width - 1).tdiv w.width * w.width)
    (MaxInt64 w.length 1 - 1 - w.cursor) 2305843009213693952 (by omega) (by omega) (by omega)
  unfold Window.scrollDown Window.scrollDownZ
  simp (disch := omega) only [add64, sub64, mul64, wrap64_eq]

theorem MaxInt64_le (a b k : Int) (h1 : a ≤ k) (h2 : -k ≤ b) (h3 : b ≤ k) :
    -k ≤ MaxInt64 a b ∧ MaxInt64 a b ≤ k ∧ b ≤ MaxInt64 a b := by
  rw [MaxInt64_eq]
  refine ⟨?_, ?_, ?_⟩ <;> omega

theorem part_rows (h w d : Int) (lo : Int) (hh : 0 < h) (hw : 0 < w) (hd : 1 < d)
    (hlo : 0 ≤ lo) (hlo1 : lo ≤ 1) :
    0 ≤ MaxInt64 (h.tdiv d) lo * w ∧ MaxInt64 (h.tdiv d) lo * w ≤ h * w := by
  have h1 : 0 ≤ MaxInt64 (h.tdiv d) lo := by rw [MaxInt64_eq]; omega
  have h2 : MaxInt64 (h.tdiv d) lo ≤ h := by
    have q : h.tdiv d ≤ h := by
      have a := Int.tdiv_add_tmod h d
      have b := Int.tmod_nonneg d hh.le
      have c : 0 ≤ h.tdiv d := Int.tdiv_nonneg hh.le (by omega)
      nlinarith
    rw [MaxInt64_eq]; omega
  exact ⟨mul_nonneg h1 hw.le, mul_le_mul_of_nonneg_right h2 hw.le⟩

theorem pageUp_small (w : Window β) (hS : w.Small) : w.pageUp = w.pageUpZ := by
  obtain ⟨hw, hh, hhw, ho1, ho2, hc1, hc2, hl1, hl2⟩ := hS
  have p := mul_pos hh hw
  obtain ⟨d1, d2⟩ := dims_le w.height w.width hh hw
  have e1 : (w.height - 2) * w.width = w.height * w.width - 2 * w.width := by ring
  have e2 : (w.height - 1) * w.width = w.height * w.width - w.width := by ring
  obtain ⟨m1, m2, -⟩ := MaxInt64_le (w.offset - (w.height - 2) * w.width) 0
    288230376151711744 (by omega) (by omega) (by omega)
  unfold Window.pageUp Window.pageUpZ
  simp (disch := omega) only [add64, sub64, mul64, wrap64_eq]

theorem pageUpHalf_small (w : Window β) (hS : w.Small) : w.pageUpHalf = w.pageUpHalfZ := by
  obtain ⟨hw, hh, hhw, ho1, ho2, hc1, hc2, hl1, hl2⟩ := hS
  have p := mul_pos hh hw
  obtain ⟨d1, d2⟩ := dims_le w.height w.width hh hw
  obtain ⟨r1, r2⟩ := part_rows w.height w.width 2 1 hh hw (by omega) (by omega) (by omega)
  have e2 : (w.height - 1) * w.width = w.height * w.width - w.width := by ring
  obtain ⟨m1, m2, -⟩ := MaxInt64_le (w.offset - MaxInt64 (w.height.tdiv 2) 1 * w.width) 0
    288230376151711744 (by omega) (by omega) (by omega)
  unfold Window.pageUpHalf Window.pageUpHalfZ
  simp (disch := omega) only [add64, sub64, mul64, wrap64_eq]

theorem pageDown_small (w : Window β) (hS : w.Small) : w.pageDown = w.pageDownZ := by
  obtain ⟨hw, hh, hhw, ho1, ho2, hc1, hc2, hl1, hl2⟩ := hS
  have p := mul_pos hh hw
  obtain ⟨d1, d2⟩ := dims_le w.height w.width hh hw
  obtain ⟨l1, l2⟩ := MaxInt64_one w.length 72057594037927936 hl2 (by omega)
  have e1 : (w.height - 2) * w.width = w.height * w.width - 2 * w.width := by ring
  obtain ⟨a1, a2, a3, a4, -⟩ := tdiv_mul_le (w.length + w.width - 1) w.width
    288230376151711744 hw (by omega) (by omega)
  have e3 : ((w.length + w.width - 1).tdiv w.width - w.height) * w.width =
      (w.length + w.width - 1).tdiv w.width * w.width - w.height * w.width := by ring
  obtain ⟨n1, n2, -⟩ := MaxInt64_le
    (((w.length + w.width - 1).tdiv w.width - w.height) * w.width) 0
    1152921504606846976 (by omega) (by omega) (by omega)
  obtain ⟨m1, m2⟩ := MinInt64_le (w.offset + (w.height - 2) * w.width)
    (MaxInt64 (((w.length + w.width - 1).tdiv w.width - w.height) * w.width) 0)
    1152921504606846976 (by omega) (by omega) (by omega)
  obtain ⟨b1, b2, b3, b4, -⟩ := tdiv_mul_le (MaxInt64 w.length 1 + w.width - 1) w.width
    288230376151711744 hw (by omega) (by omega)
  have e4 : ((MaxInt64 w.length 1 + w.width - 1).tdiv w.width - 1) * w.width =
      (MaxInt64 w.length 1 + w.width - 1).tdiv w.width * w.width - w.width := by ring
  unfold Window.pageDown Window.pageDownZ
  simp (disch := omega) only [add64, sub64, mul64, wrap64_eq]

theorem pageDownHalf_small (w : Window β) (hS : w.Small) :
    w.pageDownHalf = w.pageDownHalfZ := by
  obtain ⟨hw, hh, hhw, ho1, ho2, hc1, hc2, hl1, hl2⟩ := hS
  have p := mul_pos hh hw
  obtain ⟨d1, d2⟩ := dims_le w.height w.width hh hw
  obtain ⟨l1, l2⟩ := MaxInt64_one w.length 72057594037927936 hl2 (by omega)
  obtain ⟨r1, r2⟩ := part_rows w.height w.width 2 1 hh hw (by omega) (by omega) (by omega)
  obtain ⟨a1, a2, a3, a4, -⟩ := tdiv_mul_le (w.length + w.width - 1) w.width
    288230376151711744 hw (by omega) (by omega)
  have e3 : ((w.length + w.width - 1).tdiv w.width - w.height) * w.width =
      (w.length + w.width - 1).tdiv w.width * w.width - w.height * w.width := by ring
  obtain ⟨n1, n2, -⟩ := MaxInt64_le
    (((w.length + w.width - 1).tdiv w.width - w.height) * w.width) 0
    1152921504606846976 (by omega) (by omega) (by omega)
  obtain ⟨m1, m2⟩ := MinInt64_le (w.offset + MaxInt64 (w.height.tdiv 2) 1 * w.width)
    (MaxInt64 (((w.length + w.width - 1).tdiv w.width - w.height) * w.width) 0)
    1152921504606846976 (by omega) (by omega) (by omega)
  obtain ⟨b1, b2, b3, b4, -⟩ := tdiv_mul_le (MaxInt64 w.length 1 + w.width - 1) w.width
    288230376151711744 hw (by omega) (by omega)
  have e4 : ((MaxInt64 w.length 1 + w.width - 1).tdiv w.width - 1) * w.width =
      (MaxInt64 w.length 1 + w.width - 1).tdiv w.width * w.width - w.width := by ring
  unfold Window.pageDownHalf Window.pageDownHalfZ
  simp (disch := omega) only [add64, sub64, mul64, wrap64_eq]

theorem pageEnd_small (w : Window β) (hS : w.Small) : w.pageEnd = w.pageEndZ := by
  obtain ⟨hw, hh, hhw, ho1, ho2, hc1, hc2, hl1, hl2⟩ := hS
  have p := mul_pos hh hw
  obtain ⟨d1, d2⟩ := dims_le w.height w.width hh hw
  obtain ⟨l1, l2⟩ := MaxInt64_one w.length 72057594037927936 hl2 (by omega)
  obtain ⟨a1, a2, a3, a4, -⟩ := tdiv_mul_le (w.length + w.width - 1) w.width
    288230376151711744 hw (by omega) (by omega)
  have e3 : ((w.length + w.width - 1).tdiv w.width - w.height) * w.width =
      (w.length + w.width - 1).tdiv w.width * w.width - w.height * w.width := by ring
  obtain ⟨b1, b2, b3, b4, -⟩ := tdiv_mul_le (MaxInt64 w.length 1 + w.width - 1) w.width
    288230376151711744 hw (by omega) (by omega)
  have e4 : ((MaxInt64 w.length 1 + w.width - 1).tdiv w.width - 1) * w.width =
      (MaxInt64 w.length 1 + w.width - 1).tdiv w.width * w.width - w.width := by ring
  unfold Window.pageEnd Window.pageEndZ
  simp (disch := omega) only [add64, sub64, mul64, wrap64_eq]

theorem exitInsert_geometry (w : Window β) :
    w.exitInsert.width = w.width ∧ w.exitInsert.height = w.height ∧
      w.exitInsert.offset = w.offset ∧ w.cursor - 1 ≤ w.exitInsert.cursor ∧
      w.exitInsert.cursor ≤ w.cursor + 1 := by
  unfold Window.exitInsert
  dsimp only
  split_ifs <;> refine ⟨rfl, rfl, rfl, ?_, ?_⟩ <;> dsimp only <;> omega

theorem insert_switch_geometry (B : BufferOps β) (w : Window β) (mode : Mode) (b : Nat) :
    (Window.insert.switch B w mode b).width = w.width ∧
      (Window.insert.switch B w mode b).height = w.height ∧
      (Window.insert.switch B w mode b).offset = w.offset ∧
      w.cursor - 1 ≤ (Window.insert.switch B w mode b).cursor ∧
      (Window.insert.switch B w mode b).cursor ≤ w.cursor + 1 := by
  unfold Window.insert.switch
  cases mode
  · exact ⟨rfl, rfl, rfl, by dsimp only; omega, by dsimp only; omega⟩
  · exact ⟨rfl, rfl, rfl, by dsimp only; omega, by dsimp only; omega⟩
  · dsimp only
    split_ifs <;> first
      | exact exitInsert_geometry _
      | (refine ⟨rfl, rfl, rfl, ?_, ?_⟩ <;> dsimp only <;> omega)

theorem scroll_small (x : Window β) (hw : 0 < x.width) (hh : 0 < x.height)
    (hhw : x.height * x.width ≤ 72057594037927936)
    (ho1 : -1152921504606846976 ≤ x.offset) (ho2 : x.offset ≤ 1152921504606846976)
    (hc1 : -1152921504606846976 ≤ x.cursor) (hc2 : x.cursor ≤ 1152921504606846976) :
    (if x.cursor ≥ add64 x.offset (mul64 x.height x.width) then
      { x with
        offset := mul64
          ((add64 (sub64 x.cursor (mul64 x.height x.width)) x.width).tdiv x.width)
          x.width }
      else x) =
    (if x.cursor ≥ x.offset + x.height * x.width then
      { x with
        offset := (x.cursor - x.height * x.width + x.width).tdiv x.width * x.width }
      else x) := by
  have p := mul_pos hh hw
  obtain ⟨d1, d2⟩ := dims_le x.height x.width hh hw
  obtain ⟨t1, t2, -⟩ := tdiv_mul_le (x.cursor - x.height * x.width + x.width) x.width
    2305843009213693952 hw (by omega) (by omega)
  simp (disch := omega) only [add64, sub64, mul64, wrap64_eq]

theorem insert_small (B : BufferOps β) (w : Window β) (mode : Mode) (b : Nat)
    (hS : w.Small) : w.insert B mode b = w.insertZ B mode b := by
  obtain ⟨hw, hh, hhw, ho1, ho2, hc1, hc2, hl1, hl2⟩ := hS
  obtain ⟨g1, g2, g3, g4, g5⟩ := insert_switch_geometry B w mode b
  unfold Window.insert Window.insertZ
  split
  · dsimp only
    rw [scroll_small (Window.insert.switch B w mode b) (by rw [g1]; exact hw)
      (by rw [g2]; exact hh) (by rw [g1, g2]; exact hhw) (by rw [g3]; omega)
      (by rw [g3]; omega) (by omega) (by omega)]
  · rfl

theorem startAppend_bounded (w : Window β) (hw : 0 < w.width) (hh : 0 < w.height)
    (hhw : w.height * w.width ≤ 72057594037927936)
    (ho1 : -288230376151711744 ≤ w.offset) (ho2 : w.offset ≤ 288230376151711744)
    (hc1 : -288230376151711744 ≤ w.cursor) (hc2 : w.cursor ≤ 288230376151711744) :
    w.startAppend = w.startAppendZ := by
  unfold Window.startAppend Window.startAppendZ
  dsimp only
  apply scroll_small
  · split_ifs <;> exact hw
  · split_ifs <;> exact hh
  · split_ifs <;> exact hhw
  · split_ifs <;> dsimp only <;> omega
  · split_ifs <;> dsimp only <;> omega
  · split_ifs <;> dsimp only <;> omega
  · split_ifs <;> dsimp only <;> omega

theorem startAppend_small (w : Window β) (hS : w.Small) : w.startAppend = w.startAppendZ := by
  obtain ⟨hw, hh, hhw, ho1, ho2, hc1, hc2, hl1, hl2⟩ := hS
  exact startAppend_bounded w hw hh hhw (by omega) (by omega) (by omega) (by omega)

theorem startInsertHead_small (w : Window β) (hS : w.Small) :
    w.startInsertHead = w.startInsertHeadZ := by
  unfold Window.startInsertHead Window.startInsertHeadZ
  rw [cursorHead_small w 0 hS]

theorem cursorEndZ_geometry (w : Window β) (c : Int) (hS : w.Small) :
    (w.cursorEndZ c).width = w.width ∧ (w.cursorEndZ c).height = w.height ∧
      -288230376151711744 ≤ (w.cursorEndZ c).offset ∧
      (w.cursorEndZ c).offset ≤ 288230376151711744 ∧
      (w.cursorEndZ c).cursor ≤ 72057594037927936 ∧
      ((Op.cursorEnd c).countInRange w → -72057594037927936 - 1 ≤ (w.cursorEndZ c).cursor) := by
  obtain ⟨hw, hh, hhw, ho1, ho2, hc1, hc2, hl1, hl2⟩ := hS
  have p := mul_pos hh hw
  obtain ⟨d1, d2⟩ := dims_le w.height w.width hh hw
  obtain ⟨l1, l2⟩ := MaxInt64_one w.length 72057594037927936 hl2 (by omega)
  obtain ⟨c1, -⟩ := MaxInt64_one c (MaxInt64 c 1) (by rw [MaxInt64_eq]; omega)
    (by rw [MaxInt64_eq]; omega)
  obtain ⟨b1, b2, b3, b4, -⟩ := tdiv_mul_le w.cursor w.width 72057594037927936 hw hc1 hc2
  have h2 : 0 ≤ MaxInt64 c 1 * w.width := mul_nonneg (by omega) hw.le
  have e : (w.cursor.tdiv w.width + MaxInt64 c 1) * w.width =
      w.cursor.tdiv w.width * w.width + MaxInt64 c 1 * w.width := by ring
  have m := MinInt64_eq ((w.cursor.tdiv w.width + MaxInt64 c 1) * w.width - 1)
    (MaxInt64 w.length 1 - 1)
  obtain ⟨t1, t2, -⟩ := tdiv_mul_le
    (MinInt64 ((w.cursor.tdiv w.width + MaxInt64 c 1) * w.width - 1)
      (MaxInt64 w.length 1 - 1) - w.height * w.width + w.width) w.width
    288230376151711744 hw (by omega) (by omega)
  unfold Window.cursorEndZ
  dsimp only
  split_ifs
  · refine ⟨rfl, rfl, ?_, ?_, ?_, ?_⟩ <;> dsimp only <;> omega
  · refine ⟨rfl, rfl, ?_, ?_, ?_, ?_⟩ <;> dsimp only <;> omega

theorem startAppendEnd_small (w : Window β) (hS : w.Small) :
    w.startAppendEnd = w.startAppendEndZ := by
  have hr : (Op.cursorEnd 0).countInRange w := by
    obtain ⟨hw, hh, hhw, ho1, ho2, hc1, hc2, hl1, hl2⟩ := hS
    obtain ⟨d1, d2⟩ := dims_le w.height w.width hh hw
    obtain ⟨b1, b2, b3, b4, -⟩ := tdiv_mul_le w.cursor w.width 72057594037927936 hw hc1 hc2
    have e : (w.cursor.tdiv w.width + MaxInt64 0 1) * w.width =
        w.cursor.tdiv w.width * w.width + w.width := by
      rw [show MaxInt64 0 1 = 1 from rfl]; ring
    simp only [Op.countInRange]
    omega
  obtain ⟨g1, g2, g3, g4, g5, g6⟩ := cursorEndZ_geometry w 0 hS
  have g7 := g6 hr
  unfold Window.startAppendEnd Window.startAppendEndZ
  rw [cursorEnd_small w 0 hS hr]
  obtain ⟨hw, hh, hhw, -⟩ := hS
  exact startAppend_bounded _ (by rw [g1]; exact hw) (by rw [g2]; exact hh)
    (by rw [g1, g2]; exact hhw) g3 g4 (by omega) (by omega)

theorem jumpTo_small (B : BufferOps β) (w : Window β) (hS : w.Small) :
    w.jumpTo B = w.jumpToZ B := by
  obtain ⟨hw, hh, hhw, ho1, ho2, hc1, hc2, hl1, hl2⟩ := hS
  have p := mul_pos hh hw
  obtain ⟨d1, d2⟩ := dims_le w.height w.width hh hw
  obtain ⟨r1, r2⟩ := part_rows w.height w.width 3 0 hh hw (by omega) (by omega) (by omega)
  have e0 : sub64 w.cursor ((50 : Nat) : Int) = w.cursor - ((50 : Nat) : Int) := by
    unfold sub64
    exact wrap64_eq _ (by omega) (by omega)
  unfold Window.jumpTo Window.jumpToZ
  dsimp only
  rw [e0]
  split
  · split_ifs with h1 h2 h3
    · rfl
    · rfl
    · rfl
    · generalize ParseInt _ = off at h3 ⊢
      push_neg at h3
      obtain ⟨t1, t2, t3, t4, t5, t6⟩ := tdiv_mul_le off w.width
        72057594037927936 hw (by have := h3.1; omega) (by have := h3.2; omega)
      simp (disch := omega) only [add64, sub64, mul64, wrap64_eq]
  · rfl

theorem apply_small (B : BufferOps β) (w : Window β) (op : Op) (h : op.inRange w) :
    w.apply B op = w.applyZ B op := by
  obtain ⟨hS, hr⟩ := h
  cases op with
  | cursorUp c => exact cursorUp_small w c hS
  | cursorDown c => exact cursorDown_small w c hS
  | cursorLeft c => exact cursorLeft_small w c hS
  | cursorRight c => exact cursorRight_small w c hS
  | cursorPrev c => exact cursorPrev_small w c hS
  | cursorNext c => exact cursorNext_small w c hS
  | cursorHead c => exact cursorHead_small w c hS
  | cursorEnd c => exact cursorEnd_small w c hS hr
  | scrollUp c => exact scrollUp_small w c hS
  | scrollDown c => exact scrollDown_small w c hS
  | pageUp => exact pageUp_small w hS
  | pageDown => exact pageDown_small w hS
  | pageUpHalf => exact pageUpHalf_small w hS
  | pageDownHalf => exact pageDownHalf_small w hS
  | pageEnd => exact pageEnd_small w hS
  | jumpTo => exact jumpTo_small B w hS
  | startInsertHead => exact startInsertHead_small w hS
  | startAppend => exact startAppend_small w hS
  | startAppendEnd => exact startAppendEnd_small w hS
  | insert mode b => exact insert_small B w mode b hS
  | _ => rfl

theorem run_small (B : BufferOps β) (ops : List Op) (w : Window β)
    (h : w.runInRange B ops) : w.run B ops = w.runZ B ops := by
  induction ops generalizing w with
  | nil => rfl
  | cons op ops ih =>
    obtain ⟨h1, h2⟩ := h
    have e := apply_small B w op h1
    show (w.apply B op).run B ops = (w.applyZ B op).runZ B ops
    rw [← e]
    exact ih (w.apply B op) h2

/-! ## The offset is a multiple of the width -/

/-- C1 (as stated, refuted): a window made by `NewWindow` with three columns and
4611686018427387906 rows.  In `pageUp` the product `(height - 2) * width` is
`3 * (1<<62)`, which wraps around to `-(1<<62)`; the offset becomes `1<<62`, and
`offset % width` is 1. -/
theorem pageUp_tall_window_offset_not_aligned :
    (0 : Int) < 3 ∧ (0 : Int) < 4611686018427387906 ∧
    (NewWindow Buffer.ops (NewBuffer fixtureSource) "tall" 4611686018427387906 3).map
        (fun w => ((w.run Buffer.ops [Op.pageUp]).offset,
          (w.run Buffer.ops [Op.pageUp]).offset.tmod (w.run Buffer.ops [Op.pageUp]).width)) =
      some (4611686018427387904, 1) := by
  decide

/-- C1 (amended): for a window made by `NewWindow` with positive width and height, after
every finite sequence of window operations in which each call is made on a small window
(`height * width` and the absolute values of offset, cursor and length at most `1<<56`)
and no `cursorEnd` count wraps around, the offset is a multiple of the width
(`offset % width == 0`, Go's truncating remainder), whatever the buffer. -/
theorem offset_mod_width_after_ops (B : BufferOps β) (buffer : β) (name : String)
    (height width : Int) (w : Window β) (hw : 0 < width) (hh : 0 < height)
    (hnew : NewWindow B buffer name height width = some w) (ops : List Op)
    (hr : w.runInRange B ops) :
    (w.run B ops).offset.tmod (w.run B ops).width = 0 := by
  rw [run_small B ops w hr]
  exact offset_mod_width_exact B buffer name height width w hw hh hnew ops

theorem offset_mod_width_after_ops_witness :
    (fixtureWindow.run Buffer.ops
        [Op.cursorEnd 2, Op.scrollDown 1, Op.startAppend, Op.insert Mode.ModeInsert 4,
          Op.insert Mode.ModeInsert 1, Op.exitInsert, Op.pageUp, Op.jumpTo]).offset.tmod
      (fixtureWindow.run Buffer.ops
        [Op.cursorEnd 2, Op.scrollDown 1, Op.startAppend, Op.insert Mode.ModeInsert 4,
          Op.insert Mode.ModeInsert 1, Op.exitInsert, Op.pageUp, Op.jumpTo]).width = 0 :=
  offset_mod_width_after_ops Buffer.ops (NewBuffer fixtureSource) "fixture" 3 8
    fixtureWindow (by decide) (by decide) rfl _ (by decide)

/-! ## A single motion on a small window -/

/-- The part of C2 that the code keeps: on a small window with a non-negative offset that
is a multiple of the width, the cursor inside the viewport and
`0 <= cursor <= max(length,1) - 1`, every single motion whose count does not wrap around
leaves the cursor inside the viewport, `offset <= cursor < offset + height*width`; for
`pageUp` and `pageDown` the viewport has at least two rows. -/
theorem motion_keeps_cursor_in_viewport (B : BufferOps β) (w : Window β) (op : Op)
    (hop : op.isMotion = true) (hr : op.inRange w)
    (ho : 0 ≤ w.offset) (ha : w.offset.tmod w.width = 0)
    (hv1 : w.offset ≤ w.cursor) (hv2 : w.cursor < w.offset + w.height * w.width)
    (hc : 0 ≤ w.cursor) (hcL : w.cursor ≤ MaxInt64 w.length 1 - 1)
    (hpage : op = Op.pageUp ∨ op = Op.pageDown → 2 ≤ w.height) :
    (w.apply B op).offset ≤ (w.apply B op).cursor ∧
      (w.apply B op).cursor <
        (w.apply B op).offset + (w.apply B op).height * (w.apply B op).width := by
  rw [apply_small B w op hr]
  exact motion_in_viewport_exact B w op hop hr.1.1 hr.1.2.1 ho ha hv1 hv2 hc hcL hpage

/-- The part of C11 that the code keeps: on a small window with a non-negative offset
that is a multiple of the width, the cursor inside the viewport and
`0 <= cursor <= L - 1` for `L = max(length, 1)`, each single motion whose count does not
wrap around (zero and negative counts included) leaves `0 <= cursor <= L - 1`; the length
is the one before the call. -/
theorem motion_keeps_cursor_in_length (B : BufferOps β) (w : Window β) (op : Op)
    (hop : op.isMotion = true) (hr : op.inRange w)
    (ho : 0 ≤ w.offset) (ha : w.offset.tmod w.width = 0) (hv : InViewport w)
    (hc : 0 ≤ w.cursor) (hb : w.cursor ≤ MaxInt64 w.length 1 - 1) :
    0 ≤ (w.apply B op).cursor ∧
      (w.apply B op).cursor ≤ MaxInt64 (w.apply B op).length 1 - 1 ∧
      (w.apply B op).length = w.length := by
  rw [apply_small B w op hr]
  exact motion_in_length_exact B w op hop hr.1.1 hr.1.2.1 ho ha hv hc hb

/-- The part of C10 that the code keeps, on a small window: `scrollUp` always, and
`scrollDown` when the content has at least as many rows as the viewport. -/
theorem scroll_offset_bounds (w : Window β) (c : Int) (hS : w.Small)
    (ha : w.offset.tmod w.width = 0) (ho : 0 ≤ w.offset)
    (hb : w.offset ≤ MaxInt64 ((MaxInt64 w.length 1 + w.width - 1).tdiv w.width - w.height) 0 *
      w.width) :
    (0 ≤ (w.scrollUp c).offset ∧
      (w.scrollUp c).offset ≤
        MaxInt64 ((MaxInt64 w.length 1 + w.width - 1).tdiv w.width - w.height) 0 * w.width) ∧
    (w.height ≤ (MaxInt64 w.length 1 + w.width - 1).tdiv w.width →
      0 ≤ (w.scrollDown c).offset ∧
      (w.scrollDown c).offset ≤
        MaxInt64 ((MaxInt64 w.length 1 + w.width - 1).tdiv w.width - w.height) 0 * w.width) := by
  rw [scrollUp_small w c hS, scrollDown_small w c hS]
  exact scroll_offset_bounds_exact w c hS.1 ha ho hb

/-! ## The cursor after any sequence of operations -/

/-- A window made by `NewWindow` with three columns and 4611686018427387906 rows: in
`scrollUp(1)` the product `height * width` wraps around to -4611686018427387898, the test
`cursor >= offset + height*width` holds, and the cursor becomes -4611686018427387900.
The bound of `Window.Small` on `height * width` is what excludes this. -/
theorem scrollUp_tall_window_negative_cursor :
    (NewWindow Buffer.ops (NewBuffer fixtureSource) "tall" 4611686018427387906 3).map
        (fun w => (w.run Buffer.ops [Op.scrollUp 1]).cursor) =
      some (-4611686018427387900) := by
  decide

/-- C3 (amended): for a window made by `NewWindow` with positive width and height over a
byte source (its length is not negative), after every finite sequence of window
operations in which each call is made on a small window (`height * width` and the
absolute values of offset, cursor and length at most `1<<56`) and no `cursorEnd` count
wraps around, `0 <= cursor`; and after every such sequence of motions, `jumpTo`,
`deleteByte`, `deletePrevByte`, `increment` and `decrement` also `cursor < length`, or
`length = 0` and `cursor = 0`. -/
theorem cursor_after_ops (B : BufferOps β) (buffer : β) (name : String)
    (height width : Int) (w : Window β) (hw : 0 < width) (hh : 0 < height)
    (hnew : NewWindow B buffer name height width = some w) (hlen : 0 ≤ w.length)
    (ops : List Op) (hr : w.runInRange B ops) :
    0 ≤ (w.run B ops).cursor ∧
      ((∀ op ∈ ops, op.isNormal = true) →
        (w.run B ops).cursor < (w.run B ops).length ∨
          ((w.run B ops).length = 0 ∧ (w.run B ops).cursor = 0)) := by
  rw [run_small B ops w hr]
  exact cursor_after_ops_exact B buffer name height width w hw hh hnew hlen ops

theorem cursor_after_ops_witness :
    0 ≤ (fixtureWindow.run Buffer.ops
        [Op.pageEnd, Op.deleteByte 3, Op.cursorNext 40, Op.increment 1, Op.jumpTo]).cursor ∧
      ((∀ op ∈ [Op.pageEnd, Op.deleteByte 3, Op.cursorNext 40, Op.increment 1, Op.jumpTo],
          op.isNormal = true) →
        (fixtureWindow.run Buffer.ops
            [Op.pageEnd, Op.deleteByte 3, Op.cursorNext 40, Op.increment 1, Op.jumpTo]).cursor <
          (fixtureWindow.run Buffer.ops
            [Op.pageEnd, Op.deleteByte 3, Op.cursorNext 40, Op.increment 1, Op.jumpTo]).length ∨
          ((fixtureWindow.run Buffer.ops
              [Op.pageEnd, Op.deleteByte 3, Op.cursorNext 40, Op.increment 1,
                Op.jumpTo]).length = 0 ∧
            (fixtureWindow.run Buffer.ops
              [Op.pageEnd, Op.deleteByte 3, Op.cursorNext 40, Op.increment 1,
                Op.jumpTo]).cursor = 0)) :=
  cursor_after_ops Buffer.ops (NewBuffer fixtureSource) "fixture" 3 8 fixtureWindow
    (by decide) (by decide) rfl (by decide) _ (by decide)

/-! ## Replacing one byte -/

theorem insert_switch_replaceByte (B : BufferOps β) (w : Window β) (b : Nat)
    (hr : w.replaceByte = true) (ha : w.append = false) :
    Window.insert.switch B w Mode.ModeReplace b =
      { w with buffer := B.Replace w.buffer w.cursor (w.pendingByte ||| b),
               length := if w.length = 0 then 1 else w.length,
               pending := false } := by
  unfold Window.insert.switch
  dsimp only
  by_cases h0 : w.length = 0
  · rw [if_pos h0, if_pos h0, if_pos hr]
    unfold Window.exitInsert
    dsimp only
    rw [if_neg (by simp [ha]), h0]
    rfl
  · rw [if_neg h0, if_neg h0, if_pos hr]
    unfold Window.exitInsert
    dsimp only
    rw [if_neg (by simp [ha])]

theorem insert_second (B : BufferOps β) (w : Window β) (mode : Mode) (b : Nat)
    (hp : w.pending = true) (hS : w.Small)
    (hv : (Window.insert.switch B w mode b).cursor <
      (Window.insert.switch B w mode b).offset +
        (Window.insert.switch B w mode b).height * (Window.insert.switch B w mode b).width) :
    w.insert B mode b =
      { Window.insert.switch B w mode b with pending := false, pendingByte := 0 } := by
  rw [insert_small B w mode b hS]
  unfold Window.insertZ
  rw [if_pos hp]
  dsimp only
  rw [if_neg (not_le.2 hv)]

/-- C18 (as stated, refuted): the fixture window with three columns and
4611686018427387906 rows, cursor and offset 0, so that the cursor is inside the
viewport.  In the second `insert` the product `height * width` wraps around to
-4611686018427387898, the test `cursor >= offset + height*width` holds, and the offset
becomes 4611686018427387900 where the claim says it stays 0. -/
theorem replace_on_tall_window_moves_offset :
    (0 < ({ tracedWindow with height := 4611686018427387906, width := 3 } :
        Window (Buffer × List Call)).width ∧
      0 < ({ tracedWindow with height := 4611686018427387906, width := 3 } :
        Window (Buffer × List Call)).height ∧
      InViewport ({ tracedWindow with height := 4611686018427387906, width := 3 } :
        Window (Buffer × List Call))) ∧
    mul64 4611686018427387906 3 = -4611686018427387898 ∧
    ((({ tracedWindow with height := 4611686018427387906, width := 3 } :
        Window (Buffer × List Call)).startReplaceByte.insert Buffer.ops.traced
          Mode.ModeReplace 4).insert Buffer.ops.traced Mode.ModeReplace 1).offset =
      4611686018427387900 ∧
    ({ tracedWindow with height := 4611686018427387906, width := 3 } :
        Window (Buffer × List Call)).offset = 0 := by
  decide

/-- C18 (amended): on a small window (`width > 0`, `height > 0`, `height * width` and the
absolute values of offset, cursor and length at most `1<<56`) with the cursor inside the
viewport, `startReplaceByte`, then `insert(ModeReplace, hi)` and
`insert(ModeReplace, lo)` for two nibbles make exactly one editing call on the buffer,
`Replace(cursor, 16*hi + lo)` (none before the second nibble); cursor and offset stay,
`pending`, `append` and `extending` end false, and the length stays when it was not 0
and becomes 1 when it was 0. -/
theorem replace_one_byte (B : BufferOps β) (w : Window (β × List Call)) (hi lo : Nat)
    (hS : w.Small) (hv : InViewport w) (h1 : hi < 16) (h2 : lo < 16) :
    (w.startReplaceByte.insert B.traced Mode.ModeReplace hi).buffer = w.buffer ∧
      ((w.startReplaceByte.insert B.traced Mode.ModeReplace hi).insert B.traced
          Mode.ModeReplace lo).buffer =
        (B.Replace w.buffer.1 w.cursor (16 * hi + lo),
          w.buffer.2 ++ [Call.Replace w.cursor (16 * hi + lo)]) ∧
      ((w.startReplaceByte.insert B.traced Mode.ModeReplace hi).insert B.traced
          Mode.ModeReplace lo).cursor = w.cursor ∧
      ((w.startReplaceByte.insert B.traced Mode.ModeReplace hi).insert B.traced
          Mode.ModeReplace lo).offset = w.offset ∧
      ((w.startReplaceByte.insert B.traced Mode.ModeReplace hi).insert B.traced
          Mode.ModeReplace lo).pending = false ∧
      ((w.startReplaceByte.insert B.traced Mode.ModeReplace hi).insert B.traced
          Mode.ModeReplace lo).append = false ∧
      ((w.startReplaceByte.insert B.traced Mode.ModeReplace hi).insert B.traced
          Mode.ModeReplace lo).extending = false ∧
      ((w.startReplaceByte.insert B.traced Mode.ModeReplace hi).insert B.traced
          Mode.ModeReplace lo).length = (if w.length = 0 then 1 else w.length) := by
  have hn := nibbles hi lo h1 h2
  have e1 := insert_first B.traced w.startReplaceByte Mode.ModeReplace hi rfl
  have e2 := insert_switch_replaceByte B.traced
    (w.startReplaceByte.insert B.traced Mode.ModeReplace hi) lo (by rw [e1]; rfl)
    (by rw [e1]; rfl)
  have e3 := insert_second B.traced
    (w.startReplaceByte.insert B.traced Mode.ModeReplace hi) Mode.ModeReplace lo
    (by rw [e1]) (by rw [e1]; exact hS) (by rw [e2, e1]; exact hv.2)
  rw [e3, e2]
  dsimp only
  rw [e1]
  dsimp only
  rw [hn]
  exact ⟨rfl, rfl, rfl, rfl, rfl, rfl, rfl, rfl⟩

theorem replace_one_byte_witness :
    ((tracedWindow.startReplaceByte.insert Buffer.ops.traced Mode.ModeReplace 4).insert
        Buffer.ops.traced Mode.ModeReplace 1).buffer =
      ((NewBuffer fixtureSource).Replace 0 0x41, [Call.Replace 0 0x41]) ∧
    ((tracedWindow.startReplaceByte.insert Buffer.ops.traced Mode.ModeReplace 4).insert
        Buffer.ops.traced Mode.ModeReplace 1).offset = 0 :=
  ⟨(replace_one_byte Buffer.ops tracedWindow 4 1 (by decide) (by decide) (by decide)
      (by decide)).2.1,
    (replace_one_byte Buffer.ops tracedWindow 4 1 (by decide) (by decide) (by decide)
      (by decide)).2.2.2.1⟩

/-! ## Page motions with at least two rows -/

theorem page_offsets (w : Window β) :
    w.pageUpZ.offset = MaxInt64 (w.offset - (w.height - 2) * w.width) 0 ∧
      w.pageUpHalfZ.offset = MaxInt64 (w.offset - MaxInt64 (w.height.tdiv 2) 1 * w.width) 0 ∧
      w.pageDownZ.offset = MinInt64 (w.offset + (w.height - 2) * w.width)
        (MaxInt64 (((w.length + w.width - 1).tdiv w.width - w.height) * w.width) 0) ∧
      w.pageDownHalfZ.offset = MinInt64 (w.offset + MaxInt64 (w.height.tdiv 2) 1 * w.width)
        (MaxInt64 (((w.length + w.width - 1).tdiv w.width - w.height) * w.width) 0) := by
  refine ⟨?_, ?_, ?_, ?_⟩
  · unfold Window.pageUpZ; dsimp only; split_ifs <;> rfl
  · unfold Window.pageUpHalfZ; dsimp only; split_ifs <;> rfl
  · unfold Window.pageDownZ; dsimp only; split_ifs <;> rfl
  · unfold Window.pageDownHalfZ; dsimp only; split_ifs <;> rfl

theorem max_mul_right (x w : Int) (hw : 0 < w) : MaxInt64 (x * w) 0 = MaxInt64 x 0 * w := by
  rw [MaxInt64_eq, MaxInt64_eq]
  by_cases hx : 0 ≤ x
  · have := mul_nonneg hx hw.le
    rw [max_eq_left this, max_eq_left hx]
  · have := mul_neg_of_neg_of_pos (not_le.1 hx) hw
    rw [max_eq_right this.le, max_eq_right (not_le.1 hx).le, zero_mul]

/-- C20 (as stated, refuted): three columns and 6148914691236517206 rows over sixteen
bytes, offset and cursor 0; every hypothesis of the claim holds.  In `pageUp` the product
`(height - 2) * width` wraps around to -4, so the offset becomes 4: larger than before,
larger than `max((length + width - 1)/width - height, 0) * width = 0`, and the cursor,
still 0, is above the viewport. -/
theorem pageUp_tall_window_leaves_viewport :
    (1 ≤ (geometry 6148914691236517206 3 0 0 16).width ∧
      2 ≤ (geometry 6148914691236517206 3 0 0 16).height ∧
      0 ≤ (geometry 6148914691236517206 3 0 0 16).length ∧
      0 ≤ (geometry 6148914691236517206 3 0 0 16).offset ∧
      (geometry 6148914691236517206 3 0 0 16).offset.tmod
        (geometry 6148914691236517206 3 0 0 16).width = 0 ∧
      InViewport (geometry 6148914691236517206 3 0 0 16) ∧
      0 ≤ (geometry 6148914691236517206 3 0 0 16).cursor ∧
      (geometry 6148914691236517206 3 0 0 16).cursor ≤
        MaxInt64 (geometry 6148914691236517206 3 0 0 16).length 1 - 1) ∧
    mul64 (sub64 6148914691236517206 2) 3 = -4 ∧
    (geometry 6148914691236517206 3 0 0 16).pageUp.offset = 4 ∧
    (geometry 6148914691236517206 3 0 0 16).pageUp.cursor = 0 ∧
    MaxInt64 (((geometry 6148914691236517206 3 0 0 16).length +
        (geometry 6148914691236517206 3 0 0 16).width - 1).tdiv
          (geometry 6148914691236517206 3 0 0 16).width -
        (geometry 6148914691236517206 3 0 0 16).height) 0 *
      (geometry 6148914691236517206 3 0 0 16).width = 0 ∧
    ¬ InViewport (geometry 6148914691236517206 3 0 0 16).pageUp := by
  decide

/-- C20 (amended): on a small window (`height * width` and the absolute values of offset,
cursor and length at most `1<<56`) with `width >= 1`, `height >= 2`, `length >= 0`,
`offset >= 0`, `offset % width == 0`, the cursor inside the viewport and
`0 <= cursor <= max(length,1) - 1`: each of `pageUp`, `pageDown`, `pageUpHalf` and
`pageDownHalf` leaves `offset >= 0` and the cursor inside the viewport; after `pageUp`
and `pageUpHalf` the offset is not larger than before, after `pageDown` and
`pageDownHalf` it is at most `max((length + width - 1)/width - height, 0) * width`. -/
theorem page_motions_keep_offset_and_viewport (w : Window β) (hS : w.Small)
    (hw : 1 ≤ w.width)
    (hh : 2 ≤ w.height) (_hl : 0 ≤ w.length) (ho : 0 ≤ w.offset)
    (_ha : w.offset.tmod w.width = 0) (hv : InViewport w) (_hc : 0 ≤ w.cursor)
    (_hb : w.cursor ≤ MaxInt64 w.length 1 - 1) :
    (0 ≤ w.pageUp.offset ∧ w.pageUp.offset ≤ w.offset ∧ InViewport w.pageUp) ∧
      (0 ≤ w.pageUpHalf.offset ∧ w.pageUpHalf.offset ≤ w.offset ∧
        InViewport w.pageUpHalf) ∧
      (0 ≤ w.pageDown.offset ∧
        w.pageDown.offset ≤
          MaxInt64 ((w.length + w.width - 1).tdiv w.width - w.height) 0 * w.width ∧
        InViewport w.pageDown) ∧
      (0 ≤ w.pageDownHalf.offset ∧
        w.pageDownHalf.offset ≤
          MaxInt64 ((w.length + w.width - 1).tdiv w.width - w.height) 0 * w.width ∧
        InViewport w.pageDownHalf) := by
  have hw0 : 0 < w.width := by omega
  have hh0 : 0 < w.height := by omega
  rw [pageUp_small w hS, pageUpHalf_small w hS, pageDown_small w hS, pageDownHalf_small w hS]
  obtain ⟨e1, e2, e3, e4⟩ := page_offsets w
  have s1 : 0 ≤ (w.height - 2) * w.width := mul_nonneg (by omega) hw0.le
  have s2 : 0 ≤ MaxInt64 (w.height.tdiv 2) 1 * w.width :=
    mul_nonneg (by rw [MaxInt64_eq]; omega) hw0.le
  have hm := max_mul_right ((w.length + w.width - 1).tdiv w.width - w.height) w.width hw0
  rw [e1, e2, e3, e4, ← hm]
  refine ⟨⟨?_, ?_, pageUp_viewport w hw0 hh ho hv⟩,
    ⟨?_, ?_, pageUpHalf_viewport w hw0 hh0 ho hv⟩,
    ⟨?_, ?_, pageDown_viewport w hw0 hh hv⟩,
    ⟨?_, ?_, pageDownHalf_viewport w hw0 hh0 hv⟩⟩
  · rw [MaxInt64_eq]; omega
  · rw [MaxInt64_eq]; omega
  · rw [MaxInt64_eq _ 0]; omega
  · rw [MaxInt64_eq _ 0]; omega
  · rw [MinInt64_eq, MaxInt64_eq _ 0]; omega
  · rw [MinInt64_eq]; omega
  · rw [MinInt64_eq, MaxInt64_eq _ 0]; omega
  · rw [MinInt64_eq]; omega

theorem page_motions_keep_offset_and_viewport_witness :
    (0 ≤ fixtureWindow.pageUp.offset ∧ fixtureWindow.pageUp.offset ≤ fixtureWindow.offset ∧
        InViewport fixtureWindow.pageUp) ∧
      (0 ≤ fixtureWindow.pageUpHalf.offset ∧
        fixtureWindow.pageUpHalf.offset ≤ fixtureWindow.offset ∧
        InViewport fixtureWindow.pageUpHalf) ∧
      (0 ≤ fixtureWindow.pageDown.offset ∧
        fixtureWindow.pageDown.offset ≤
          MaxInt64 ((fixtureWindow.length + fixtureWindow.width - 1).tdiv fixtureWindow.width -
            fixtureWindow.height) 0 * fixtureWindow.width ∧
        InViewport fixtureWindow.pageDown) ∧
      (0 ≤ fixtureWindow.pageDownHalf.offset ∧
        fixtureWindow.pageDownHalf.offset ≤
          MaxInt64 ((fixtureWindow.length + fixtureWindow.width - 1).tdiv fixtureWindow.width -
            fixtureWindow.height) 0 * fixtureWindow.width ∧
        InViewport fixtureWindow.pageDownHalf) :=
  page_motions_keep_offset_and_viewport fixtureWindow (by decide) (by decide) (by decide)
    (by decide) (by decide) (by decide) (by decide) (by decide) (by decide)

/-! ## `cursorEnd` multiplies the count before it clamps -/

/-- C11: the window has three rows of sixteen bytes, a length of 16, offset 0 and the
cursor at 0, so it meets every condition of the claim; `cursorEnd(1<<63 - 1)` computes
`(0/16 + (1<<63 - 1)) * 16`, which wraps around to `-16`, takes one off and clamps
`-17` from above only: the cursor ends at `-17`, below 0.  The same call with a count
of `1<<59` stays in range and ends at `L - 1 = 15`. -/
theorem cursorEnd_count_wraps_around :
    (0 < (geometry 3 16 0 0 16).width ∧ 0 < (geometry 3 16 0 0 16).height ∧
      0 ≤ (geometry 3 16 0 0 16).offset ∧
      (geometry 3 16 0 0 16).offset.tmod (geometry 3 16 0 0 16).width = 0 ∧
      InViewport (geometry 3 16 0 0 16) ∧ 0 ≤ (geometry 3 16 0 0 16).cursor ∧
      (geometry 3 16 0 0 16).cursor ≤ MaxInt64 (geometry 3 16 0 0 16).length 1 - 1) ∧
    wrap64 ((0 + 9223372036854775807) * 16) = -16 ∧
    ((geometry 3 16 0 0 16).cursorEnd 9223372036854775807).cursor = -17 ∧
    ((geometry 3 16 0 0 16).cursorEnd 576460752303423488).cursor = 15 := by
  refine ⟨?_, ?_, ?_, ?_⟩ <;> decide

/-! ## `jumpTo` when the scan does start at the cursor -/

theorem isDigit_not_isWhite (b : Nat) (h : isDigit b = true) : isWhite b = false := by
  unfold isDigit at h
  unfold isWhite
  simp only [Bool.and_eq_true, decide_eq_true_eq] at h
  have h1 : (b == 0) = false := by simp; omega
  have h2 : (b == 9) = false := by simp; omega
  have h3 : (b == 10) = false := by simp; omega
  have h4 : (b == 13) = false := by simp; omega
  have h5 : (b == 32) = false := by simp; omega
  simp [h1, h2, h3, h4, h5]

theorem walkBack_spec (bytes : List Nat) (i k : Nat)
    (hall : ∀ j, i ≤ j → j < i + k → isDigit (bytes.getD j 0) = true)
    (hstop : i = 0 ∨ isDigit (bytes.getD (i - 1) 0) = false) :
    jumpTo.walkBack bytes (i + k) = i := by
  induction k with
  | zero =>
    cases i with
    | zero => rfl
    | succ m =>
      rcases hstop with h | h
      · exact absurd h (Nat.succ_ne_zero m)
      · simp only [Nat.add_sub_cancel] at h
        show jumpTo.walkBack bytes (m + 1) = m + 1
        rw [jumpTo.walkBack, h]
        rfl
  | succ k ih =>
    have hd := hall (i + k) (by omega) (by omega)
    show jumpTo.walkBack bytes (i + k + 1) = i
    simp only [jumpTo.walkBack, hd, if_true]
    exact ih (fun j h1 h2 => hall j h1 (by omega))

theorem skipDigits_spec (bytes : List Nat) (s fuel j k : Nat)
    (hall : ∀ m, j ≤ m → m < j + k → isDigit (bytes.getD m 0) = true)
    (hstop : isDigit (bytes.getD (j + k) 0) = false) (hlt : j + k < 2 * s)
    (hfuel : k < fuel) :
    jumpTo.skipDigits bytes s fuel j = j + k := by
  induction k generalizing j fuel with
  | zero =>
    obtain ⟨f, rfl⟩ : ∃ f, fuel = f + 1 := ⟨fuel - 1, by omega⟩
    simp only [Nat.add_zero] at hstop ⊢
    rw [jumpTo.skipDigits, if_neg]
    intro h
    rw [hstop] at h
    exact Bool.false_ne_true h.2
  | succ k ih =>
    obtain ⟨f, rfl⟩ : ∃ f, fuel = f + 1 := ⟨fuel - 1, by omega⟩
    have hd := hall j (le_refl _) (by omega)
    simp only [jumpTo.skipDigits, hd, and_true, if_pos (show j < 2 * s by omega)]
    rw [ih f (j + 1) (fun m h1 h2 => hall m (by omega) (by omega))
      (by rw [show j + 1 + k = j + (k + 1) by omega]; exact hstop) (by omega) (by omega)]
    omega

/-- On a small window: when index 50 of the 100 bytes that `jumpTo` reads lies in a run of digits
`[i, i + k)` that ends before index 100 and has the value `v` with `0 < v < length`,
`jumpTo` pushes the previous `(cursor, offset)` and jumps to `v`.  Index 50 is the
cursor when `cursor >= 50`. -/
theorem jumpTo_on_digits (B : BufferOps β) (w : Window β) (b1 : β) (n : Nat)
    (bytes : List Nat) (i k : Nat) (v : Int) (hS : w.Small)
    (hread : w.readBytes B (MaxInt64 (w.cursor - 50) 0) 100 = (b1, n, bytes, Err.nil))
    (hi : i ≤ 50) (hk : 50 < i + k) (hend : i + k < 100)
    (hall : ∀ j, i ≤ j → j < i + k → isDigit (bytes.getD j 0) = true)
    (hleft : i = 0 ∨ isDigit (bytes.getD (i - 1) 0) = false)
    (hright : isDigit (bytes.getD (i + k) 0) = false)
    (hv : ParseInt ((bytes.take (i + k)).drop i) = v) (hv0 : 0 < v) (hvl : v < w.length) :
    (w.jumpTo B).cursor = v ∧
      (w.jumpTo B).offset =
        MaxInt64 (v - v.tmod w.width - MaxInt64 (w.height.tdiv 3) 0 * w.width) 0 ∧
      (w.jumpTo B).stack = w.stack ++ [{ cursor := w.cursor, offset := w.offset }] := by
  have h50 := hall 50 hi hk
  have e1 : jumpTo.skipWhite bytes 50 (2 * 50) 50 = 50 := by
    show jumpTo.skipWhite bytes 50 (99 + 1) 50 = 50
    rw [jumpTo.skipWhite, if_neg]
    intro h
    rw [isDigit_not_isWhite _ h50] at h
    exact Bool.false_ne_true h.2
  have e2 : jumpTo.walkBack bytes 50 = i := by
    have := walkBack_spec bytes i (50 - i) (fun j h1 h2 => hall j h1 (by omega)) hleft
    rwa [show i + (50 - i) = 50 by omega] at this
  have e3 : jumpTo.skipDigits bytes 50 (2 * 50) i = i + k :=
    skipDigits_spec bytes 50 (2 * 50) i k hall hright (by omega) (by omega)
  rw [jumpTo_small B w hS]
  unfold Window.jumpToZ
  have hread2 : w.readBytes B (MaxInt64 (w.cursor - ((50 : Nat) : Int)) 0) (2 * 50) =
      (b1, n, bytes, Err.nil) := hread
  dsimp only
  rw [hread2]
  dsimp only
  rw [e1, e2, e3, hv]
  rw [if_neg (by rw [h50]; simp), if_neg (by omega), if_neg (by omega)]
  exact ⟨rfl, rfl, rfl⟩

/-- With the cursor at position 55 on the number `12` the same scan starts at the
cursor and the jump is made. -/
theorem jumpTo_past_fifty_jumps :
    ((windowAt (List.replicate 55 0x78 ++ ascii "12" ++ List.replicate 10 0x78)
        55).jumpTo Buffer.ops).cursor = 12 ∧
      ((windowAt (List.replicate 55 0x78 ++ ascii "12" ++ List.replicate 10 0x78)
        55).jumpTo Buffer.ops).offset = 0 ∧
      ((windowAt (List.replicate 55 0x78 ++ ascii "12" ++ List.replicate 10 0x78)
        55).jumpTo Buffer.ops).stack = [{ cursor := 55, offset := 0 }] := by
  refine ⟨?_, ?_, ?_⟩ <;> decide

/-- On the buffer held to `buffer_test.go`, `Replace` at the end keeps `Len()`, so
`increment` on an empty buffer leaves the cached length at 1 over a buffer of length
0: the length laws of section 4.1 are what keeps the two together. -/
theorem increment_on_empty_fixture_buffer :
    (emptyWindow.increment Buffer.ops 1).length = 1 ∧
      (Buffer.ops.Len (emptyWindow.increment Buffer.ops 1).buffer).1 = 0 := by
  refine ⟨?_, ?_⟩ <;> decide

/-! ## The buffer as a caller sees it -/

theorem HasContent_Holds (b : Buffer) (s : List Nat) (hb : b.HasContent s) : b.Holds s := by
  have h := readAt_content b s 0 (List.replicate (s.length + 1) 0) hb (le_refl 0)
  have e : (s.drop (0 : Int).toNat).take (List.replicate (s.length + 1) 0).length = s := by
    rw [Int.toNat_zero, List.drop_zero, List.length_replicate,
      List.take_of_length_le (by omega)]
  rw [e] at h
  refine ⟨Prod.ext hb.1 rfl, ?_, ?_⟩
  · rw [h]
  · rw [h]
    simp

theorem Holds_unique (b : Buffer) (s s2 : List Nat) (hb : b.HasContent s2)
    (hs : b.Holds s) : s = s2 := by
  obtain ⟨h1, -, h3⟩ := hs
  have hl : s.length = s2.length := by
    have h0 : ((s.length : Int)) = (s2.length : Int) := by
      have := hb.1
      rw [h1] at this
      exact this
    exact_mod_cast h0
  have h := readAt_content b s2 0 (List.replicate (s.length + 1) 0) hb (le_refl 0)
  have e : (s2.drop (0 : Int).toNat).take (List.replicate (s.length + 1) 0).length = s2 := by
    rw [Int.toNat_zero, List.drop_zero, List.length_replicate,
      List.take_of_length_le (by omega)]
  rw [e] at h
  rw [h] at h3
  rw [← h3, hl]
  simp

/-- A buffer reached from a fresh buffer by calls that address no position past the end:
what a caller sees as its content is what its positions hold. -/
theorem reached_HasContent (src : List Nat) (es : List Edit) (s : List Nat)
    (hw : (NewBuffer src).editsWithin es) (hs : ((NewBuffer src).edits es).Holds s) :
    ((NewBuffer src).edits es).HasContent s := by
  obtain ⟨s2, h2⟩ := edits_HasContent (NewBuffer src) src es (NewBuffer_HasContent src) hw
  rw [Holds_unique _ s s2 h2 hs]
  exact h2

/-! ## `Insert` inside the content -/

/-- C4 (as stated, refuted): rows 7 and 8 of `TestBufferInsert`.  After the seventh call,
`Insert(23, '9')` on 22 bytes, `Len()` is 23 and a read from 0 returns the 23 bytes
`8901723402156789abcdef9` and no more.  The eighth call is `Insert(23, '8')`, with
`i = 23 = len(s)`: `Len()` becomes 24, but the bytes read are `...def89` (the test reads
`def89` at 19), not `s ++ "8" = ...def98`. -/
theorem Insert_at_Len_after_Insert_past_end :
    (insertFixture 7).Holds (ascii "8901723402156789abcdef9") ∧
      23 ≤ (ascii "8901723402156789abcdef9").length ∧
      (insertFixture 7).Insert 23 0x38 = insertFixture 8 ∧
      (insertFixture 8).probe 19 = (5, ascii "def89\x00\x00\x00", 24) ∧
      (insertFixture 8).Len = (24, Err.nil) ∧
      ((insertFixture 8).readAt 0 (List.replicate 24 0)).2 =
        (24, ascii "8901723402156789abcdef89", Err.nil) ∧
      ascii "8901723402156789abcdef89" ≠
        (ascii "8901723402156789abcdef9").take 23 ++
          0x38 :: (ascii "8901723402156789abcdef9").drop 23 := by
  decide

/-- C4 (amended): for a buffer reached from a fresh buffer by calls of `Insert`,
`Replace` and `Delete` none of which addressed a position past the end (`Insert(i, _)`
with `i <= Len()`, `Replace(i, _)` with `i < Len()`), whose logical content is `s`, a
byte `c` and an index `i <= len(s)`: after `Insert(i, c)`, `Len()` returns `len(s) + 1`,
and seeking to 0 and reading `len(s) + 1` bytes yields `s[0:i] ++ [c] ++ s[i:]`, which
is the logical content from then on. -/
theorem Insert_within_content (src : List Nat) (es : List Edit) (s : List Nat) (c i : Nat)
    (p : List Nat) (hw : (NewBuffer src).editsWithin es)
    (hs : ((NewBuffer src).edits es).Holds s) (hi : i ≤ s.length)
    (hp : p.length = s.length + 1) :
    (((NewBuffer src).edits es).Insert i c).Len = ((s.length : Int) + 1, Err.nil) ∧
      ((((NewBuffer src).edits es).Insert i c).readAt 0 p).2 =
        (s.length + 1, s.take i ++ c :: s.drop i, Err.nil) ∧
      (((NewBuffer src).edits es).Insert i c).Holds (s.take i ++ c :: s.drop i) := by
  obtain ⟨h1, h2, h3⟩ := HasContent_Insert_read _ s c i p (reached_HasContent src es s hw hs)
    hi hp
  exact ⟨h1, h2, HasContent_Holds _ _ h3⟩

theorem Insert_within_content_witness :
    (((NewBuffer fixtureSource).edits [Edit.Insert 0 0x39, Edit.Insert 0 0x38]).Insert
        4 0x37).Len = (((ascii "890123456789abcdef").length : Int) + 1, Err.nil) ∧
      ((((NewBuffer fixtureSource).edits [Edit.Insert 0 0x39, Edit.Insert 0 0x38]).Insert
        4 0x37).readAt 0 (List.replicate 19 0)).2 =
        ((ascii "890123456789abcdef").length + 1,
          (ascii "890123456789abcdef").take 4 ++ 0x37 :: (ascii "890123456789abcdef").drop 4,
          Err.nil) ∧
      (((NewBuffer fixtureSource).edits [Edit.Insert 0 0x39, Edit.Insert 0 0x38]).Insert
        4 0x37).Holds
          ((ascii "890123456789abcdef").take 4 ++ 0x37 :: (ascii "890123456789abcdef").drop 4) :=
  Insert_within_content fixtureSource [Edit.Insert 0 0x39, Edit.Insert 0 0x38]
    (ascii "890123456789abcdef") 0x37 4 (List.replicate 19 0) (by decide) (by decide)
    (by decide) (by decide)

/-! ## `Delete` -/

/-- C5 (as stated, refuted): the buffer of `TestBufferInsert` after its seventh call,
`Insert(23, '9')` on 22 bytes, has `Len() = 23` and reads as the 23 bytes
`8901723402156789abcdef9`.  `Delete(22)`, with `22 < len(s)`, lowers `Len()` to 22, but
a read from 0 into 23 bytes still returns all 23 bytes: no byte is removed, and the
logical content is not `s[0:22] ++ s[23:]`. -/
theorem Delete_after_Insert_past_end_removes_no_byte :
    (insertFixture 7).Holds (ascii "8901723402156789abcdef9") ∧
      22 < (ascii "8901723402156789abcdef9").length ∧
      ((insertFixture 7).Delete 22).Len = (22, Err.nil) ∧
      (((insertFixture 7).Delete 22).readAt 0 (List.replicate 23 0)).2 =
        (23, ascii "8901723402156789abcdef9", Err.nil) ∧
      ¬ ((insertFixture 7).Delete 22).Holds
        ((ascii "8901723402156789abcdef9").take 22 ++
          (ascii "8901723402156789abcdef9").drop (22 + 1)) := by
  decide

/-- C5 (amended): for a buffer reached from a fresh buffer by calls of `Insert`,
`Replace` and `Delete` none of which addressed a position past the end, whose logical
content is `s`, and an index `i`: if `i < len(s)`, after `Delete(i)` the logical content
is `s[0:i] ++ s[i+1:]` and `Len()` returns `len(s) - 1`; if `i >= len(s)`, `Delete(i)`
leaves the buffer as it is. -/
theorem Delete_content (src : List Nat) (es : List Edit) (s : List Nat) (i : Nat)
    (hw : (NewBuffer src).editsWithin es) (hs : ((NewBuffer src).edits es).Holds s) :
    (i < s.length →
      (((NewBuffer src).edits es).Delete i).Holds (s.take i ++ s.drop (i + 1)) ∧
        (((NewBuffer src).edits es).Delete i).Len = ((s.length : Int) - 1, Err.nil)) ∧
    (s.length ≤ i → ((NewBuffer src).edits es).Delete i = (NewBuffer src).edits es) := by
  obtain ⟨h1, h2⟩ := HasContent_Delete_cases _ s i (reached_HasContent src es s hw hs)
  exact ⟨fun hi => ⟨HasContent_Holds _ _ (h1 hi).1, (h1 hi).2⟩, h2⟩

theorem Delete_content_witness :
    (3 < (ascii "012356789abcdef").length →
      (((NewBuffer fixtureSource).edits [Edit.Delete 4]).Delete 3).Holds
          ((ascii "012356789abcdef").take 3 ++ (ascii "012356789abcdef").drop (3 + 1)) ∧
        (((NewBuffer fixtureSource).edits [Edit.Delete 4]).Delete 3).Len =
          (((ascii "012356789abcdef").length : Int) - 1, Err.nil)) ∧
    ((ascii "012356789abcdef").length ≤ 3 →
      ((NewBuffer fixtureSource).edits [Edit.Delete 4]).Delete 3 =
        (NewBuffer fixtureSource).edits [Edit.Delete 4]) :=
  Delete_content fixtureSource [Edit.Delete 4] (ascii "012356789abcdef") 3 (by decide)
    (by decide)

/-! ## `Seek` and `Read` -/

/-- C6 (as stated, refuted): the buffer of `TestBufferInsert` after its seventh call has
`Len() = 23` and reads as the 23 bytes `8901723402156789abcdef9`; a read of one byte at
offset 23 returns `n = 1` and a nil error, where `min(1, max(23 - 23, 0)) = 0`.  And
row 8 of `TestBufferReplace` reads `n = 8` bytes at offset 9 of a buffer whose `Len()`
is 16, where `min(8, max(16 - 9, 0)) = 7`. -/
theorem Read_past_Len_after_edit_past_end :
    (insertFixture 7).Holds (ascii "8901723402156789abcdef9") ∧
      ((insertFixture 7).readAt 23 [0]).2 = (1, [0x39], Err.nil) ∧
      min (([0] : List Nat).length : Int)
        (max (((ascii "8901723402156789abcdef9").length : Int) - 23) 0) = 0 ∧
      (replaceFixture 8).Len = (16, Err.nil) ∧
      (replaceFixture 8).probe 9 = (8, ascii "9abcdef1", 16) ∧
      min (8 : Int) (max (16 - 9) 0) = 7 := by
  decide

/-- C6 (amended): for a buffer reached from a fresh buffer by calls of `Insert`,
`Replace` and `Delete` none of which addressed a position past the end, whose logical
content is `s`, an offset `o >= 0` and a destination `p` of size `k > 0`:
`Seek(o, io.SeekStart)` followed by `Read(p)` returns `n = min(k, max(len(s) - o, 0))`,
leaves `s[o : o+n]` in `p[0:n]` and `p[n:]` as it was; the error is `io.EOF` exactly
when `n = 0`, and nil otherwise, so also on a short count. -/
theorem Seek_Read_content (src : List Nat) (es : List Edit) (s : List Nat) (o : Int)
    (p : List Nat) (hw : (NewBuffer src).editsWithin es)
    (hs : ((NewBuffer src).edits es).Holds s) (ho : 0 ≤ o) (hp : 0 < p.length) :
    ((((NewBuffer src).edits es).readAt o p).2.1 : Int) =
        min (p.length : Int) (max ((s.length : Int) - o) 0) ∧
      (((NewBuffer src).edits es).readAt o p).2.2.1 =
        (s.drop o.toNat).take (((NewBuffer src).edits es).readAt o p).2.1 ++
          p.drop (((NewBuffer src).edits es).readAt o p).2.1 ∧
      ((((NewBuffer src).edits es).readAt o p).2.2.2 = Err.EOF ↔
        (((NewBuffer src).edits es).readAt o p).2.1 = 0) ∧
      ((((NewBuffer src).edits es).readAt o p).2.1 ≠ 0 →
        (((NewBuffer src).edits es).readAt o p).2.2.2 = Err.nil) :=
  HasContent_Seek_Read _ s o p (reached_HasContent src es s hw hs) ho hp

theorem Seek_Read_content_witness :
    (((((NewBuffer fixtureSource).edits [Edit.Replace 0 0x39]).readAt 12 (ascii "456789ab")).2.1 : Nat) : Int) =
        min (((ascii "456789ab").length : Nat) : Int) (max (((ascii "9123456789abcdef").length : Int) - 12) 0) ∧
      (((NewBuffer fixtureSource).edits [Edit.Replace 0 0x39]).readAt 12 (ascii "456789ab")).2.2.1 =
        ((ascii "9123456789abcdef").drop (12 : Int).toNat).take
            (((NewBuffer fixtureSource).edits [Edit.Replace 0 0x39]).readAt 12 (ascii "456789ab")).2.1 ++
          (ascii "456789ab").drop
            (((NewBuffer fixtureSource).edits [Edit.Replace 0 0x39]).readAt 12 (ascii "456789ab")).2.1 ∧
      ((((NewBuffer fixtureSource).edits [Edit.Replace 0 0x39]).readAt 12 (ascii "456789ab")).2.2.2 = Err.EOF ↔
        (((NewBuffer fixtureSource).edits [Edit.Replace 0 0x39]).readAt 12 (ascii "456789ab")).2.1 = 0) ∧
      ((((NewBuffer fixtureSource).edits [Edit.Replace 0 0x39]).readAt 12 (ascii "456789ab")).2.1 ≠ 0 →
        (((NewBuffer fixtureSource).edits [Edit.Replace 0 0x39]).readAt 12 (ascii "456789ab")).2.2.2 = Err.nil) :=
  Seek_Read_content fixtureSource [Edit.Replace 0 0x39]
    (ascii "9123456789abcdef") 12 (ascii "456789ab") (by decide)
    (by decide) (by decide) (by decide)

/-! ## `Replace` -/

theorem readAt_cells (b : Buffer) (t : List Nat) (o : Int) (p : List Nat)
    (hc : ∀ j, b.byteAt j = t[j]?) (ho : 0 ≤ o) :
    (b.readAt o p).2 =
      (((t.drop o.toNat).take p.length).length,
        (t.drop o.toNat).take p.length ++ p.drop ((t.drop o.toNat).take p.length).length,
        if ((t.drop o.toNat).take p.length).length = 0 ∧ 0 < p.length then Err.EOF
        else Err.nil) := by
  have h := readRuns_content b.source b.rrs b.tail o.toNat p.length t hc
  simp only [Buffer.readAt, Buffer.Seek, if_neg (not_lt.2 ho), Buffer.Read, h]

theorem cells_Insert (b : Buffer) (t : List Nat) (i c : Nat) (hc : ∀ j, b.byteAt j = t[j]?)
    (hi : i ≤ t.length) : ∀ j, (b.Insert i c).byteAt j = (t.take i ++ c :: t.drop i)[j]? := by
  intro j
  rw [byteAt_Insert]
  have hl : (t.take i).length = i := by simp [Nat.min_eq_left hi]
  split_ifs with h1 h2
  · rw [List.getElem?_append_left (by omega), List.getElem?_take, if_pos h1]
    exact hc j
  · subst h2
    rw [List.getElem?_append_right (by omega), hl]
    simp
  · rw [List.getElem?_append_right (by omega), hl]
    obtain ⟨k, hk⟩ : ∃ k, j - i = k + 1 := ⟨j - i - 1, by omega⟩
    rw [hk, List.getElem?_cons_succ, List.getElem?_drop, hc]
    congr 1
    omega

theorem cells_Replace (b : Buffer) (t : List Nat) (i c : Nat) (hc : ∀ j, b.byteAt j = t[j]?)
    (hi : i ≤ t.length) :
    ∀ j, (b.Replace i c).byteAt j = (if i < t.length then t.set i c else t ++ [c])[j]? := by
  intro j
  rw [byteAt_Replace]
  by_cases h1 : j = i
  · subst h1
    rw [if_pos rfl]
    split_ifs with h2
    · simp [h2]
    · have : j = t.length := by omega
      subst this
      simp
  · rw [if_neg h1, hc j]
    split_ifs with h2
    · rw [List.getElem?_set_ne (fun h => h1 h.symm)]
    · have : i = t.length := by omega
      subst this
      by_cases h3 : j < t.length
      · rw [List.getElem?_append_left h3]
      · rw [List.getElem?_eq_none (by omega), List.getElem?_eq_none (by simp; omega)]

theorem cells_Delete (b : Buffer) (t : List Nat) (i : Nat) (hc : ∀ j, b.byteAt j = t[j]?)
    (hi : (i : Int) < b.Len.1) :
    ∀ j, (b.Delete i).byteAt j = (t.take i ++ t.drop (i + 1))[j]? := by
  intro j
  rw [← List.eraseIdx_eq_take_drop_succ, byteAt_Delete b i j hi, List.getElem?_eraseIdx]
  split_ifs
  · exact hc j
  · exact hc (j + 1)

/-- A buffer reached by calls that address no position beyond the end: its positions
hold a list of bytes without a gap, at least `Len()` of them. -/
theorem editsUpTo_cells (b : Buffer) (t : List Nat) (es : List Edit)
    (hc : ∀ j, b.byteAt j = t[j]?) (hl : b.Len.1 ≤ (t.length : Int)) (hw : b.editsUpTo es) :
    ∃ t2 : List Nat, (∀ j, (b.edits es).byteAt j = t2[j]?) ∧ (b.edits es).Len.1 ≤ (t2.length : Int) := by
  induction es generalizing b t with
  | nil => exact ⟨t, hc, hl⟩
  | cons e es ih =>
    cases e with
    | Insert i c =>
      have hi : i ≤ t.length := by
        have := hw.1
        omega
      refine ih (b.Insert i c) _ (cells_Insert b t i c hc hi) ?_ hw.2
      rw [Len_Insert]
      simp [Nat.min_eq_left hi]
      omega
    | Replace i c =>
      have hi : i ≤ t.length := by
        have := hw.1
        omega
      refine ih (b.Replace i c) _ (cells_Replace b t i c hc hi) ?_ hw.2
      rw [Len_Replace]
      split_ifs
      · simpa using hl
      · simp
        omega
    | Delete i =>
      by_cases hi : (i : Int) < b.Len.1
      · refine ih (b.Delete i) _ (cells_Delete b t i hc hi) ?_ hw
        rw [Len_Delete b i hi, ← List.eraseIdx_eq_take_drop_succ, List.length_eraseIdx,
          if_pos (by omega)]
        have : 0 < t.length := by omega
        omega
      · have e : b.Delete i = b := Delete_past_end b i (not_lt.1 hi)
        have hw2 : (b.Delete i).editsUpTo es := hw
        rw [e] at hw2
        have := ih b t hc hl hw2
        simpa [Buffer.edits, Buffer.edit, e] using this

theorem take_set_comm (t : List Nat) (n i c : Nat) :
    (t.set i c).take n = (t.take n).set i c := by
  induction t generalizing n i with
  | nil => simp
  | cons a t ih =>
    cases n with
    | zero => simp
    | succ n =>
      cases i with
      | zero => simp
      | succ i => simp [ih]

theorem cells_StartsWith (b : Buffer) (t : List Nat) (n : Nat)
    (hc : ∀ j, b.byteAt j = t[j]?) (hl : b.Len.1 = (n : Int)) (hn : n ≤ t.length) :
    b.StartsWith (t.take n) := by
  have hlen : (t.take n).length = n := by simp [Nat.min_eq_left hn]
  have h := readAt_cells b t 0 (List.replicate (t.take n).length 0) hc (le_refl 0)
  rw [Int.toNat_zero, List.drop_zero, List.length_replicate, hlen] at h
  refine ⟨Prod.ext (by rw [hl, hlen]) rfl, ?_, ?_⟩
  · rw [hlen, h, hlen]
  · rw [hlen, h]
    simp [hlen]

theorem StartsWith_cells (b : Buffer) (t s : List Nat)
    (hc : ∀ j, b.byteAt j = t[j]?) (hl : b.Len.1 ≤ (t.length : Int)) (hs : b.StartsWith s) :
    s = t.take s.length ∧ s.length ≤ t.length ∧ b.Len.1 = (s.length : Int) := by
  obtain ⟨h1, -, h3⟩ := hs
  have hL : b.Len.1 = (s.length : Int) := by rw [h1]
  have hn : s.length ≤ t.length := by omega
  have h := readAt_cells b t 0 (List.replicate s.length 0) hc (le_refl 0)
  rw [Int.toNat_zero, List.drop_zero, List.length_replicate] at h
  rw [h] at h3
  have hlen : (t.take s.length).length = s.length := by simp [Nat.min_eq_left hn]
  refine ⟨?_, hn, hL⟩
  rw [hlen] at h3
  simpa using h3.symm

/-- C7 (as stated, refuted): row 8 of `TestBufferReplace`.  The buffer after seven calls
has `Len() = 16` and reads as the 16 bytes `8710106789abcdef`; after `Replace(16, '1')`
the byte is readable at position 16 (the test reads `9abcdef1` at 9), yet `Len()`
returns 16, not `max(16, 16 + 1) = 17`. -/
theorem Replace_at_end_keeps_Len :
    (replaceFixture 7).Holds (ascii "8710106789abcdef") ∧
      (replaceFixture 7).Replace 16 0x31 = replaceFixture 8 ∧
      (replaceFixture 8).probe 9 = (8, ascii "9abcdef1", 16) ∧
      (replaceFixture 8).Len = (16, Err.nil) ∧
      (replaceFixture 8).Len.1 ≠
        max (((ascii "8710106789abcdef").length : Nat) : Int) (16 + 1) := by
  decide

/-- C7 (amended): for a buffer reached from a fresh buffer by calls of `Insert`,
`Replace` and `Delete` none of which addressed a position beyond the end (`i <= Len()`
for `Insert` and `Replace`), whose first `Len()` bytes are `s`, and a byte `c`: for
`i < len(s)`, after `Replace(i, c)` `Len()` still returns `len(s)` and the first
`len(s)` bytes are `s` with `c` at `i`; for `i = len(s)`, `Len()` still returns
`len(s)`, the first `len(s)` bytes are still `s`, and a read of one byte at `i` returns
`c`.  Nothing is said for `i > len(s)`. -/
theorem Replace_content (src : List Nat) (es : List Edit) (s : List Nat) (i c x : Nat)
    (hw : (NewBuffer src).editsUpTo es) (hs : ((NewBuffer src).edits es).StartsWith s) :
    (i < s.length → (((NewBuffer src).edits es).Replace i c).StartsWith (s.set i c)) ∧
      (i = s.length →
        (((NewBuffer src).edits es).Replace i c).Len = ((s.length : Int), Err.nil) ∧
        (((NewBuffer src).edits es).Replace i c).StartsWith s ∧
        ((((NewBuffer src).edits es).Replace i c).readAt (i : Int) [x]).2 =
          (1, [c], Err.nil)) := by
  obtain ⟨t, hc, hl⟩ := editsUpTo_cells (NewBuffer src) src es (NewBuffer_HasContent src).2
    (by rw [(NewBuffer_HasContent src).1]) hw
  obtain ⟨e1, e2, e3⟩ := StartsWith_cells _ t s hc hl hs
  have hlen : (((NewBuffer src).edits es).Replace i c).Len.1 = (s.length : Int) := by
    rw [Len_Replace, e3]
  constructor
  · intro hi
    have hc2 := cells_Replace _ t i c hc (by omega)
    rw [if_pos (by omega)] at hc2
    have := cells_StartsWith _ (t.set i c) s.length hc2 hlen (by simpa using e2)
    rw [take_set_comm, ← e1] at this
    exact this
  · intro hi
    subst hi
    have hc2 := cells_Replace _ t s.length c hc (by omega)
    have hb : (((NewBuffer src).edits es).Replace s.length c).byteAt s.length = some c := by
      rw [byteAt_Replace, if_pos rfl]
    refine ⟨Prod.ext hlen rfl, ?_, readAt_one _ _ _ _ hb⟩
    by_cases h2 : s.length < t.length
    · rw [if_pos h2] at hc2
      have := cells_StartsWith _ (t.set s.length c) s.length hc2 hlen (by simpa using e2)
      rw [take_set_comm, ← e1, List.set_eq_of_length_le (le_refl _)] at this
      exact this
    · rw [if_neg h2] at hc2
      have := cells_StartsWith _ (t ++ [c]) s.length hc2 hlen (by simp; omega)
      rw [List.take_append_of_le_length e2, ← e1] at this
      exact this

theorem Replace_content_witness :
    (15 < (ascii "8710106789abcdef").length →
      (((NewBuffer fixtureSource).edits
        [Edit.Replace 0 0x39, Edit.Replace 0 0x38, Edit.Replace 1 0x37, Edit.Replace 5 0x30,
          Edit.Replace 4 0x31, Edit.Replace 3 0x30, Edit.Replace 2 0x31,
          Edit.Replace 16 0x31]).Replace 15 0x30).StartsWith
        ((ascii "8710106789abcdef").set 15 0x30)) ∧
      (15 = (ascii "8710106789abcdef").length →
        (((NewBuffer fixtureSource).edits
          [Edit.Replace 0 0x39, Edit.Replace 0 0x38, Edit.Replace 1 0x37, Edit.Replace 5 0x30,
            Edit.Replace 4 0x31, Edit.Replace 3 0x30, Edit.Replace 2 0x31,
            Edit.Replace 16 0x31]).Replace 15 0x30).Len =
          (((ascii "8710106789abcdef").length : Int), Err.nil) ∧
        (((NewBuffer fixtureSource).edits
          [Edit.Replace 0 0x39, Edit.Replace 0 0x38, Edit.Replace 1 0x37, Edit.Replace 5 0x30,
            Edit.Replace 4 0x31, Edit.Replace 3 0x30, Edit.Replace 2 0x31,
            Edit.Replace 16 0x31]).Replace 15 0x30).StartsWith (ascii "8710106789abcdef") ∧
        ((((NewBuffer fixtureSource).edits
          [Edit.Replace 0 0x39, Edit.Replace 0 0x38, Edit.Replace 1 0x37, Edit.Replace 5 0x30,
            Edit.Replace 4 0x31, Edit.Replace 3 0x30, Edit.Replace 2 0x31,
            Edit.Replace 16 0x31]).Replace 15 0x30).readAt ((15 : Nat) : Int) [0]).2 =
          (1, [0x30], Err.nil)) :=
  Replace_content fixtureSource
    [Edit.Replace 0 0x39, Edit.Replace 0 0x38, Edit.Replace 1 0x37, Edit.Replace 5 0x30,
      Edit.Replace 4 0x31, Edit.Replace 3 0x30, Edit.Replace 2 0x31, Edit.Replace 16 0x31]
    (ascii "8710106789abcdef") 15 0x30 0 (by decide) (by decide)

/-! ## `Insert` one past the end -/

theorem Run.bytes_length_le (source : List Nat) (r : Run) :
    (r.bytes source).length ≤ r.size := by
  cases r with
  | original pos len => simp [Run.bytes, Run.size]
  | overlay bytes => simp [Run.bytes, Run.size]

/-- A read from the start that asks for at least as many bytes as the runs are wide
gets the bytes of the runs and of the rest of the source, one after the other. -/
theorem readRuns_all (source : List Nat) (rs : List Run) (t want : Nat)
    (h : runsSize rs ≤ want) :
    readRuns source rs t 0 want = (runsBytes source rs t).take want := by
  induction rs generalizing want with
  | nil => simp [readRuns, runsBytes]
  | cons r rs ih =>
    simp only [runsSize] at h
    have hb := Run.bytes_length_le source r
    simp only [readRuns, runsBytes]
    by_cases h0 : r.size = 0
    · have e : r.bytes source = [] := List.eq_nil_of_length_eq_zero (by omega)
      rw [if_pos (by omega), e, List.nil_append, h0]
      exact ih want (by omega)
    · rw [if_neg (by omega), if_neg (by omega)]
      simp only [Nat.sub_zero, List.drop_zero]
      have e1 : (r.bytes source).take (min want r.size) = r.bytes source := by
        rw [Nat.min_eq_right (by omega), List.take_of_length_le hb]
      rw [e1, ih (want - (r.bytes source).length) (by omega),
        List.take_append_eq_append_take,
        List.take_of_length_le (show (r.bytes source).length ≤ want by omega)]

theorem runsBytes_pushRun (source : List Nat) (r : Run) (rs : List Run) (t : Nat) :
    runsBytes source (pushRun r (rs, t)).1 (pushRun r (rs, t)).2 =
      r.bytes source ++ runsBytes source rs t := by
  rcases pushRun_cases r rs t with ⟨h0, e⟩ | ⟨a, b, rs2, rfl, rfl, e⟩ |
    ⟨p, l, m, rs2, rfl, rfl, e⟩ | ⟨p, l, rfl, rfl, rfl, e⟩ | ⟨-, e⟩
  · have hb := Run.bytes_length_le source r
    rw [e, List.eq_nil_of_length_eq_zero (show (r.bytes source).length = 0 by omega)]
    rfl
  · rw [e]
    simp [runsBytes, Run.bytes]
  · rw [e]
    simp only [runsBytes, Run.bytes, ← List.append_assoc]
    congr 1
    rw [List.take_add, List.drop_drop]
  · rw [e]
    simp only [runsBytes, Run.bytes]
    rw [← List.drop_drop, List.take_append_drop]
  · rw [e]
    rfl

theorem runsBytes_normalize (source : List Nat) (rs : List Run) (t : Nat) :
    runsBytes source (normalize rs t).1 (normalize rs t).2 = runsBytes source rs t := by
  induction rs with
  | nil => rfl
  | cons r rs ih =>
    show runsBytes source (pushRun r (normalize rs t)).1 (pushRun r (normalize rs t)).2 = _
    rw [show normalize rs t = ((normalize rs t).1, (normalize rs t).2) from rfl,
      runsBytes_pushRun, ih]
    rfl

theorem runsBytes_append (source : List Nat) (l r : List Run) (t : Nat) :
    runsBytes source (l ++ r) t = runsBytes source l source.length ++ runsBytes source r t := by
  induction l with
  | nil => simp [runsBytes]
  | cons a l ih => simp [runsBytes, ih]

theorem Run.bytes_take_drop (source : List Nat) (r : Run) (i : Nat) (h : i ≤ r.size) :
    (r.take i).bytes source ++ (r.drop i).bytes source = r.bytes source := by
  cases r with
  | original pos len =>
    simp only [Run.size] at h
    simp only [Run.take, Run.drop, Run.bytes, Nat.min_eq_left h]
    rw [← List.drop_drop, ← List.take_add]
    congr 1
    omega
  | overlay bytes => simp [Run.take, Run.drop, Run.bytes]

theorem splitRuns_bytes (source : List Nat) (rs : List Run) (t i : Nat) :
    runsBytes source (splitRuns rs t i).1 source.length ++
        runsBytes source (splitRuns rs t i).2.1 (splitRuns rs t i).2.2 =
      runsBytes source rs t := by
  induction rs generalizing i with
  | nil =>
    simp only [splitRuns, runsBytes, Run.bytes, List.drop_length, List.append_nil]
    rw [← List.drop_drop, List.take_append_drop]
  | cons r rs ih =>
    simp only [splitRuns]
    split_ifs with h
    · simp only [runsBytes, List.drop_length, List.append_nil]
      rw [← List.append_assoc, Run.bytes_take_drop source r i (by omega)]
    · simp only [runsBytes, List.append_assoc]
      rw [ih]

theorem splitRuns_right_nil (rs : List Run) (t i : Nat) (h : runsSize rs ≤ i) :
    (splitRuns rs t i).2.1 = [] := by
  induction rs generalizing i with
  | nil => rfl
  | cons r rs ih =>
    simp only [runsSize] at h
    simp only [splitRuns]
    rw [if_neg (by omega)]
    exact ih (i - r.size) (by omega)

/-- The bytes that the runs yield are the bytes that the positions hold, when these are
without a gap. -/
theorem runsBytes_of_cells (source : List Nat) (rs : List Run) (t : Nat) (s : List Nat)
    (h : ∀ j, cellAt source rs t j = s[j]?) : runsBytes source rs t = s := by
  have h1 := readRuns_content source rs t 0
    (runsSize rs + s.length + (runsBytes source rs t).length) s h
  rw [readRuns_all source rs t _ (by omega), List.drop_zero,
    List.take_of_length_le (by omega), List.take_of_length_le (by omega)] at h1
  exact h1

theorem runsSize_normalize_le (rs : List Run) (t : Nat) :
    runsSize (normalize rs t).1 ≤ runsSize rs := by
  have h1 := runsSize_normalize rs t
  have h2 := normalize_tail_le rs t
  omega

/-- On a buffer whose positions hold exactly `s`, with the last run-range inside the
source: after `Insert(i, c)` with `i > len(s)`, a read from the start into at least
`i + 1` bytes returns the bytes of `s` and then `c`. -/
theorem Insert_beyond_read (b : Buffer) (s : List Nat) (i c : Nat) (p : List Nat)
    (hb : b.HasContent s) (ht : b.tail ≤ b.source.length) (hi : s.length < i)
    (hp : i + 1 ≤ p.length) :
    ((b.Insert i c).readAt 0 p).2 =
      (s.length + 1, s ++ c :: p.drop (s.length + 1), Err.nil) := by
  have hR : runsSize b.rrs ≤ i := by
    have := hb.1
    simp only [Buffer.Len] at this
    omega
  have hnil := splitRuns_right_nil b.rrs b.tail i hR
  have hsz := splitRuns_size b.rrs b.tail i
  have hbytes := splitRuns_bytes b.source b.rrs b.tail i
  have hall : runsBytes b.source b.rrs b.tail = s := runsBytes_of_cells _ _ _ s hb.2
  have hright : runsBytes b.source (splitRuns b.rrs b.tail i).2.1
      (splitRuns b.rrs b.tail i).2.2 = [] := by
    apply runsBytes_of_cells
    intro j
    rw [splitRuns_right]
    have := hb.2 (i + j)
    simp only [Buffer.byteAt] at this
    rw [this, List.getElem?_eq_none (by omega)]
    rfl
  rw [hright, List.append_nil, hall] at hbytes
  have hnew : runsBytes b.source (b.Insert i c).rrs (b.Insert i c).tail = s ++ [c] := by
    show runsBytes b.source (normalize _ _).1 (normalize _ _).2 = _
    rw [runsBytes_normalize, runsBytes_append, hbytes]
    simp only [runsBytes, Run.bytes]
    rw [hright]
    simp
  have hsize : runsSize (b.Insert i c).rrs ≤ p.length := by
    have h1 := runsSize_normalize_le
      ((splitRuns b.rrs b.tail i).1 ++ Run.overlay [c] :: (splitRuns b.rrs b.tail i).2.1)
      (splitRuns b.rrs b.tail i).2.2
    rw [runsSize_append, hsz, hnil] at h1
    simp only [runsSize, Run.size, List.length_singleton] at h1
    have : (b.Insert i c).rrs = (normalize
      ((splitRuns b.rrs b.tail i).1 ++ Run.overlay [c] :: (splitRuns b.rrs b.tail i).2.1)
      (splitRuns b.rrs b.tail i).2.2).1 := rfl
    rw [this, hnil]
    omega
  have hread := readRuns_all b.source (b.Insert i c).rrs (b.Insert i c).tail p.length hsize
  have hsrc : (b.Insert i c).source = b.source := rfl
  rw [hnew, List.take_of_length_le (by simp; omega)] at hread
  simp only [Buffer.readAt, Buffer.Seek, if_neg (lt_irrefl (0 : Int)), Buffer.Read,
    Int.toNat_zero, hsrc, hread]
  simp

/-- C8 (as stated, refuted): row 7 of `TestBufferInsert`.  The buffer after six calls has
`Len() = 22` and reads as the 22 bytes `8901723402156789abcdef`; after `Insert(23, '9')`,
`Len()` returns 23, not `23 + 1`, eight bytes read at 19 are `def9`, and a read of one
byte at position 22 returns `'9'`, not a zero byte. -/
theorem Insert_past_end_adds_one :
    (insertFixture 6).Holds (ascii "8901723402156789abcdef") ∧
      (ascii "8901723402156789abcdef").length < 23 ∧
      (insertFixture 6).Insert 23 0x39 = insertFixture 7 ∧
      (insertFixture 7).probe 19 = (4, ascii "def9\x00\x00\x00\x00", 23) ∧
      (insertFixture 7).Len = (23, Err.nil) ∧
      (insertFixture 7).Len.1 ≠ 23 + 1 ∧
      ((insertFixture 7).readAt 22 [0]).2 = (1, [0x39], Err.nil) := by
  decide

/-- C8 (amended): for a buffer reached from a fresh buffer by calls of `Insert`,
`Replace` and `Delete` none of which addressed a position past the end, whose logical
content is `s`, a byte `c` and the index `i = len(s) + 1`, the one case that the fixture
has: after `Insert(i, c)`, `Len()` returns `len(s) + 1`, not `i + 1`, and a read from 0
into `i + 1` bytes or more returns `len(s) + 1` bytes, those of `s` and then `c`, with no
zero byte between them, and leaves the rest of the destination as it was. -/
theorem Insert_past_end (src : List Nat) (es : List Edit) (s : List Nat) (i c : Nat)
    (p : List Nat) (hw : (NewBuffer src).editsWithin es)
    (hs : ((NewBuffer src).edits es).Holds s) (hi : i = s.length + 1)
    (hp : i + 1 ≤ p.length) :
    (((NewBuffer src).edits es).Insert i c).Len = ((s.length : Int) + 1, Err.nil) ∧
      ((((NewBuffer src).edits es).Insert i c).readAt 0 p).2 =
        (s.length + 1, s ++ c :: p.drop (s.length + 1), Err.nil) := by
  have hb := reached_HasContent src es s hw hs
  have ht := tail_le_edits (NewBuffer src) es (Nat.zero_le _) hw
  refine ⟨Prod.ext ?_ rfl, Insert_beyond_read _ s i c p hb ht (by omega) hp⟩
  rw [Len_Insert, hb.1]

theorem Insert_past_end_witness :
    (((NewBuffer fixtureSource).edits
        [Edit.Insert 0 0x39, Edit.Insert 0 0x38, Edit.Insert 4 0x37, Edit.Insert 8 0x30,
          Edit.Insert 9 0x31, Edit.Insert 9 0x32]).Insert 23 0x39).Len =
        (((ascii "8901723402156789abcdef").length : Int) + 1, Err.nil) ∧
      ((((NewBuffer fixtureSource).edits
        [Edit.Insert 0 0x39, Edit.Insert 0 0x38, Edit.Insert 4 0x37, Edit.Insert 8 0x30,
          Edit.Insert 9 0x31, Edit.Insert 9 0x32]).Insert 23 0x39).readAt 0
            (List.replicate 24 0)).2 =
        ((ascii "8901723402156789abcdef").length + 1,
          ascii "8901723402156789abcdef" ++
            0x39 :: (List.replicate 24 0).drop ((ascii "8901723402156789abcdef").length + 1),
          Err.nil) :=
  Insert_past_end fixtureSource
    [Edit.Insert 0 0x39, Edit.Insert 0 0x38, Edit.Insert 4 0x37, Edit.Insert 8 0x30,
      Edit.Insert 9 0x31, Edit.Insert 9 0x32]
    (ascii "8901723402156789abcdef") 23 0x39 (List.replicate 24 0) (by decide) (by decide)
    (by decide) (by decide)

/-! ## The edited indices and the calls that were made -/

theorem Run.mark_size (r : Run) : r.mark.size = r.size := by
  cases r <;> simp [Run.mark, Run.size]

theorem Run.mark_take (r : Run) (k : Nat) : (r.take k).mark = r.mark.take k := by
  cases r <;> simp [Run.mark, Run.take, List.map_take]

theorem Run.mark_drop (r : Run) (k : Nat) : (r.drop k).mark = r.mark.drop k := by
  cases r <;> simp [Run.mark, Run.drop, List.map_drop]

theorem runsSize_mark (rs : List Run) : runsSize (rs.map Run.mark) = runsSize rs := by
  induction rs with
  | nil => rfl
  | cons r rs ih => simp [runsSize, Run.mark_size, ih]

theorem splitRuns_mark (rs : List Run) (t i : Nat) :
    splitRuns (rs.map Run.mark) t i =
      ((splitRuns rs t i).1.map Run.mark, (splitRuns rs t i).2.1.map Run.mark,
        (splitRuns rs t i).2.2) := by
  induction rs generalizing i with
  | nil => rfl
  | cons r rs ih =>
    simp only [List.map_cons, splitRuns, Run.mark_size]
    split_ifs with h
    · simp [Run.mark_take, Run.mark_drop]
    · rw [ih]
      simp

theorem pushRun_mark (r : Run) (rs : List Run) (t : Nat) :
    pushRun r.mark (rs.map Run.mark, t) =
      ((pushRun r (rs, t)).1.map Run.mark, (pushRun r (rs, t)).2) := by
  cases r with
  | overlay a =>
    cases a with
    | nil => simp [Run.mark, pushRun]
    | cons x a =>
      cases rs with
      | nil => simp [Run.mark, pushRun]
      | cons r2 rs =>
        cases r2 <;> simp [Run.mark, pushRun]
  | original p l =>
    cases l with
    | zero => simp [Run.mark, pushRun]
    | succ l =>
      cases rs with
      | nil =>
        simp only [Run.mark, pushRun, List.map_nil]
        split_ifs <;> simp [Run.mark]
      | cons r2 rs =>
        cases r2 with
        | original q m =>
          simp only [Run.mark, pushRun, List.map_cons]
          split_ifs <;> simp [Run.mark]
        | overlay b => simp [Run.mark, pushRun]

theorem normalize_mark (rs : List Run) (t : Nat) :
    normalize (rs.map Run.mark) t = ((normalize rs t).1.map Run.mark, (normalize rs t).2) := by
  induction rs with
  | nil => rfl
  | cons r rs ih =>
    show pushRun r.mark (normalize (rs.map Run.mark) t) = _
    rw [ih, pushRun_mark]
    rfl

theorem behead_mark (rs : List Run) (t : Nat) :
    behead (rs.map Run.mark) t = ((behead rs t).1.map Run.mark, (behead rs t).2) := by
  cases rs with
  | nil => rfl
  | cons r rs => simp [behead, Run.mark_drop]

theorem Len_mark (b : Buffer) : b.mark.Len = b.Len := by
  simp [Buffer.mark, Buffer.Len, runsSize_mark]

theorem Insert_mark (b : Buffer) (i c : Nat) : (b.Insert i c).mark = b.mark.Insert i 1 := by
  simp only [Buffer.Insert, Buffer.mark, splitRuns_mark]
  rw [show (List.map Run.mark (splitRuns b.rrs b.tail i).1 ++
      Run.overlay [1] :: List.map Run.mark (splitRuns b.rrs b.tail i).2.1) =
    List.map Run.mark ((splitRuns b.rrs b.tail i).1 ++
      Run.overlay [c] :: (splitRuns b.rrs b.tail i).2.1) by simp [Run.mark], normalize_mark]

theorem Replace_mark (b : Buffer) (i c : Nat) : (b.Replace i c).mark = b.mark.Replace i 1 := by
  simp only [Buffer.Replace, Buffer.mark, splitRuns_mark, behead_mark]
  rw [show (List.map Run.mark (splitRuns b.rrs b.tail i).1 ++
      Run.overlay [1] ::
        List.map Run.mark (behead (splitRuns b.rrs b.tail i).2.1
          (splitRuns b.rrs b.tail i).2.2).1) =
    List.map Run.mark ((splitRuns b.rrs b.tail i).1 ++
      Run.overlay [c] ::
        (behead (splitRuns b.rrs b.tail i).2.1 (splitRuns b.rrs b.tail i).2.2).1) by
      simp [Run.mark], normalize_mark]

theorem Delete_mark (b : Buffer) (i : Nat) : (b.Delete i).mark = b.mark.Delete i := by
  unfold Buffer.Delete
  rw [Len_mark]
  split_ifs
  · simp only [Buffer.mark, splitRuns_mark, behead_mark]
    rw [← List.map_append, normalize_mark]
  · rfl

theorem edit_mark (b : Buffer) (e : Edit) : (b.edit e).mark = b.mark.edit e.mark := by
  cases e with
  | Insert i c => exact Insert_mark b i c
  | Replace i c => exact Replace_mark b i c
  | Delete i => exact Delete_mark b i

/-- The positions of the marked buffer hold the outcome of the calls read on lists. -/
theorem marked_edits_content (b : Buffer) (l : List Nat) (es : List Edit)
    (hb : b.mark.HasContent l) (hw : b.editsWithin es) :
    (b.edits es).mark.HasContent (es.foldl (fun l e => e.onList 1 l) l) := by
  induction es generalizing b l with
  | nil => exact hb
  | cons e es ih =>
    have hL : b.Len.1 = (l.length : Int) := by rw [← Len_mark, hb.1]
    cases e with
    | Insert i c =>
      have hi : i ≤ l.length := by
        have := hw.1
        omega
      refine ih (b.Insert i c) _ ?_ hw.2
      rw [Insert_mark]
      exact HasContent_Insert b.mark l i 1 hb hi
    | Replace i c =>
      have hi : i < l.length := by
        have := hw.1
        omega
      refine ih (b.Replace i c) _ ?_ hw.2
      rw [Replace_mark]
      exact HasContent_Replace b.mark l i 1 hb hi
    | Delete i =>
      by_cases hi : i < l.length
      · refine ih (b.Delete i) _ ?_ hw
        rw [Delete_mark]
        exact HasContent_Delete b.mark l i hb hi
      · have e : b.Delete i = b := Delete_past_end b i (by omega)
        have hw2 : (b.Delete i).editsWithin es := hw
        rw [e] at hw2
        have h := ih b l hb hw2
        have el : (Edit.Delete i).onList 1 l = l := by
          simp only [Edit.onList]
          rw [List.take_of_length_le (by omega), List.drop_of_length_le (by omega),
            List.append_nil]
        simpa [Buffer.edits, Buffer.edit, e, el] using h

theorem onList_map {α γ : Type} (f : α → γ) (x : α) (e : Edit) (l : List α) :
    (e.onList x l).map f = e.onList (f x) (l.map f) := by
  cases e <;> simp [Edit.onList, List.map_take, List.map_drop, List.map_set]

theorem foldl_onList_map {α γ : Type} (f : α → γ) (x : α) (es : List Edit) (l : List α) :
    (es.foldl (fun l e => e.onList x l) l).map f =
      es.foldl (fun l e => e.onList (f x) l) (l.map f) := by
  induction es generalizing l with
  | nil => rfl
  | cons e es ih =>
    simp only [List.foldl_cons]
    rw [ih, onList_map]

theorem cellAt_mark (source : List Nat) (rs : List Run) (t i : Nat) :
    cellAt (source.map (fun _ => 0)) (rs.map Run.mark) t i = some 1 ↔
      overlayAt rs i = true := by
  induction rs generalizing i with
  | nil =>
    simp only [List.map_nil, cellAt, overlayAt]
    rw [List.getElem?_map]
    cases source[t + i]? <;> simp
  | cons r rs ih =>
    simp only [List.map_cons, cellAt, overlayAt, Run.mark_size]
    split_ifs with h
    · cases r with
      | original pos len =>
        simp only [Run.mark, Run.bytes, Run.isOverlay]
        rw [List.getElem?_take, List.getElem?_drop, List.getElem?_map]
        split_ifs <;> cases source[pos + i]? <;> simp
      | overlay bytes =>
        simp only [Run.size] at h
        simp [Run.mark, Run.bytes, Run.isOverlay, h]
    · exact ih _

/-- After calls that address no position past the end, a position lies in an overlay
run exactly when the calls, read on lists, have written it. -/
theorem overlayAt_editedFlags (src : List Nat) (es : List Edit)
    (hw : (NewBuffer src).editsWithin es) (p : Nat) :
    overlayAt ((NewBuffer src).edits es).rrs p = true ↔
      (editedFlags src.length es)[p]? = some true := by
  have h0 : (NewBuffer src).mark.HasContent
      ((List.replicate src.length false).map (fun f => if f then 1 else 0)) := by
    have := NewBuffer_HasContent (src.map (fun _ => 0))
    rw [List.map_replicate]
    simpa [NewBuffer, Buffer.mark, List.map_const', Function.const] using this
  have h1 := marked_edits_content (NewBuffer src) _ es h0 hw
  have h2 := foldl_onList_map (fun f : Bool => if f then 1 else 0) true es
    (List.replicate src.length false)
  simp only [if_true] at h2
  rw [← h2] at h1
  have h3 := h1.2 p
  have hsrc : ((NewBuffer src).edits es).source = src := by
    clear h0 h1 h2 h3 hw
    generalize hb : NewBuffer src = b
    have : b.source = src := by rw [← hb]; rfl
    clear hb
    induction es generalizing b with
    | nil => exact this
    | cons e es ih =>
      exact ih (b.edit e) (by rw [edit_source, this])
  rw [← cellAt_mark ((NewBuffer src).edits es).source]
  simp only [Buffer.byteAt, Buffer.mark] at h3
  rw [h3, List.getElem?_map]
  unfold editedFlags
  cases (List.foldl (fun l e => Edit.onList true e l) (List.replicate src.length false) es)[p]?
    with
  | none => simp
  | some f => cases f <;> simp

/-- C9 (amended): for every buffer reached from a fresh buffer by a sequence of `Insert`,
`Replace` and `Delete` calls, `EditedIndices()` has even length and strictly increasing
entries.  When no call of the sequence addressed a position past the end of the buffer
it was made on, every entry lies in `[0, Len()]`, the pairs `[e0, e1), [e2, e3), ...`
cover exactly the positions whose byte was written by a call of `Insert` or `Replace`
(the calls read on a list with one flag per position, `editedFlags`), and the list is
empty when there is no such position. -/
theorem EditedIndices_spec (src : List Nat) (es : List Edit) :
    ((NewBuffer src).edits es).EditedIndices.length % 2 = 0 ∧
      ((NewBuffer src).edits es).EditedIndices.Pairwise (· < ·) ∧
      ((NewBuffer src).editsWithin es →
        (∀ e ∈ ((NewBuffer src).edits es).EditedIndices,
          0 ≤ e ∧ e ≤ ((NewBuffer src).edits es).Len.1) ∧
        (∀ p : Nat, covered ((NewBuffer src).edits es).EditedIndices p ↔
          (editedFlags src.length es)[p]? = some true) ∧
        ((∀ p : Nat, (editedFlags src.length es)[p]? ≠ some true) →
          ((NewBuffer src).edits es).EditedIndices = [])) := by
  obtain ⟨h1, h2, h3, h4, h5⟩ := EditedIndices_runs src es
  refine ⟨h1, h2, fun hw => ⟨h5 hw, fun p => ?_, fun hn => h4 fun p => ?_⟩⟩
  · rw [h3 p, overlayAt_editedFlags src es hw p]
  · have := mt (overlayAt_editedFlags src es hw p).1 (hn p)
    simpa using this

theorem EditedIndices_spec_witness :
    (∀ e ∈ ((NewBuffer fixtureSource).edits
        [Edit.Insert 0 0x39, Edit.Insert 0 0x38, Edit.Insert 4 0x37, Edit.Insert 8 0x30,
          Edit.Insert 9 0x31, Edit.Insert 9 0x32]).EditedIndices,
      0 ≤ e ∧ e ≤ ((NewBuffer fixtureSource).edits
        [Edit.Insert 0 0x39, Edit.Insert 0 0x38, Edit.Insert 4 0x37, Edit.Insert 8 0x30,
          Edit.Insert 9 0x31, Edit.Insert 9 0x32]).Len.1) ∧
      (∀ p : Nat, covered ((NewBuffer fixtureSource).edits
          [Edit.Insert 0 0x39, Edit.Insert 0 0x38, Edit.Insert 4 0x37, Edit.Insert 8 0x30,
            Edit.Insert 9 0x31, Edit.Insert 9 0x32]).EditedIndices p ↔
        (editedFlags fixtureSource.length
          [Edit.Insert 0 0x39, Edit.Insert 0 0x38, Edit.Insert 4 0x37, Edit.Insert 8 0x30,
            Edit.Insert 9 0x31, Edit.Insert 9 0x32])[p]? = some true) ∧
      ((∀ p : Nat, (editedFlags fixtureSource.length
          [Edit.Insert 0 0x39, Edit.Insert 0 0x38, Edit.Insert 4 0x37, Edit.Insert 8 0x30,
            Edit.Insert 9 0x31, Edit.Insert 9 0x32])[p]? ≠ some true) →
        ((NewBuffer fixtureSource).edits
          [Edit.Insert 0 0x39, Edit.Insert 0 0x38, Edit.Insert 4 0x37, Edit.Insert 8 0x30,
            Edit.Insert 9 0x31, Edit.Insert 9 0x32]).EditedIndices = []) :=
  (EditedIndices_spec fixtureSource
    [Edit.Insert 0 0x39, Edit.Insert 0 0x38, Edit.Insert 4 0x37, Edit.Insert 8 0x30,
      Edit.Insert 9 0x31, Edit.Insert 9 0x32]).2.2 (by decide)

/-- The flags of the fixtures: after the first six calls of `TestBufferInsert` the
positions written are 0, 1, 4, 8, 9 and 10, and the edited indices are their intervals;
after the calls of `TestBufferDelete` no written position is left. -/
theorem fixture_editedFlags :
    editedFlags fixtureSource.length
        [Edit.Insert 0 0x39, Edit.Insert 0 0x38, Edit.Insert 4 0x37, Edit.Insert 8 0x30,
          Edit.Insert 9 0x31, Edit.Insert 9 0x32] =
      [true, true, false, false, true, false, false, false, true, true, true, false,
        false, false, false, false, false, false, false, false, false, false] ∧
    (insertFixture 6).EditedIndices = [0, 2, 4, 5, 8, 11] ∧
    editedFlags fixtureSource.length
        [Edit.Delete 4, Edit.Delete 3, Edit.Delete 6, Edit.Delete 0, Edit.Insert 4 0x39,
          Edit.Insert 5 0x38, Edit.Delete 3, Edit.Delete 4, Edit.Delete 3, Edit.Insert 8 0x39,
          Edit.Insert 8 0x38, Edit.Delete 8, Edit.Delete 8] =
      List.replicate 11 false ∧
    (deleteFixture 13).EditedIndices = [] := by
  decide

end Bed
